import Mathlib

/-!
Verification of the layered configuration registry ("viper"): a shallow
embedding of the key/value-tree data model, path addressing (`splitKey`,
`deepGet`, `deepSet`, `flattenKeys`), RFC-7386-style `deepMerge`, the
environment resolver, the alias resolver, and the `Viper` registry itself,
together with theorems settling the specification claims.

JavaScript values are modelled by the closed variant `Value`
(null / boolean / number / string / array / object); objects are
insertion-ordered association lists with unique keys, matching the
observable behaviour of plain JS objects (own enumerable properties).
JS `undefined` is modelled as `Option.none` at lookup sites; prototype
properties (e.g. `constructor`) and the array `length` property are outside
the embedded value domain.  The process environment is passed explicitly
as a function `String → Option String`, matching the spec's design note
that the resolver should read a substitutable environment provider.
-/

namespace VSpec

/-- A JSON5-like runtime value: the closed variant from spec section 3. -/
inductive Value where
  | vnull
  | vbool (b : Bool)
  | vnum (n : Int)
  | vstr (s : String)
  | varr (elts : List Value)
  | vobj (fields : List (String × Value))
deriving Repr

/-- A key/value tree: a JS object as an insertion-ordered association list. -/
abbrev Obj := List (String × Value)

/-- Property read on a JS object / Map (`m[k]`, `map.get(k)`). -/
def mapGet {α : Type} : List (String × α) → String → Option α
  | [], _ => none
  | (k1, v) :: rest, k => if k1 = k then some v else mapGet rest k

/-- Property write on a JS object / Map (`m[k] = v`, `map.set(k, v)`):
updates in place when the key exists (keeping its position), appends
otherwise. -/
def mapSet {α : Type} : List (String × α) → String → α → List (String × α)
  | [], k, v => [(k, v)]
  | (k1, v1) :: rest, k, v =>
    if k1 = k then (k1, v) :: rest else (k1, v1) :: mapSet rest k v

/-- Property removal on a JS object (`delete m[k]`). -/
def mapDelete {α : Type} : List (String × α) → String → List (String × α)
  | [], _ => []
  | (k1, v1) :: rest, k =>
    if k1 = k then mapDelete rest k else (k1, v1) :: mapDelete rest k

/-- ASCII lowercasing of one char, as JS `toLowerCase` behaves on ASCII. -/
def lowerChar (c : Char) : Char := c.toLower

/-- JS `String.prototype.toLowerCase` (ASCII fragment). -/
def jsToLower (s : String) : String := ⟨s.data.map lowerChar⟩

/-- JS `String.prototype.toUpperCase` (ASCII fragment). -/
def jsToUpper (s : String) : String := ⟨s.data.map Char.toUpper⟩

/-- Char-level splitter underlying JS `String.prototype.split` with a
non-empty string separator.  The fuel only bounds the loop (each step
consumes at least one character, so `length + 1` always suffices) and
keeps the definition structurally recursive. -/
def splitList (sep : List Char) : Nat → List Char → List (List Char)
  | 0, _ => []
  | _ + 1, [] => [[]]
  | fuel + 1, c :: rest =>
    if sep.isPrefixOf (c :: rest) && !sep.isEmpty then
      [] :: splitList sep fuel ((c :: rest).drop sep.length)
    else
      match splitList sep fuel rest with
      | [] => [[c]]
      | acc :: more => (c :: acc) :: more

/-- JS `s.split(sep)` for a non-empty separator string. -/
def jsSplit (s sep : String) : List String :=
  (splitList sep.data (s.data.length + 1) s.data).map (fun l => ⟨l⟩)

/-- `splitKey` from `keys.ts`: lowercase the raw key, split on the literal
delimiter, drop empty segments. -/
def splitKey (key delim : String) : List String :=
  (jsSplit (jsToLower key) delim).filter (fun s => s ≠ "")

/-- Whether a string is a canonical JS array index ("0", "1", ..., no
leading zeros). -/
def isCanonicalIndex (s : String) : Bool :=
  s ≠ "" && s.data.all Char.isDigit && (s = "0" || s.data.head? ≠ some '0')

/-- Digits-to-Nat (the string is assumed all-digits). -/
def digitsToNat (s : String) : Nat :=
  s.data.foldl (fun n c => n * 10 + (c.toNat - 48)) 0

/-- JS member access `a[seg]` on an array value (canonical index
properties only; the `length` property is outside the value domain). -/
def jsIndex (xs : List Value) (seg : String) : Option Value :=
  if isCanonicalIndex seg then xs.get? (digitsToNat seg) else none

/-- `deepGet` from `keys.ts`: walk the value by successive segment lookup,
returning `none` (JS `undefined`) when an intermediate is not an
object/array or the segment is missing. -/
def deepGetV : Value → List String → Option Value
  | v, [] => some v
  | .vobj o, seg :: rest =>
    match mapGet o seg with
    | some v => deepGetV v rest
    | none => none
  | .varr xs, seg :: rest =>
    match jsIndex xs seg with
    | some v => deepGetV v rest
    | none => none
  | _, _ :: _ => none

/-- `deepGet` applied to a root object. -/
def deepGetO (o : Obj) (path : List String) : Option Value :=
  deepGetV (.vobj o) path

/-- `deepSet` from `keys.ts` (functional form): walk/create intermediate
plain objects for every segment except the last, replacing any
non-object intermediate (primitive, null, array) with a fresh empty
object; assign the final segment directly.  Empty path is a no-op. -/
def deepSetObj (o : Obj) : List String → Value → Obj
  | [], _ => o
  | [k], v => mapSet o k v
  | k :: seg :: rest, v =>
    let sub : Obj :=
      match mapGet o k with
      | some (.vobj so) => so
      | _ => []
    mapSet o k (.vobj (deepSetObj sub (seg :: rest) v))

/-- The dotted-key constructor from `flattenKeys`: the empty prefix
behaves like JS's falsy `undefined`. -/
def joinKey (pre k : String) : String := if pre = "" then k else pre ++ "." ++ k

/-- `flattenKeys` from `keys.ts`: enumerate every leaf (non-object value,
arrays included) as its full dotted path. -/
def flattenKeys : Obj → String → List String
  | [], _ => []
  | (k, v) :: rest, pre =>
    (match v with
     | .vobj sub => flattenKeys sub (joinKey pre k)
     | _ => [joinKey pre k]) ++ flattenKeys rest pre

/-- Path-level companion of `flattenKeys` (used only in proofs). -/
def flattenPaths : Obj → List (List String)
  | [] => []
  | (k, v) :: rest =>
    (match v with
     | .vobj sub => (flattenPaths sub).map (fun p => k :: p)
     | _ => [[k]]) ++ flattenPaths rest

/-- Fold of `joinKey` along a path (proof helper: the dotted key of a
path under a prefix). -/
def joinPre (pre : String) (p : List String) : String := p.foldl joinKey pre

/-- Char-level join of segments with a separator (proof helper). -/
def joinChar (d : Char) : List (List Char) → List Char
  | [] => []
  | [x] => x
  | x :: y :: rest => x ++ d :: joinChar d (y :: rest)

/-- `lowercaseKeys` from `viper.ts`: rebuild a tree with every object key
lowercased, recursing into plain-object values (every other value —
null, booleans, numbers, strings, arrays — is copied verbatim). -/
def lowercaseKeysAux (acc : Obj) : Obj → Obj
  | [] => acc
  | (k, .vnull) :: rest => lowercaseKeysAux (mapSet acc (jsToLower k) .vnull) rest
  | (k, .vbool b) :: rest =>
    lowercaseKeysAux (mapSet acc (jsToLower k) (.vbool b)) rest
  | (k, .vnum n) :: rest =>
    lowercaseKeysAux (mapSet acc (jsToLower k) (.vnum n)) rest
  | (k, .vstr s) :: rest =>
    lowercaseKeysAux (mapSet acc (jsToLower k) (.vstr s)) rest
  | (k, .varr xs) :: rest =>
    lowercaseKeysAux (mapSet acc (jsToLower k) (.varr xs)) rest
  | (k, .vobj sub) :: rest =>
    lowercaseKeysAux (mapSet acc (jsToLower k) (.vobj (lowercaseKeysAux [] sub))) rest
termination_by o => sizeOf o
decreasing_by
  all_goals (simp; try omega)

def lowercaseKeys (o : Obj) : Obj := lowercaseKeysAux [] o

/-- `deepMerge` from `merge.ts`: fold the source entries over a copy of the
target; a null source value deletes the key (RFC 7386), two plain
objects merge recursively, anything else (booleans, numbers, strings,
arrays, and objects meeting a non-object) is replaced wholesale by the
source value. -/
def deepMerge : Obj → Obj → Obj
  | t, [] => t
  | t, (k, .vnull) :: rest => deepMerge (mapDelete t k) rest
  | t, (k, .vbool b) :: rest => deepMerge (mapSet t k (.vbool b)) rest
  | t, (k, .vnum n) :: rest => deepMerge (mapSet t k (.vnum n)) rest
  | t, (k, .vstr s) :: rest => deepMerge (mapSet t k (.vstr s)) rest
  | t, (k, .varr xs) :: rest => deepMerge (mapSet t k (.varr xs)) rest
  | t, (k, .vobj sf) :: rest =>
    match mapGet t k with
    | some (.vobj tf) => deepMerge (mapSet t k (.vobj (deepMerge tf sf))) rest
    | _ => deepMerge (mapSet t k (.vobj sf)) rest
termination_by _ s => sizeOf s
decreasing_by
  all_goals (simp; try omega)

/-- An environment provider: the live process environment, modelled as a
substitutable capability per spec section 9. -/
abbrev EnvP := String → Option String

/-- The regex replace `key.replace(/\./g, '_')`: every dot becomes an
underscore. -/
def dotsToUnderscores (key : String) : String :=
  ⟨key.data.map (fun c => if c = '.' then '_' else c)⟩

/-- The derived automatic-env variable name: join the (truthy, i.e.
non-empty) prefix and the key with an underscore, replace every dot in the
key with an underscore, uppercase the whole name (from `env.ts` and
`bindEnv`). -/
def autoEnvName (pfx key : String) : String :=
  if pfx ≠ "" then jsToUpper (pfx ++ "_" ++ dotsToUnderscores key)
  else jsToUpper (dotsToUnderscores key)

/-- First environment value among candidate variable names (the `for` loop
over one binding entry in `resolveEnvKey`). -/
def firstEnv (env : EnvP) : List String → Option String
  | [] => none
  | v :: rest =>
    match env v with
    | some s => some s
    | none => firstEnv env rest

/-- `resolveEnvKey` from `env.ts`: check the explicit bindings for the key
first (first defined candidate wins, an empty-string value counts as
defined); if that yields nothing and `autoEnv` is on, look up the derived
variable name; otherwise absent. -/
def resolveEnvKey (env : EnvP) (key pfx : String)
    (envBindings : List (String × List String)) (autoEnv : Bool) :
    Option String :=
  match (mapGet envBindings key).bind (firstEnv env) with
  | some v => some v
  | none =>
    if autoEnv then env (autoEnvName pfx key)
    else none

/-- The alias-resolution loop from `Viper.resolveAlias`, with explicit
fuel standing in for the unbounded `while`: while the current key has an
alias entry, follow it, failing on a revisit of a seen key.  `none` means
the fuel ran out (shown impossible for fuel `aliases.length + 1`). -/
def resolveAliasFuel (aliases : List (String × String)) :
    Nat → List String → String → Option (Except String String)
  | 0, _, _ => none
  | n + 1, seen, current =>
    match mapGet aliases current with
    | none => some (.ok current)
    | some next =>
      if current ∈ seen then
        some (.error ("circular alias detected: " ++ current))
      else
        resolveAliasFuel aliases n (current :: seen) next

/-- The registry state (`Viper` class fields). -/
structure Viper where
  defaults : Obj := []
  config : Obj := []
  overrides : Obj := []
  envBindings : List (String × List String) := []
  aliases : List (String × String) := []
  keyDelim : String := "."
  envPrefix : String := ""
  autoEnv : Bool := false
  configFilePath : Option String := none
  configName : String := "config"
  configType : String := "json5"
  configPaths : List String := []

/-- A freshly constructed registry (`new Viper(options)`). -/
def Viper.init (delim : String := ".") : Viper := { keyDelim := delim }

/-- `Viper.resolveAlias`, with the fuel fixed at a provably sufficient
bound. -/
def Viper.resolveAlias (v : Viper) (key : String) : Except String String :=
  match resolveAliasFuel v.aliases (v.aliases.length + 1) [] key with
  | some r => r
  | none => .error "alias resolution out of fuel"

/-- `Viper.set`: write into the Overrides layer via path-set. -/
def Viper.set (v : Viper) (key : String) (value : Value) : Viper :=
  { v with overrides := deepSetObj v.overrides (splitKey key v.keyDelim) value }

/-- `Viper.setDefault`: write into the Defaults layer via path-set. -/
def Viper.setDefault (v : Viper) (key : String) (value : Value) : Viper :=
  { v with defaults := deepSetObj v.defaults (splitKey key v.keyDelim) value }

/-- `Viper.setDefaults`: deep-merge a lowercased map into Defaults. -/
def Viper.setDefaults (v : Viper) (ds : Obj) : Viper :=
  { v with defaults := deepMerge v.defaults (lowercaseKeys ds) }

/-- `Viper.mergeConfigMap`: deep-merge a lowercased map into the
Config-file layer (no validation). -/
def Viper.mergeConfigMap (v : Viper) (cfg : Obj) : Viper :=
  { v with config := deepMerge v.config (lowercaseKeys cfg) }

/-- `Viper.registerAlias`: lowercase both; a self-alias fails, otherwise
store alias -> key (overwriting a prior mapping for that alias). -/
def Viper.registerAlias (v : Viper) (aliasKey key : String) :
    Except String Viper :=
  let la := jsToLower aliasKey
  let lk := jsToLower key
  if la = lk then
    .error ("alias and key are the same: " ++ aliasKey)
  else
    .ok { v with aliases := mapSet v.aliases la lk }

/-- `Viper.bindEnv`: append candidate env-variable names (or the derived
name, when none are given) to the binding entry for the lowercased key. -/
def Viper.bindEnv (v : Viper) (key : String) (envVars : List String) : Viper :=
  let lk := jsToLower key
  let existing := (mapGet v.envBindings lk).getD []
  let added :=
    if envVars = [] then existing ++ [autoEnvName v.envPrefix lk]
    else existing ++ envVars
  { v with envBindings := mapSet v.envBindings lk added }

/-- `Viper.automaticEnv`. -/
def Viper.automaticEnv (v : Viper) : Viper := { v with autoEnv := true }

/-- `Viper.setEnvPrefix`. -/
def Viper.setEnvPrefix (v : Viper) (pfx : String) : Viper :=
  { v with envPrefix := jsToUpper pfx }

/-- `Viper.get`: resolve the alias of the lowercased key, split the
canonical key to a path, then return the first present value checking
Overrides, then Environment (on the canonical key), then Config-file,
then Defaults.  A circular alias propagates as an error. -/
def Viper.get (v : Viper) (env : EnvP) (key : String) :
    Except String (Option Value) :=
  match v.resolveAlias (jsToLower key) with
  | .error e => .error e
  | .ok realKey =>
    let path := splitKey realKey v.keyDelim
    match deepGetO v.overrides path with
    | some x => .ok (some x)
    | none =>
      match resolveEnvKey env realKey v.envPrefix v.envBindings v.autoEnv with
      | some s => .ok (some (.vstr s))
      | none =>
        match deepGetO v.config path with
        | some x => .ok (some x)
        | none =>
          match deepGetO v.defaults path with
          | some x => .ok (some x)
          | none => .ok none

/-- `Viper.allKeys`: the sorted union of flattened keys from Defaults,
Config-file and Overrides. -/
def Viper.allKeys (v : Viper) : List String :=
  ((flattenKeys v.defaults "" ++ flattenKeys v.config "" ++
    flattenKeys v.overrides "").dedup).mergeSort (fun a b => a ≤ b)

/-- The body of the env-overlay loop in `allSettings`. -/
def envOverlayStep (env : EnvP) (pfx : String)
    (bindings : List (String × List String)) (auto : Bool) (delim : String)
    (acc : Obj) (key : String) : Obj :=
  match resolveEnvKey env key pfx bindings auto with
  | some envVal => deepSetObj acc (splitKey key delim) (.vstr envVal)
  | none => acc

/-- `Viper.allSettings`: deep-merge Defaults, Config-file, Overrides onto
an empty tree, then overwrite every flattened key for which the
environment resolver yields a value. -/
def Viper.allSettings (v : Viper) (env : EnvP) : Obj :=
  let merged := deepMerge [] v.defaults
  let merged := deepMerge merged v.config
  let merged := deepMerge merged v.overrides
  (flattenKeys merged "").foldl
    (envOverlayStep env v.envPrefix v.envBindings v.autoEnv v.keyDelim)
    merged

/-- `Viper.readInConfig`, with the collaborators passed explicitly:
`findResult` is the resolved config-file location (explicit path or first
search match), `parsed` the parser outcome, `schemaOk` the optional
validator.  Returns the post-call state and the thrown error, if any;
note the code records `configFilePath` before parsing, so that field can
change even on a failed call. -/
def Viper.readInConfig (v : Viper) (findResult : Option String)
    (parsed : Except String Obj) (schemaOk : Option (Obj → Bool)) :
    Viper × Option String :=
  match findResult with
  | none =>
    (v, some ("config file not found: searched for " ++ v.configName ++
      "." ++ v.configType))
  | some file =>
    let v1 := { v with configFilePath := some file }
    match parsed with
    | .error e => (v1, some e)
    | .ok p =>
      let lc := lowercaseKeys p
      match schemaOk with
      | some ok =>
        if ok lc then ({ v1 with config := lc }, none)
        else (v1, some "schema validation failed")
      | none => ({ v1 with config := lc }, none)

/-- `Viper.mergeInConfig`: same discovery/parse/lowercase steps, but the
validator sees the merge of the existing Config-file layer with the new
content, and that merged result replaces the layer. -/
def Viper.mergeInConfig (v : Viper) (findResult : Option String)
    (parsed : Except String Obj) (schemaOk : Option (Obj → Bool)) :
    Viper × Option String :=
  match findResult with
  | none =>
    (v, some ("config file not found: searched for " ++ v.configName ++
      "." ++ v.configType))
  | some file =>
    let v1 := { v with configFilePath := some file }
    match parsed with
    | .error e => (v1, some e)
    | .ok p =>
      let lc := lowercaseKeys p
      match schemaOk with
      | some ok =>
        if ok (deepMerge v.config lc) then
          ({ v1 with config := deepMerge v.config lc }, none)
        else (v1, some "schema validation failed")
      | none => ({ v1 with config := deepMerge v.config lc }, none)

/-! ### Well-formedness predicates over trees (Boolean, hence decidable) -/

/-- The string is fixed by ASCII lowercasing. -/
def isLowerStr (s : String) : Bool := s.data.all (fun c => lowerChar c = c)

/-- Keys are pairwise distinct at every object level reached outside
arrays (true of every tree a JS object can denote). -/
def nodupKeysB : Obj → Bool
  | [] => true
  | (k, v) :: rest =>
    (rest.all (fun kv => kv.1 ≠ k)) &&
    (match v with
     | .vobj sub => nodupKeysB sub
     | _ => true) &&
    nodupKeysB rest

/-- No `null` value at any object level reached outside arrays. -/
def noNullB : Obj → Bool
  | [] => true
  | (_, v) :: rest =>
    (match v with
     | .vnull => false
     | .vobj sub => noNullB sub
     | _ => true) &&
    noNullB rest

/-- A well-behaved key: non-empty, dot-free, lowercase. -/
def goodStrB (k : String) : Bool :=
  k ≠ "" && k.data.all (fun c => c ≠ '.') && isLowerStr k

/-- Every key at every object level reached outside arrays is non-empty,
dot-free and lowercase. -/
def goodKeysB : Obj → Bool
  | [] => true
  | (k, v) :: rest =>
    goodStrB k &&
    (match v with
     | .vobj sub => goodKeysB sub
     | _ => true) &&
    goodKeysB rest

/-- A scalar: neither a plain object nor an array. -/
def atomicB : Value → Bool
  | .vobj _ => false
  | .varr _ => false
  | _ => true

/-- Structural compatibility of two trees: every key present in both
carries either two plain objects (recursively compatible) or two
scalars.  Layers satisfying this pairwise never shadow an
object/array of one layer with a different-shaped value of another. -/
def shapeCB : Obj → Obj → Bool
  | [], _ => true
  | (k, tv) :: rest, s =>
    (match mapGet s k with
     | none => true
     | some sv =>
       match tv, sv with
       | .vobj a, .vobj b => shapeCB a b
       | .vobj _, _ => false
       | _, .vobj _ => false
       | .varr _, _ => false
       | _, .varr _ => false
       | _, _ => true) &&
    shapeCB rest s

/-- Object keys lowercase at every level reached outside arrays. -/
def objLCxB : Obj → Bool
  | [] => true
  | (k, v) :: rest =>
    isLowerStr k &&
    (match v with
     | .vobj sub => objLCxB sub
     | _ => true) &&
    objLCxB rest

/-- Object keys lowercase at every level reached outside arrays, for a
value. -/
def valueLCxB : Value → Bool
  | .vobj o => objLCxB o
  | _ => true

/-- Object keys lowercase at every nesting depth, arrays included. -/
def valueLCdeepB : Value → Bool
  | .vobj [] => true
  | .vobj ((k, v) :: rest) =>
    isLowerStr k && valueLCdeepB v && valueLCdeepB (.vobj rest)
  | .varr [] => true
  | .varr (x :: xs) => valueLCdeepB x && valueLCdeepB (.varr xs)
  | _ => true

/-! ### Reachable registry states

`ReachAny` is the claim's notion: any sequence of the listed public
operations from a fresh registry.  `ReachLC` additionally restricts the
values passed to `set`/`setDefault` to have lowercase object keys
outside arrays. -/

inductive ReachAny : Viper → Prop where
  | init (delim : String) : ReachAny (Viper.init delim)
  | set (v : Viper) (key : String) (value : Value) :
      ReachAny v → ReachAny (v.set key value)
  | setDefault (v : Viper) (key : String) (value : Value) :
      ReachAny v → ReachAny (v.setDefault key value)
  | setDefaults (v : Viper) (ds : Obj) :
      ReachAny v → ReachAny (v.setDefaults ds)
  | mergeConfigMap (v : Viper) (cfg : Obj) :
      ReachAny v → ReachAny (v.mergeConfigMap cfg)
  | readInConfig (v : Viper) (findResult : Option String)
      (parsed : Except String Obj) (schemaOk : Option (Obj → Bool)) :
      ReachAny v → ReachAny (v.readInConfig findResult parsed schemaOk).1
  | mergeInConfig (v : Viper) (findResult : Option String)
      (parsed : Except String Obj) (schemaOk : Option (Obj → Bool)) :
      ReachAny v → ReachAny (v.mergeInConfig findResult parsed schemaOk).1

inductive ReachLC : Viper → Prop where
  | init (delim : String) : ReachLC (Viper.init delim)
  | set (v : Viper) (key : String) (value : Value) :
      valueLCxB value = true → ReachLC v → ReachLC (v.set key value)
  | setDefault (v : Viper) (key : String) (value : Value) :
      valueLCxB value = true → ReachLC v → ReachLC (v.setDefault key value)
  | setDefaults (v : Viper) (ds : Obj) :
      ReachLC v → ReachLC (v.setDefaults ds)
  | mergeConfigMap (v : Viper) (cfg : Obj) :
      ReachLC v → ReachLC (v.mergeConfigMap cfg)
  | readInConfig (v : Viper) (findResult : Option String)
      (parsed : Except String Obj) (schemaOk : Option (Obj → Bool)) :
      ReachLC v → ReachLC (v.readInConfig findResult parsed schemaOk).1
  | mergeInConfig (v : Viper) (findResult : Option String)
      (parsed : Except String Obj) (schemaOk : Option (Obj → Bool)) :
      ReachLC v → ReachLC (v.mergeInConfig findResult parsed schemaOk).1

/-! ### Reference-semantics (heap) model

JS objects have reference semantics: `deepMerge` starts from the shallow
copy `{ ...target }` and copies nested values by reference, and
`deepSet` writes through object references in place.  The tree model
above cannot express the resulting structure sharing, so the merge and
the `allSettings` overlay are replayed here over an explicit store of
mutable objects.  Arrays and scalars are carried as immutable `hprim`
snapshots (none are mutated by the code under study). -/

inductive HVal where
  | hprim (v : Value)
  | href (r : Nat)
deriving Repr

abbrev HObj := List (String × HVal)

/-- The heap: object `r` lives at index `r`; allocation appends. -/
abbrev Store := List HObj

def storeGet (st : Store) (r : Nat) : HObj := (st.get? r).getD []

def alloc (st : Store) (o : HObj) : Store × Nat := (st ++ [o], st.length)

/-- `obj[k] = v` through a reference. -/
def setSlot (st : Store) (r : Nat) (k : String) (hv : HVal) : Store :=
  st.set r (mapSet (storeGet st r) k hv)

/-- `delete obj[k]` through a reference. -/
def delSlot (st : Store) (r : Nat) (k : String) : Store :=
  st.set r (mapDelete (storeGet st r) k)

mutual

/-- `deepMerge` over the heap: allocate `{ ...target }` (slot-level copy,
so nested references are shared), then fold the source entries; fuel
bounds the recursion depth and is irrelevant on the acyclic concrete
stores used below. -/
def deepMergeH : Store → Nat → Nat → Nat → Store × Nat
  | st, _, _, 0 => (st, 0)
  | st, tr, sr, fuel + 1 =>
    let a := alloc st (storeGet st tr)
    (mergeEntriesH a.1 a.2 (storeGet st sr) fuel, a.2)

/-- One pass of the `for key of Object.keys(source)` loop in `deepMerge`,
writing into the result object `res` (fuel only bounds the loop). -/
def mergeEntriesH : Store → Nat → List (String × HVal) → Nat → Store
  | st, _, _, 0 => st
  | st, _, [], _ + 1 => st
  | st, res, (k, sv) :: rest, fuel + 1 =>
    let st2 :=
      match sv with
      | .hprim .vnull => delSlot st res k
      | .href rs =>
        match mapGet (storeGet st res) k with
        | some (.href rt) =>
          let m := deepMergeH st rt rs fuel
          setSlot m.1 res k (.href m.2)
        | _ => setSlot st res k sv
      | _ => setSlot st res k sv
    mergeEntriesH st2 res rest fuel

end

/-- `deepSet` over the heap: descend through existing object references
without copying (this is where sharing lets a write reach a stored
layer), replacing non-object intermediates with fresh objects. -/
def deepSetH (st : Store) (r : Nat) : List String → HVal → Store
  | [], _ => st
  | [k], v => setSlot st r k v
  | k :: seg :: rest, v =>
    match mapGet (storeGet st r) k with
    | some (.href r2) => deepSetH st r2 (seg :: rest) v
    | _ =>
      let a := alloc st ([] : HObj)
      deepSetH (setSlot a.1 r k (.href a.2)) a.2 (seg :: rest) v

/-- `flattenKeys` over the heap (fuel only bounds the loop). -/
def flattenKeysH (st : Store) : Nat → List (String × HVal) → String → List String
  | 0, _, _ => []
  | _ + 1, [], _ => []
  | fuel + 1, (k, v) :: rest, pre =>
    let fullKey := if pre = "" then k else pre ++ "." ++ k
    (match v with
     | .href r => flattenKeysH st fuel (storeGet st r) fullKey
     | _ => [fullKey]) ++ flattenKeysH st fuel rest pre

/-- `allSettings` over the heap, following `viper.ts` line by line. -/
def allSettingsH (st : Store) (dR cR oR : Nat) (env : EnvP) (pfx : String)
    (bindings : List (String × List String)) (auto : Bool) (delim : String)
    (fuel : Nat) : Store × Nat :=
  let e := alloc st ([] : HObj)
  let m1 := deepMergeH e.1 e.2 dR fuel
  let m2 := deepMergeH m1.1 m1.2 cR fuel
  let m3 := deepMergeH m2.1 m2.2 oR fuel
  let keys := flattenKeysH m3.1 fuel (storeGet m3.1 m3.2) ""
  (keys.foldl
    (fun acc key =>
      match resolveEnvKey env key pfx bindings auto with
      | some envVal => deepSetH acc m3.2 (splitKey key delim) (.hprim (.vstr envVal))
      | none => acc)
    m3.1, m3.2)

mutual

/-- Dereference a heap value to a pure tree (observation only). -/
def readValH : Store → HVal → Nat → Value
  | _, .hprim v, _ => v
  | _, .href _, 0 => .vnull
  | st, .href r, fuel + 1 => .vobj (readObjH st (storeGet st r) fuel)

def readObjH : Store → List (String × HVal) → Nat → Obj
  | _, _, 0 => []
  | _, [], _ + 1 => []
  | st, (k, hv) :: rest, fuel + 1 =>
    (k, readValH st hv fuel) :: readObjH st rest fuel

end

/-- Is the value a plain object? -/
def isObjV : Value → Bool
  | .vobj _ => true
  | _ => false

/-- Is the value the delete-sentinel `null`? -/
def isNullV : Value → Bool
  | .vnull => true
  | _ => false

/-- Top-level keys are pairwise distinct (true of any JS object). -/
def nodupTopB : Obj → Bool
  | [] => true
  | (k, _) :: rest => rest.all (fun kv => kv.1 ≠ k) && nodupTopB rest

/-- No top-level value is the delete-sentinel `null`. -/
def noNullTopB (o : Obj) : Bool := o.all (fun kv => !isNullV kv.2)

/-- A JS-representable, null-free tree with well-behaved keys: unique at
every object level, and non-empty, dot-free, lowercase. -/
def wfLayerB (o : Obj) : Bool := nodupKeysB o && noNullB o && goodKeysB o

/-- Value-level views of the tree predicates (plain objects recurse,
everything else is unconstrained except the null check). -/
def valueNodupB : Value → Bool
  | .vobj o => nodupKeysB o
  | _ => true

def valueNoNullB : Value → Bool
  | .vnull => false
  | .vobj o => noNullB o
  | _ => true

def valueGoodKeysB : Value → Bool
  | .vobj o => goodKeysB o
  | _ => true

/-! ## Lemmas: association-list operations -/

theorem mapGet_mapSet_self {α : Type} (m : List (String × α)) (kw : String) (v : α) :
    mapGet (mapSet m kw v) kw = some v := by
  induction m with
  | nil => simp [mapGet, mapSet]
  | cons kv rest ih =>
    obtain ⟨k1, v1⟩ := kv
    by_cases h : k1 = kw
    · subst h
      simp [mapGet, mapSet]
    · simp [mapGet, mapSet, h, ih]

theorem mapGet_mapSet_ne {α : Type} (m : List (String × α)) (kw kq : String) (v : α)
    (h : kq ≠ kw) : mapGet (mapSet m kw v) kq = mapGet m kq := by
  induction m with
  | nil => simp [mapGet, mapSet, h.symm]
  | cons kv rest ih =>
    obtain ⟨k1, v1⟩ := kv
    by_cases h1 : k1 = kw
    · subst h1
      simp [mapGet, mapSet, h.symm]
    · simp [mapGet, mapSet, h1, ih]

theorem mapGet_mapDelete_self {α : Type} (m : List (String × α)) (kw : String) :
    mapGet (mapDelete m kw) kw = none := by
  induction m with
  | nil => simp [mapGet, mapDelete]
  | cons kv rest ih =>
    obtain ⟨k1, v1⟩ := kv
    by_cases h : k1 = kw
    · simp [mapDelete, h, ih]
    · simp [mapGet, mapDelete, h, ih]

theorem mapGet_mapDelete_ne {α : Type} (m : List (String × α)) (kw kq : String)
    (h : kq ≠ kw) : mapGet (mapDelete m kw) kq = mapGet m kq := by
  induction m with
  | nil => simp [mapGet, mapDelete]
  | cons kv rest ih =>
    obtain ⟨k1, v1⟩ := kv
    by_cases h1 : k1 = kw
    · subst h1
      simp [mapGet, mapDelete, h.symm, ih]
    · simp [mapGet, mapDelete, h1, ih]

theorem mapSet_of_not_mem {α : Type} (m : List (String × α)) (k : String) (v : α)
    (h : ∀ kv ∈ m, kv.1 ≠ k) : mapSet m k v = m ++ [(k, v)] := by
  induction m with
  | nil => simp [mapSet]
  | cons kv rest ih =>
    obtain ⟨k1, v1⟩ := kv
    have h1 : k1 ≠ k := h (k1, v1) (by simp)
    simp only [mapSet, h1, if_neg h1]
    rw [ih (fun kv hkv => h kv (by simp [hkv]))]
    simp

/-! ## Lemmas: deepMerge -/

theorem deepMerge_nil_right (t : Obj) : deepMerge t [] = t := by
  rw [deepMerge]

theorem deepMerge_cons_null (t : Obj) (k : String) (rest : Obj) :
    deepMerge t ((k, .vnull) :: rest) = deepMerge (mapDelete t k) rest := by
  rw [deepMerge]

theorem deepMerge_cons_bool (t : Obj) (k : String) (b : Bool) (rest : Obj) :
    deepMerge t ((k, .vbool b) :: rest) = deepMerge (mapSet t k (.vbool b)) rest := by
  rw [deepMerge]

theorem deepMerge_cons_num (t : Obj) (k : String) (n : Int) (rest : Obj) :
    deepMerge t ((k, .vnum n) :: rest) = deepMerge (mapSet t k (.vnum n)) rest := by
  rw [deepMerge]

theorem deepMerge_cons_str (t : Obj) (k : String) (s : String) (rest : Obj) :
    deepMerge t ((k, .vstr s) :: rest) = deepMerge (mapSet t k (.vstr s)) rest := by
  rw [deepMerge]

theorem deepMerge_cons_arr (t : Obj) (k : String) (xs : List Value) (rest : Obj) :
    deepMerge t ((k, .varr xs) :: rest) = deepMerge (mapSet t k (.varr xs)) rest := by
  rw [deepMerge]

theorem deepMerge_cons_obj_obj (t : Obj) (k : String) (sf tf : Obj) (rest : Obj)
    (htk : mapGet t k = some (.vobj tf)) :
    deepMerge t ((k, .vobj sf) :: rest) =
      deepMerge (mapSet t k (.vobj (deepMerge tf sf))) rest := by
  rw [deepMerge, htk]

theorem deepMerge_cons_obj_none (t : Obj) (k : String) (sf : Obj) (rest : Obj)
    (htk : mapGet t k = none) :
    deepMerge t ((k, .vobj sf) :: rest) =
      deepMerge (mapSet t k (.vobj sf)) rest := by
  rw [deepMerge, htk]

theorem deepMerge_cons_obj_scalar (t : Obj) (k : String) (sf : Obj) (rest : Obj)
    (tv : Value) (htk : mapGet t k = some tv) (hnotobj : isObjV tv = false) :
    deepMerge t ((k, .vobj sf) :: rest) =
      deepMerge (mapSet t k (.vobj sf)) rest := by
  rw [deepMerge, htk]
  cases tv <;> simp_all [isObjV]

theorem mapGet_deepMerge_not_mem_src (t s : Obj) (k : String)
    (h : mapGet s k = none) : mapGet (deepMerge t s) k = mapGet t k := by
  induction s generalizing t with
  | nil => rw [deepMerge_nil_right]
  | cons kv rest ih =>
    obtain ⟨k1, sv⟩ := kv
    have hne : k1 ≠ k := by
      intro he
      subst he
      simp [mapGet] at h
    have hrest : mapGet rest k = none := by
      simpa [mapGet, hne] using h
    rcases sv with _ | b | n | str | elts | fields
    · rw [deepMerge_cons_null, ih _ hrest, mapGet_mapDelete_ne _ _ _ hne.symm]
    · rw [deepMerge_cons_bool, ih _ hrest, mapGet_mapSet_ne _ _ _ _ hne.symm]
    · rw [deepMerge_cons_num, ih _ hrest, mapGet_mapSet_ne _ _ _ _ hne.symm]
    · rw [deepMerge_cons_str, ih _ hrest, mapGet_mapSet_ne _ _ _ _ hne.symm]
    · rw [deepMerge_cons_arr, ih _ hrest, mapGet_mapSet_ne _ _ _ _ hne.symm]
    · cases htk : mapGet t k1 with
      | none =>
        rw [deepMerge_cons_obj_none _ _ _ _ htk, ih _ hrest,
          mapGet_mapSet_ne _ _ _ _ hne.symm]
      | some tv =>
        cases hobj : isObjV tv with
        | true =>
          rcases tv with _ | _ | _ | _ | _ | tf
          case vobj =>
            rw [deepMerge_cons_obj_obj _ _ _ _ _ htk, ih _ hrest,
              mapGet_mapSet_ne _ _ _ _ hne.symm]
          all_goals simp [isObjV] at hobj
        | false =>
          rw [deepMerge_cons_obj_scalar _ _ _ _ _ htk hobj, ih _ hrest,
            mapGet_mapSet_ne _ _ _ _ hne.symm]

theorem mapGet_append {α : Type} (m1 m2 : List (String × α)) (k : String) :
    mapGet (m1 ++ m2) k =
      match mapGet m1 k with
      | some v => some v
      | none => mapGet m2 k := by
  induction m1 with
  | nil => simp [mapGet]
  | cons kv rest ih =>
    obtain ⟨k1, v1⟩ := kv
    by_cases h : k1 = k
    · simp [mapGet, h]
    · simp [mapGet, h, ih]

theorem mapGet_eq_none_of_forall_ne {α : Type} (m : List (String × α)) (k : String)
    (h : ∀ kv ∈ m, kv.1 ≠ k) : mapGet m k = none := by
  induction m with
  | nil => rfl
  | cons kv rest ih =>
    obtain ⟨k1, v1⟩ := kv
    have h1 : k1 ≠ k := h (k1, v1) (by simp)
    simp only [mapGet, h1, if_neg h1]
    exact ih (fun kv hkv => h kv (by simp [hkv]))

theorem mapSet_eq_append_of_get_none {α : Type} (m : List (String × α)) (k : String)
    (v : α) (h : mapGet m k = none) : mapSet m k v = m ++ [(k, v)] := by
  induction m with
  | nil => simp [mapSet]
  | cons kv rest ih =>
    obtain ⟨k1, v1⟩ := kv
    have h1 : k1 ≠ k := by
      intro he
      simp [mapGet, he] at h
    have hrest : mapGet rest k = none := by
      simpa [mapGet, h1] using h
    simp [mapSet, h1, ih hrest]

/-- One step of the `deepMerge` fold rewrites the accumulator at the
entry's key only. -/
theorem deepMerge_cons_exists (t : Obj) (k1 : String) (sv1 : Value) (rest : Obj) :
    ∃ t2, deepMerge t ((k1, sv1) :: rest) = deepMerge t2 rest ∧
      (∀ kq, kq ≠ k1 → mapGet t2 kq = mapGet t kq) := by
  rcases sv1 with _ | b | n | str | elts | fields
  · exact ⟨mapDelete t k1, deepMerge_cons_null t k1 rest,
      fun kq h => mapGet_mapDelete_ne t k1 kq h⟩
  · exact ⟨mapSet t k1 (.vbool b), deepMerge_cons_bool t k1 b rest,
      fun kq h => mapGet_mapSet_ne t k1 kq _ h⟩
  · exact ⟨mapSet t k1 (.vnum n), deepMerge_cons_num t k1 n rest,
      fun kq h => mapGet_mapSet_ne t k1 kq _ h⟩
  · exact ⟨mapSet t k1 (.vstr str), deepMerge_cons_str t k1 str rest,
      fun kq h => mapGet_mapSet_ne t k1 kq _ h⟩
  · exact ⟨mapSet t k1 (.varr elts), deepMerge_cons_arr t k1 elts rest,
      fun kq h => mapGet_mapSet_ne t k1 kq _ h⟩
  · cases htk : mapGet t k1 with
    | none =>
      exact ⟨mapSet t k1 (.vobj fields), deepMerge_cons_obj_none t k1 fields rest htk,
        fun kq h => mapGet_mapSet_ne t k1 kq _ h⟩
    | some tv =>
      rcases tv with _ | b2 | n2 | str2 | elts2 | tf
      · exact ⟨mapSet t k1 (.vobj fields),
          deepMerge_cons_obj_scalar t k1 fields rest _ htk rfl,
          fun kq h => mapGet_mapSet_ne t k1 kq _ h⟩
      · exact ⟨mapSet t k1 (.vobj fields),
          deepMerge_cons_obj_scalar t k1 fields rest _ htk rfl,
          fun kq h => mapGet_mapSet_ne t k1 kq _ h⟩
      · exact ⟨mapSet t k1 (.vobj fields),
          deepMerge_cons_obj_scalar t k1 fields rest _ htk rfl,
          fun kq h => mapGet_mapSet_ne t k1 kq _ h⟩
      · exact ⟨mapSet t k1 (.vobj fields),
          deepMerge_cons_obj_scalar t k1 fields rest _ htk rfl,
          fun kq h => mapGet_mapSet_ne t k1 kq _ h⟩
      · exact ⟨mapSet t k1 (.vobj fields),
          deepMerge_cons_obj_scalar t k1 fields rest _ htk rfl,
          fun kq h => mapGet_mapSet_ne t k1 kq _ h⟩
      · exact ⟨mapSet t k1 (.vobj (deepMerge tf fields)),
          deepMerge_cons_obj_obj t k1 fields tf rest htk,
          fun kq h => mapGet_mapSet_ne t k1 kq _ h⟩

theorem nodupTopB_cons (k1 : String) (sv1 : Value) (rest : Obj)
    (h : nodupTopB ((k1, sv1) :: rest) = true) :
    (∀ kv ∈ rest, kv.1 ≠ k1) ∧ nodupTopB rest = true := by
  simpa [nodupTopB, Bool.and_eq_true, List.all_eq_true] using h

theorem noNullTopB_cons (k1 : String) (sv1 : Value) (rest : Obj)
    (h : noNullTopB ((k1, sv1) :: rest) = true) :
    isNullV sv1 = false ∧ noNullTopB rest = true := by
  simpa [noNullTopB, List.all_cons, Bool.and_eq_true] using h

/-- RFC-7386 null-delete: a null at a key of the source removes the key
from the merge result. -/
theorem mapGet_deepMerge_null (t s : Obj) (k : String)
    (hnd : nodupTopB s = true) (h : mapGet s k = some .vnull) :
    mapGet (deepMerge t s) k = none := by
  induction s generalizing t with
  | nil => simp [mapGet] at h
  | cons kv rest ih =>
    obtain ⟨k1, sv1⟩ := kv
    obtain ⟨hall, hndrest⟩ := nodupTopB_cons k1 sv1 rest hnd
    by_cases he : k1 = k
    · subst he
      have hsv : sv1 = .vnull := by
        simpa [mapGet] using h
      subst hsv
      have hrest : mapGet rest k1 = none :=
        mapGet_eq_none_of_forall_ne rest k1 hall
      rw [deepMerge_cons_null, mapGet_deepMerge_not_mem_src _ _ _ hrest,
        mapGet_mapDelete_self]
    · obtain ⟨t2, heq, hp⟩ := deepMerge_cons_exists t k1 sv1 rest
      rw [heq]
      exact ih t2 hndrest (by simpa [mapGet, he] using h)

/-- Two plain objects under the same key merge recursively. -/
theorem mapGet_deepMerge_obj_obj (t s : Obj) (k : String) (tf sf : Obj)
    (hnd : nodupTopB s = true) (hs : mapGet s k = some (.vobj sf))
    (ht : mapGet t k = some (.vobj tf)) :
    mapGet (deepMerge t s) k = some (.vobj (deepMerge tf sf)) := by
  induction s generalizing t with
  | nil => simp [mapGet] at hs
  | cons kv rest ih =>
    obtain ⟨k1, sv1⟩ := kv
    obtain ⟨hall, hndrest⟩ := nodupTopB_cons k1 sv1 rest hnd
    by_cases he : k1 = k
    · subst he
      have hsv : sv1 = .vobj sf := by
        simpa [mapGet] using hs
      subst hsv
      have hrest : mapGet rest k1 = none :=
        mapGet_eq_none_of_forall_ne rest k1 hall
      rw [deepMerge_cons_obj_obj _ _ _ _ _ ht,
        mapGet_deepMerge_not_mem_src _ _ _ hrest, mapGet_mapSet_self]
    · obtain ⟨t2, heq, hp⟩ := deepMerge_cons_exists t k1 sv1 rest
      rw [heq]
      exact ih t2 hndrest (by simpa [mapGet, he] using hs)
        (by rw [hp k (fun hh => he hh.symm)]; exact ht)

/-- A plain object in the source replaces a missing or non-object target
value wholesale. -/
theorem mapGet_deepMerge_obj_not (t s : Obj) (k : String) (sf : Obj)
    (hnd : nodupTopB s = true) (hs : mapGet s k = some (.vobj sf))
    (ht : ∀ tf, mapGet t k ≠ some (.vobj tf)) :
    mapGet (deepMerge t s) k = some (.vobj sf) := by
  induction s generalizing t with
  | nil => simp [mapGet] at hs
  | cons kv rest ih =>
    obtain ⟨k1, sv1⟩ := kv
    obtain ⟨hall, hndrest⟩ := nodupTopB_cons k1 sv1 rest hnd
    by_cases he : k1 = k
    · subst he
      have hsv : sv1 = .vobj sf := by
        simpa [mapGet] using hs
      subst hsv
      have hrest : mapGet rest k1 = none :=
        mapGet_eq_none_of_forall_ne rest k1 hall
      cases htk : mapGet t k1 with
      | none =>
        rw [deepMerge_cons_obj_none _ _ _ _ htk,
          mapGet_deepMerge_not_mem_src _ _ _ hrest, mapGet_mapSet_self]
      | some tv =>
        rcases tv with _ | b2 | n2 | str2 | elts2 | tf
        · rw [deepMerge_cons_obj_scalar _ _ _ _ _ htk rfl,
            mapGet_deepMerge_not_mem_src _ _ _ hrest, mapGet_mapSet_self]
        · rw [deepMerge_cons_obj_scalar _ _ _ _ _ htk rfl,
            mapGet_deepMerge_not_mem_src _ _ _ hrest, mapGet_mapSet_self]
        · rw [deepMerge_cons_obj_scalar _ _ _ _ _ htk rfl,
            mapGet_deepMerge_not_mem_src _ _ _ hrest, mapGet_mapSet_self]
        · rw [deepMerge_cons_obj_scalar _ _ _ _ _ htk rfl,
            mapGet_deepMerge_not_mem_src _ _ _ hrest, mapGet_mapSet_self]
        · rw [deepMerge_cons_obj_scalar _ _ _ _ _ htk rfl,
            mapGet_deepMerge_not_mem_src _ _ _ hrest, mapGet_mapSet_self]
        · exact absurd htk (ht tf)
    · obtain ⟨t2, heq, hp⟩ := deepMerge_cons_exists t k1 sv1 rest
      rw [heq]
      refine ih t2 hndrest (by simpa [mapGet, he] using hs) (fun tf hh => ?_)
      rw [hp k (fun hh2 => he hh2.symm)] at hh
      exact ht tf hh

/-- A non-null, non-object source value (scalar or array) replaces the
target value wholesale. -/
theorem mapGet_deepMerge_scalar (t s : Obj) (k : String) (sv : Value)
    (hnd : nodupTopB s = true) (hs : mapGet s k = some sv)
    (hnull : isNullV sv = false) (hobj : isObjV sv = false) :
    mapGet (deepMerge t s) k = some sv := by
  induction s generalizing t with
  | nil => simp [mapGet] at hs
  | cons kv rest ih =>
    obtain ⟨k1, sv1⟩ := kv
    obtain ⟨hall, hndrest⟩ := nodupTopB_cons k1 sv1 rest hnd
    by_cases he : k1 = k
    · subst he
      have hsv : sv1 = sv := by
        simpa [mapGet] using hs
      subst hsv
      have hrest : mapGet rest k1 = none :=
        mapGet_eq_none_of_forall_ne rest k1 hall
      rcases sv1 with _ | b | n | str | elts | fields
      · simp [isNullV] at hnull
      · rw [deepMerge_cons_bool, mapGet_deepMerge_not_mem_src _ _ _ hrest,
          mapGet_mapSet_self]
      · rw [deepMerge_cons_num, mapGet_deepMerge_not_mem_src _ _ _ hrest,
          mapGet_mapSet_self]
      · rw [deepMerge_cons_str, mapGet_deepMerge_not_mem_src _ _ _ hrest,
          mapGet_mapSet_self]
      · rw [deepMerge_cons_arr, mapGet_deepMerge_not_mem_src _ _ _ hrest,
          mapGet_mapSet_self]
      · simp [isObjV] at hobj
    · obtain ⟨t2, heq, hp⟩ := deepMerge_cons_exists t k1 sv1 rest
      rw [heq]
      exact ih t2 hndrest (by simpa [mapGet, he] using hs)

/-- Merging into the empty tree copies a null-free, duplicate-free source
verbatim. -/
theorem deepMerge_acc_fresh (s : Obj) :
    ∀ acc : Obj, nodupTopB s = true → noNullTopB s = true →
    (∀ kv ∈ s, mapGet acc kv.1 = none) → deepMerge acc s = acc ++ s := by
  induction s with
  | nil => intro acc _ _ _; simp [deepMerge_nil_right]
  | cons kv rest ih =>
    intro acc hnd hnn hfresh
    obtain ⟨k1, sv1⟩ := kv
    obtain ⟨hall, hndrest⟩ := nodupTopB_cons k1 sv1 rest hnd
    obtain ⟨hn1, hnnrest⟩ := noNullTopB_cons k1 sv1 rest hnn
    have hget : mapGet acc k1 = none := hfresh (k1, sv1) (by simp)
    have hfresh2 : ∀ kv ∈ rest, mapGet (acc ++ [(k1, sv1)]) kv.1 = none := by
      intro kv hkv
      rw [mapGet_append, hfresh kv (List.mem_cons_of_mem _ hkv)]
      have hne : kv.1 ≠ k1 := hall kv hkv
      simp [mapGet, Ne.symm hne]
    have happ : acc ++ (k1, sv1) :: rest = (acc ++ [(k1, sv1)]) ++ rest := by
      simp
    rcases sv1 with _ | b | n | str | elts | fields
    · simp [isNullV] at hn1
    · rw [deepMerge_cons_bool, mapSet_eq_append_of_get_none _ _ _ hget, happ]
      exact ih _ hndrest hnnrest hfresh2
    · rw [deepMerge_cons_num, mapSet_eq_append_of_get_none _ _ _ hget, happ]
      exact ih _ hndrest hnnrest hfresh2
    · rw [deepMerge_cons_str, mapSet_eq_append_of_get_none _ _ _ hget, happ]
      exact ih _ hndrest hnnrest hfresh2
    · rw [deepMerge_cons_arr, mapSet_eq_append_of_get_none _ _ _ hget, happ]
      exact ih _ hndrest hnnrest hfresh2
    · rw [deepMerge_cons_obj_none _ _ _ _ hget,
        mapSet_eq_append_of_get_none _ _ _ hget, happ]
      exact ih _ hndrest hnnrest hfresh2

theorem deepMerge_nil_left (T : Obj) (hnd : nodupTopB T = true)
    (hnn : noNullTopB T = true) : deepMerge [] T = T := by
  have := deepMerge_acc_fresh T [] hnd hnn (fun kv _ => rfl)
  simpa using this

/-- C4, counterexample: the tree `{a: null}` refutes `merge({}, T) = T` —
the null-delete rule erases the key, so the empty tree is not a left
identity on trees containing null values. -/
theorem C4_counterexample :
    deepMerge [] [("a", Value.vnull)] = [] ∧
      [("a", Value.vnull)] ≠ ([] : Obj) := by
  constructor
  · rw [deepMerge_cons_null, deepMerge_nil_right]
    rfl
  · simp

/-- C4 (amended): `merge(T, {})` equals `T` unconditionally, for every
tree `T` — top-level nulls included; `merge({}, T)` equals `T` provided
`T`'s top-level keys are unique (as for any JS object) and no top-level
value of `T` is the null delete-sentinel.  (Non-mutation of the inputs
is inherent in this value model; the reference-semantics analysis of
sharing is settled at claim C3.) -/
theorem C4_merge_identity (T : Obj) :
    deepMerge T [] = T ∧
    (nodupTopB T = true → noNullTopB T = true → deepMerge [] T = T) :=
  ⟨deepMerge_nil_right T, fun hnd hnn => deepMerge_nil_left T hnd hnn⟩

theorem C4_merge_identity_witness :
    (deepMerge [("n", Value.vnull)] [] = [("n", Value.vnull)]) ∧
    nodupTopB [("a", Value.vnum 1), ("b", Value.vobj [("c", Value.vnum 2)])] = true ∧
    noNullTopB [("a", Value.vnum 1), ("b", Value.vobj [("c", Value.vnum 2)])] = true ∧
    (deepMerge [("a", Value.vnum 1), ("b", Value.vobj [("c", Value.vnum 2)])] [] =
        [("a", Value.vnum 1), ("b", Value.vobj [("c", Value.vnum 2)])] ∧
      deepMerge [] [("a", Value.vnum 1), ("b", Value.vobj [("c", Value.vnum 2)])] =
        [("a", Value.vnum 1), ("b", Value.vobj [("c", Value.vnum 2)])]) :=
  ⟨(C4_merge_identity [("n", Value.vnull)]).1, rfl, rfl,
    (C4_merge_identity _).1, (C4_merge_identity _).2 rfl rfl⟩

/-- C5: a null source value deletes the key at the level where it appears
(for any JS-representable source, i.e. unique top-level keys); recursive
merging of nested objects applies the rule independently at every
depth; `merge({a:1,b:2}, {a:null})` is `{b:2}`; and deleting the only
key of a nested object leaves an empty object, not a removed parent. -/
theorem C5_null_delete :
    (∀ t s k, nodupTopB s = true → mapGet s k = some .vnull →
      mapGet (deepMerge t s) k = none) ∧
    (∀ t s k tf sf, nodupTopB s = true → mapGet s k = some (.vobj sf) →
      mapGet t k = some (.vobj tf) →
      mapGet (deepMerge t s) k = some (.vobj (deepMerge tf sf))) ∧
    deepMerge [("a", Value.vnum 1), ("b", Value.vnum 2)] [("a", Value.vnull)] =
      [("b", Value.vnum 2)] ∧
    deepMerge [("a", Value.vobj [("b", Value.vnum 1)])]
        [("a", Value.vobj [("b", Value.vnull)])] =
      [("a", Value.vobj [])] := by
  refine ⟨fun t s k hnd h => mapGet_deepMerge_null t s k hnd h,
    fun t s k tf sf hnd hs ht => mapGet_deepMerge_obj_obj t s k tf sf hnd hs ht,
    ?_, ?_⟩
  · rw [deepMerge_cons_null, deepMerge_nil_right]
    rfl
  · rw [deepMerge_cons_obj_obj [("a", Value.vobj [("b", Value.vnum 1)])] "a"
      [("b", Value.vnull)] [("b", Value.vnum 1)] [] rfl,
      deepMerge_cons_null, deepMerge_nil_right, deepMerge_nil_right]
    rfl

theorem C5_null_delete_witness :
    mapGet (deepMerge [("x", Value.vnum 7)] [("x", Value.vnull)]) "x" = none :=
  C5_null_delete.1 [("x", Value.vnum 7)] [("x", Value.vnull)] "x" rfl rfl

/-! ## Lemmas: alias resolution -/

theorem mem_keys_of_mapGet_some {α : Type} (m : List (String × α)) (k : String)
    (v : α) (h : mapGet m k = some v) : k ∈ m.map Prod.fst := by
  induction m with
  | nil => simp [mapGet] at h
  | cons kv rest ih =>
    obtain ⟨k1, v1⟩ := kv
    by_cases he : k1 = k
    · simp [he]
    · exact List.mem_cons_of_mem _ (ih (by simpa [mapGet, he] using h))

/-- The alias walk never runs out of fuel `|aliases| + 1`: every iteration
either stops or moves a fresh alias key into the visited set, whose size
is bounded by the number of alias entries. -/
theorem resolveAliasFuel_isSome (al : List (String × String)) :
    ∀ (n : Nat) (seen : List String) (key : String), seen.Nodup →
      (∀ x ∈ seen, x ∈ al.map Prod.fst) → al.length - seen.length < n →
      (resolveAliasFuel al n seen key).isSome = true := by
  intro n
  induction n with
  | zero => intro seen key _ _ h; omega
  | succ n ih =>
    intro seen key hnd hsub hlt
    rw [resolveAliasFuel]
    cases hget : mapGet al key with
    | none => rfl
    | some next =>
      by_cases hmem : key ∈ seen
      · simp [hmem]
      · simp only [hmem, if_neg hmem]
        have hkey : key ∈ al.map Prod.fst := mem_keys_of_mapGet_some al key next hget
        have hnd2 : (key :: seen).Nodup := List.nodup_cons.mpr ⟨hmem, hnd⟩
        have hsub2 : ∀ x ∈ key :: seen, x ∈ al.map Prod.fst := by
          intro x hx
          rcases List.mem_cons.mp hx with hx1 | hx2
          · subst hx1; exact hkey
          · exact hsub x hx2
        have hlen : seen.length + 1 ≤ al.length := by
          have hsp := List.subperm_of_subset hnd2 hsub2
          have hle := hsp.length_le
          simpa using hle
        refine ih (key :: seen) next hnd2 hsub2 ?_
        simp only [List.length_cons]
        omega

/-- A successful walk ends at a key with no alias entry. -/
theorem resolveAliasFuel_ok_no_alias (al : List (String × String)) :
    ∀ (n : Nat) (seen : List String) (key r : String),
      resolveAliasFuel al n seen key = some (.ok r) → mapGet al r = none := by
  intro n
  induction n with
  | zero => intro seen key r h; simp [resolveAliasFuel] at h
  | succ n ih =>
    intro seen key r h
    rw [resolveAliasFuel] at h
    cases hget : mapGet al key with
    | none =>
      rw [hget] at h
      obtain rfl : key = r := by simpa using h
      exact hget
    | some next =>
      rw [hget] at h
      by_cases hmem : key ∈ seen
      · simp [hmem] at h
      · simp only [hmem, if_neg hmem] at h
        exact ih (key :: seen) next r h

/-- C7: the alias walk terminates for every finite alias map and start key
with the fuel the registry uses (so `Viper.resolveAlias` is the total
function of the loop); a key without an alias entry resolves to itself;
each hop follows the alias map recording the visited key; a revisit of a
visited key fails with the circular-alias error; and any successful
result is a key with no alias entry. -/
theorem C7_alias_termination :
    (∀ (al : List (String × String)) (key : String),
      (resolveAliasFuel al (al.length + 1) [] key).isSome = true) ∧
    (∀ (v : Viper) (key : String),
      some (v.resolveAlias key) =
        resolveAliasFuel v.aliases (v.aliases.length + 1) [] key) ∧
    (∀ (al : List (String × String)) (n : Nat) (seen : List String) (key : String),
      mapGet al key = none →
      resolveAliasFuel al (n + 1) seen key = some (.ok key)) ∧
    (∀ (al : List (String × String)) (n : Nat) (seen : List String) (key next : String),
      mapGet al key = some next → key ∉ seen →
      resolveAliasFuel al (n + 1) seen key =
        resolveAliasFuel al n (key :: seen) next) ∧
    (∀ (al : List (String × String)) (n : Nat) (seen : List String) (key next : String),
      mapGet al key = some next → key ∈ seen →
      resolveAliasFuel al (n + 1) seen key =
        some (.error ("circular alias detected: " ++ key))) ∧
    (∀ (al : List (String × String)) (n : Nat) (seen : List String) (key r : String),
      resolveAliasFuel al n seen key = some (.ok r) → mapGet al r = none) := by
  have hterm : ∀ (al : List (String × String)) (key : String),
      (resolveAliasFuel al (al.length + 1) [] key).isSome = true := by
    intro al key
    exact resolveAliasFuel_isSome al (al.length + 1) [] key List.nodup_nil
      (by intro x hx; simp at hx)
      (by simp only [List.length_nil, Nat.sub_zero]; omega)
  refine ⟨hterm, ?_, ?_, ?_, ?_, ?_⟩
  · intro v key
    unfold Viper.resolveAlias
    cases hres : resolveAliasFuel v.aliases (v.aliases.length + 1) [] key with
    | none =>
      have := hterm v.aliases key
      rw [hres] at this
      simp at this
    | some r => rfl
  · intro al n seen key h
    rw [resolveAliasFuel, h]
  · intro al n seen key next h hmem
    rw [resolveAliasFuel, h]
    simp [hmem]
  · intro al n seen key next h hmem
    rw [resolveAliasFuel, h]
    simp [hmem]
  · exact fun al n seen key r h => resolveAliasFuel_ok_no_alias al n seen key r h

theorem C7_alias_termination_witness :
    resolveAliasFuel [("a", "b"), ("b", "a")] 4 ["b", "a"] "a" =
      some (.error ("circular alias detected: " ++ "a")) :=
  C7_alias_termination.2.2.2.2.1 [("a", "b"), ("b", "a")] 3 ["b", "a"] "a" "b"
    rfl (by simp)

/-! ## Lemmas: environment resolver -/

theorem firstEnv_append (env : EnvP) (pre post : List String) (x s : String)
    (hpre : ∀ y ∈ pre, env y = none) (hx : env x = some s) :
    firstEnv env (pre ++ x :: post) = some s := by
  induction pre with
  | nil => simp [firstEnv, hx]
  | cons y rest ih =>
    have hy : env y = none := hpre y (by simp)
    simp only [List.cons_append, firstEnv, hy]
    exact ih (fun z hz => hpre z (List.mem_cons_of_mem _ hz))

/-- C6: when the binding table has an entry for the key, the candidate
variable names are scanned in registration order and the first defined
one wins (a defined-but-empty value included), irrespective of the
auto-env flag; with no entry and auto-env on, the resolver returns the
environment at the derived name (non-empty prefix and key joined by an
underscore, dots replaced by underscores, all uppercased); with no entry
and auto-env off, it returns absent. -/
theorem C6_env_resolver :
    (∀ (env : EnvP) (key pfx : String) (bindings : List (String × List String))
      (auto : Bool) (pre post : List String) (x s : String),
      mapGet bindings key = some (pre ++ x :: post) →
      (∀ y ∈ pre, env y = none) → env x = some s →
      resolveEnvKey env key pfx bindings auto = some s) ∧
    (∀ (env : EnvP) (key pfx : String) (bindings : List (String × List String)),
      mapGet bindings key = none →
      resolveEnvKey env key pfx bindings true = env (autoEnvName pfx key)) ∧
    (∀ (env : EnvP) (key pfx : String) (bindings : List (String × List String)),
      mapGet bindings key = none →
      resolveEnvKey env key pfx bindings false = none) := by
  refine ⟨?_, ?_, ?_⟩
  · intro env key pfx bindings auto pre post x s hb hpre hx
    unfold resolveEnvKey
    rw [hb]
    simp only [Option.some_bind]
    rw [firstEnv_append env pre post x s hpre hx]
  · intro env key pfx bindings hb
    unfold resolveEnvKey
    rw [hb]
    rfl
  · intro env key pfx bindings hb
    unfold resolveEnvKey
    rw [hb]
    rfl

theorem C6_env_resolver_witness :
    resolveEnvKey (fun v => if v = "B" then some "" else none) "k" "P"
      [("k", ["A", "B", "C"])] false = some "" :=
  C6_env_resolver.1 (fun v => if v = "B" then some "" else none) "k" "P"
    [("k", ["A", "B", "C"])] false ["A"] ["C"] "B" "" rfl (by decide) rfl

/-! ## C1: layered lookup precedence of `get` -/

/-- C1: `get` lowercases the key, resolves it through the alias map to the
canonical key, splits that to a path, and returns the first present
value checking Overrides, then Environment (resolved on the canonical
key), then Config-file, then Defaults; present means the layer lookup is
not absent, so a stored `null` (or `false`, or `0`) in a higher layer is
returned as-is and stops the search, and absent is returned only when no
layer has the key. -/
theorem C1_get_precedence (v : Viper) (env : EnvP) (key realKey : String)
    (halias : v.resolveAlias (jsToLower key) = .ok realKey) :
    (∀ x, deepGetO v.overrides (splitKey realKey v.keyDelim) = some x →
      v.get env key = .ok (some x)) ∧
    (deepGetO v.overrides (splitKey realKey v.keyDelim) = none →
      ∀ s, resolveEnvKey env realKey v.envPrefix v.envBindings v.autoEnv = some s →
      v.get env key = .ok (some (.vstr s))) ∧
    (deepGetO v.overrides (splitKey realKey v.keyDelim) = none →
      resolveEnvKey env realKey v.envPrefix v.envBindings v.autoEnv = none →
      ∀ x, deepGetO v.config (splitKey realKey v.keyDelim) = some x →
      v.get env key = .ok (some x)) ∧
    (deepGetO v.overrides (splitKey realKey v.keyDelim) = none →
      resolveEnvKey env realKey v.envPrefix v.envBindings v.autoEnv = none →
      deepGetO v.config (splitKey realKey v.keyDelim) = none →
      ∀ x, deepGetO v.defaults (splitKey realKey v.keyDelim) = some x →
      v.get env key = .ok (some x)) ∧
    (deepGetO v.overrides (splitKey realKey v.keyDelim) = none →
      resolveEnvKey env realKey v.envPrefix v.envBindings v.autoEnv = none →
      deepGetO v.config (splitKey realKey v.keyDelim) = none →
      deepGetO v.defaults (splitKey realKey v.keyDelim) = none →
      v.get env key = .ok none) := by
  refine ⟨?_, ?_, ?_, ?_, ?_⟩
  · intro x hov
    simp only [Viper.get, halias, hov]
  · intro hov s henv
    simp only [Viper.get, halias, hov, henv]
  · intro hov henv x hcf
    simp only [Viper.get, halias, hov, henv, hcf]
  · intro hov henv hcf x hdf
    simp only [Viper.get, halias, hov, henv, hcf, hdf]
  · intro hov henv hcf hdf
    simp only [Viper.get, halias, hov, henv, hcf, hdf]

theorem C1_get_precedence_witness :
    Viper.get
      { Viper.init "." with
          overrides := [("a", Value.vnull)], config := [("a", Value.vnum 5)] }
      (fun _ => none) "A" = .ok (some Value.vnull) :=
  (C1_get_precedence
    { Viper.init "." with
        overrides := [("a", Value.vnull)], config := [("a", Value.vnum 5)] }
    (fun _ => none) "A" "a" rfl).1 Value.vnull rfl

/-! ## C10: failed config reads leave the Config-file layer unchanged -/

/-- `get` never reads the remembered config-file path. -/
theorem get_update_path (v : Viper) (p : Option String) (env : EnvP) (key : String) :
    Viper.get { v with configFilePath := p } env key = v.get env key := rfl

/-- C10: if `readInConfig` or `mergeInConfig` throws — file not found,
parse error, or schema validation failure — the Config-file layer is
unchanged, and consequently every `get` returns exactly what it returned
before the failed call (only the remembered file path may have been
updated, which `get` never reads). -/
theorem C10_failed_read_preserves_config (v : Viper) (findResult : Option String)
    (parsed : Except String Obj) (schemaOk : Option (Obj → Bool)) :
    ((v.readInConfig findResult parsed schemaOk).2.isSome = true →
      (v.readInConfig findResult parsed schemaOk).1.config = v.config ∧
      ∀ (env : EnvP) (key : String),
        (v.readInConfig findResult parsed schemaOk).1.get env key = v.get env key) ∧
    ((v.mergeInConfig findResult parsed schemaOk).2.isSome = true →
      (v.mergeInConfig findResult parsed schemaOk).1.config = v.config ∧
      ∀ (env : EnvP) (key : String),
        (v.mergeInConfig findResult parsed schemaOk).1.get env key = v.get env key) := by
  constructor
  · intro herr
    cases findResult with
    | none => exact ⟨rfl, fun env key => rfl⟩
    | some file =>
      cases parsed with
      | error e => exact ⟨rfl, fun env key => rfl⟩
      | ok p =>
        cases schemaOk with
        | none => simp [Viper.readInConfig] at herr
        | some val =>
          by_cases hval : val (lowercaseKeys p) = true
          · simp [Viper.readInConfig, hval] at herr
          · have hred : v.readInConfig (some file) (.ok p) (some val) =
                ({ v with configFilePath := some file }, some "schema validation failed") := by
              simp [Viper.readInConfig, hval]
            rw [hred]
            exact ⟨rfl, fun env key => get_update_path v (some file) env key⟩
  · intro herr
    cases findResult with
    | none => exact ⟨rfl, fun env key => rfl⟩
    | some file =>
      cases parsed with
      | error e => exact ⟨rfl, fun env key => rfl⟩
      | ok p =>
        cases schemaOk with
        | none => simp [Viper.mergeInConfig] at herr
        | some val =>
          by_cases hval : val (deepMerge v.config (lowercaseKeys p)) = true
          · simp [Viper.mergeInConfig, hval] at herr
          · have hred : v.mergeInConfig (some file) (.ok p) (some val) =
                ({ v with configFilePath := some file }, some "schema validation failed") := by
              simp [Viper.mergeInConfig, hval]
            rw [hred]
            exact ⟨rfl, fun env key => get_update_path v (some file) env key⟩

theorem C10_failed_read_preserves_config_witness :
    ((Viper.init ".").readInConfig none (.ok []) none).1.config =
      (Viper.init ".").config :=
  ((C10_failed_read_preserves_config (Viper.init ".") none (.ok []) none).1 rfl).1

/-! ## C8: set-then-get roundtrip -/

theorem lowerChar_idem (c : Char) : lowerChar (lowerChar c) = lowerChar c := by
  unfold lowerChar Char.toLower
  by_cases h : c.toNat ≥ 65 ∧ c.toNat ≤ 90
  · rw [if_pos h]
    obtain ⟨h1, h2⟩ := h
    have hval : (Char.ofNat (c.toNat + 32)).toNat = c.toNat + 32 := by
      generalize hg : c.toNat = n at h1 h2
      interval_cases n <;> decide
    rw [if_neg]
    rw [hval]
    omega
  · rw [if_neg h, if_neg h]

theorem jsToLower_idem (s : String) : jsToLower (jsToLower s) = jsToLower s := by
  unfold jsToLower
  simp [List.map_map, Function.comp_def, lowerChar_idem]

theorem splitKey_jsToLower (key delim : String) :
    splitKey (jsToLower key) delim = splitKey key delim := by
  unfold splitKey jsSplit
  rw [jsToLower_idem]

/-- Writing a value at a non-empty path and reading the same path back
yields that value. -/
theorem deepGetO_deepSetObj_self (path : List String) :
    ∀ (o : Obj) (v : Value), path ≠ [] →
      deepGetO (deepSetObj o path v) path = some v := by
  induction path with
  | nil => intro o v h; exact absurd rfl h
  | cons k rest ih =>
    intro o v _
    cases rest with
    | nil =>
      simp [deepSetObj, deepGetO, deepGetV, mapGet_mapSet_self]
    | cons seg rest2 =>
      simp only [deepSetObj, deepGetO, deepGetV, mapGet_mapSet_self]
      exact ih _ v (by simp)

theorem resolveAlias_no_entry (v : Viper) (key : String)
    (h : mapGet v.aliases key = none) : v.resolveAlias key = .ok key := by
  unfold Viper.resolveAlias
  rw [resolveAliasFuel, h]

/-- C8, counterexample: the roundtrip fails for an aliased key (`set`
writes the literal key but `get` reads through the alias), and for a
key that normalizes to the empty path (`set` is a no-op but `get`
returns the whole Overrides tree); in both runs no env binding or
auto-env lookup is live. -/
theorem C8_counterexample :
    ((Viper.init ".").registerAlias "a" "b" =
      .ok { Viper.init "." with aliases := [("a", "b")] }) ∧
    (({ Viper.init "." with aliases := [("a", "b")] : Viper }.set "a"
        (Value.vnum 1)).get (fun _ => none) "a" = .ok none) ∧
    (.ok none ≠ (.ok (some (Value.vnum 1)) : Except String (Option Value))) ∧
    (((Viper.init ".").set "." (Value.vnum 1)).get (fun _ => none) "." =
      .ok (some (Value.vobj []))) ∧
    (.ok (some (Value.vobj [])) ≠
      (.ok (some (Value.vnum 1)) : Except String (Option Value))) := by
  refine ⟨rfl, rfl, by simp, rfl, by simp⟩

/-- C8 (amended): for every key string and value, `set(key, value)`
followed by `get(key)` returns that value, provided the lowercased key
has no alias entry, the key normalizes to a non-empty path, and no
environment binding or auto-env lookup shadows the key (the override
layer always wins, so the env proviso is never exercised). -/
theorem C8_set_get_roundtrip (v : Viper) (env : EnvP) (key : String) (value : Value)
    (halias : mapGet v.aliases (jsToLower key) = none)
    (hpath : splitKey key v.keyDelim ≠ [])
    (henv : resolveEnvKey env (jsToLower key) v.envPrefix v.envBindings v.autoEnv =
      none) :
    (v.set key value).get env key = .ok (some value) := by
  have halias2 : (v.set key value).resolveAlias (jsToLower key) = .ok (jsToLower key) :=
    resolveAlias_no_entry _ _ halias
  have hover : deepGetO (v.set key value).overrides
      (splitKey (jsToLower key) (v.set key value).keyDelim) = some value := by
    show deepGetO (deepSetObj v.overrides (splitKey key v.keyDelim) value)
      (splitKey (jsToLower key) v.keyDelim) = some value
    rw [splitKey_jsToLower]
    exact deepGetO_deepSetObj_self _ _ _ hpath
  exact ((C1_get_precedence (v.set key value) env key (jsToLower key) halias2).1)
    value hover

theorem C8_set_get_roundtrip_witness :
    ((Viper.init ".").set "Foo.Bar" (Value.vnum 7)).get (fun _ => none) "Foo.Bar" =
      .ok (some (Value.vnum 7)) :=
  C8_set_get_roundtrip (Viper.init ".") (fun _ => none) "Foo.Bar" (Value.vnum 7)
    rfl (by decide) rfl

/-! ## C9: lowercase-keys invariant -/

theorem isLowerStr_jsToLower (s : String) : isLowerStr (jsToLower s) = true := by
  show (s.data.map lowerChar).all (fun c => decide (lowerChar c = c)) = true
  simp [List.all_eq_true, lowerChar_idem]

theorem objLCxB_nil : objLCxB [] = true := by
  rw [objLCxB]

theorem objLCxB_cons (k : String) (v : Value) (rest : Obj) :
    objLCxB ((k, v) :: rest) = (isLowerStr k && valueLCxB v && objLCxB rest) := by
  cases v <;> simp [objLCxB, valueLCxB, Bool.and_assoc]

theorem valueLCxB_of_objLCxB_mapGet (o : Obj) (k : String) (v : Value)
    (ho : objLCxB o = true) (hget : mapGet o k = some v) : valueLCxB v = true := by
  induction o with
  | nil => simp [mapGet] at hget
  | cons kv rest ih =>
    obtain ⟨k1, v1⟩ := kv
    rw [objLCxB_cons] at ho
    simp only [Bool.and_eq_true] at ho
    by_cases he : k1 = k
    · have : v1 = v := by simpa [mapGet, he] using hget
      subst this
      exact ho.1.2
    · exact ih ho.2 (by simpa [mapGet, he] using hget)

theorem objLCxB_mapSet (o : Obj) (k : String) (v : Value)
    (ho : objLCxB o = true) (hk : isLowerStr k = true) (hv : valueLCxB v = true) :
    objLCxB (mapSet o k v) = true := by
  induction o with
  | nil => simp [mapSet, objLCxB_cons, hk, hv, objLCxB]
  | cons kv rest ih =>
    obtain ⟨k1, v1⟩ := kv
    rw [objLCxB_cons] at ho
    simp only [Bool.and_eq_true] at ho
    by_cases he : k1 = k
    · subst he
      have hms : mapSet ((k1, v1) :: rest) k1 v = (k1, v) :: rest := by
        simp [mapSet]
      rw [hms, objLCxB_cons]
      simp [ho.1.1, hv, ho.2]
    · simp only [mapSet, if_neg he]
      rw [objLCxB_cons]
      simp [ho.1.1, ho.1.2, ih ho.2]

theorem objLCxB_mapDelete (o : Obj) (k : String) (ho : objLCxB o = true) :
    objLCxB (mapDelete o k) = true := by
  induction o with
  | nil => simpa [mapDelete] using ho
  | cons kv rest ih =>
    obtain ⟨k1, v1⟩ := kv
    rw [objLCxB_cons] at ho
    simp only [Bool.and_eq_true] at ho
    by_cases he : k1 = k
    · simp only [mapDelete, if_pos he]
      exact ih ho.2
    · simp only [mapDelete, if_neg he]
      rw [objLCxB_cons]
      simp [ho.1.1, ho.1.2, ih ho.2]

theorem objLCxB_deepMerge (t s : Obj) (ht : objLCxB t = true)
    (hs : objLCxB s = true) : objLCxB (deepMerge t s) = true := by
  induction t, s using deepMerge.induct with
  | case1 t => simpa [deepMerge_nil_right] using ht
  | case2 t k rest ih =>
    rw [objLCxB_cons] at hs
    simp only [Bool.and_eq_true] at hs
    rw [deepMerge_cons_null]
    exact ih (objLCxB_mapDelete t k ht) hs.2
  | case3 t k b rest ih =>
    rw [objLCxB_cons] at hs
    simp only [Bool.and_eq_true] at hs
    rw [deepMerge_cons_bool]
    exact ih (objLCxB_mapSet t k _ ht hs.1.1 rfl) hs.2
  | case4 t k n rest ih =>
    rw [objLCxB_cons] at hs
    simp only [Bool.and_eq_true] at hs
    rw [deepMerge_cons_num]
    exact ih (objLCxB_mapSet t k _ ht hs.1.1 rfl) hs.2
  | case5 t k str rest ih =>
    rw [objLCxB_cons] at hs
    simp only [Bool.and_eq_true] at hs
    rw [deepMerge_cons_str]
    exact ih (objLCxB_mapSet t k _ ht hs.1.1 rfl) hs.2
  | case6 t k xs rest ih =>
    rw [objLCxB_cons] at hs
    simp only [Bool.and_eq_true] at hs
    rw [deepMerge_cons_arr]
    exact ih (objLCxB_mapSet t k _ ht hs.1.1 rfl) hs.2
  | case7 t k sf rest so hget ihinner ih =>
    rw [objLCxB_cons] at hs
    simp only [Bool.and_eq_true] at hs
    rw [deepMerge_cons_obj_obj t k sf so rest hget]
    have hso : objLCxB so = true := by
      have := valueLCxB_of_objLCxB_mapGet t k (.vobj so) ht hget
      simpa [valueLCxB] using this
    have hinner : objLCxB (deepMerge so sf) = true :=
      ihinner hso (by simpa [valueLCxB] using hs.1.2)
    exact ih (objLCxB_mapSet t k _ ht hs.1.1 (by simpa [valueLCxB] using hinner)) hs.2
  | case8 t k sf rest hnot ih =>
    rw [objLCxB_cons] at hs
    simp only [Bool.and_eq_true] at hs
    have heq : deepMerge t ((k, .vobj sf) :: rest) =
        deepMerge (mapSet t k (.vobj sf)) rest := by
      cases hget : mapGet t k with
      | none => exact deepMerge_cons_obj_none t k sf rest hget
      | some tv =>
        rcases tv with _ | b2 | n2 | str2 | elts2 | tf
        · exact deepMerge_cons_obj_scalar t k sf rest _ hget rfl
        · exact deepMerge_cons_obj_scalar t k sf rest _ hget rfl
        · exact deepMerge_cons_obj_scalar t k sf rest _ hget rfl
        · exact deepMerge_cons_obj_scalar t k sf rest _ hget rfl
        · exact deepMerge_cons_obj_scalar t k sf rest _ hget rfl
        · exact absurd hget (fun hh => hnot tf hh)
    rw [heq]
    exact ih (objLCxB_mapSet t k _ ht hs.1.1 hs.1.2) hs.2

theorem objLCxB_lowercaseKeysAux (acc o : Obj) (hacc : objLCxB acc = true) :
    objLCxB (lowercaseKeysAux acc o) = true := by
  induction acc, o using lowercaseKeysAux.induct with
  | case1 acc => simpa [lowercaseKeysAux] using hacc
  | case2 acc k rest ih =>
    rw [lowercaseKeysAux]
    exact ih (objLCxB_mapSet acc _ _ hacc (isLowerStr_jsToLower k) rfl)
  | case3 acc k b rest ih =>
    rw [lowercaseKeysAux]
    exact ih (objLCxB_mapSet acc _ _ hacc (isLowerStr_jsToLower k) rfl)
  | case4 acc k n rest ih =>
    rw [lowercaseKeysAux]
    exact ih (objLCxB_mapSet acc _ _ hacc (isLowerStr_jsToLower k) rfl)
  | case5 acc k s rest ih =>
    rw [lowercaseKeysAux]
    exact ih (objLCxB_mapSet acc _ _ hacc (isLowerStr_jsToLower k) rfl)
  | case6 acc k xs rest ih =>
    rw [lowercaseKeysAux]
    exact ih (objLCxB_mapSet acc _ _ hacc (isLowerStr_jsToLower k) rfl)
  | case7 acc k sub rest ihsub ih =>
    rw [lowercaseKeysAux]
    exact ih (objLCxB_mapSet acc _ _ hacc (isLowerStr_jsToLower k)
      (by simpa [valueLCxB] using ihsub objLCxB_nil))

theorem objLCxB_lowercaseKeys (o : Obj) : objLCxB (lowercaseKeys o) = true :=
  objLCxB_lowercaseKeysAux [] o objLCxB_nil

theorem splitList_chars (sep : List Char) :
    ∀ (fuel : Nat) (l part : List Char), part ∈ splitList sep fuel l →
      ∀ c ∈ part, c ∈ l := by
  intro fuel
  induction fuel with
  | zero => intro l part hp; simp [splitList] at hp
  | succ fuel ih =>
    intro l part hp c hc
    cases l with
    | nil =>
      simp [splitList] at hp
      subst hp
      simp at hc
    | cons c1 rest =>
      rw [splitList] at hp
      by_cases hpre : (sep.isPrefixOf (c1 :: rest) && !sep.isEmpty) = true
      · rw [if_pos hpre] at hp
        rcases List.mem_cons.mp hp with h1 | h2
        · subst h1; simp at hc
        · have := ih _ part h2 c hc
          exact List.mem_of_mem_drop this
      · rw [if_neg hpre] at hp
        cases hrec : splitList sep fuel rest with
        | nil =>
          rw [hrec] at hp
          simp at hp
          subst hp
          simp at hc
          simp [hc]
        | cons acc more =>
          rw [hrec] at hp
          rcases List.mem_cons.mp hp with h1 | h2
          · subst h1
            rcases List.mem_cons.mp hc with h3 | h4
            · simp [h3]
            · have : c ∈ rest := ih rest acc (by rw [hrec]; simp) c h4
              exact List.mem_cons_of_mem _ this
          · have : c ∈ rest := ih rest part (by rw [hrec]; simp [h2]) c hc
            exact List.mem_cons_of_mem _ this

theorem splitKey_all_lower (key delim : String) :
    ∀ seg ∈ splitKey key delim, isLowerStr seg = true := by
  intro seg hseg
  unfold splitKey jsSplit at hseg
  obtain ⟨hmem, _⟩ := List.mem_filter.mp hseg
  obtain ⟨part, hpart, hmk⟩ := List.mem_map.mp hmem
  subst hmk
  have hchars : ∀ c ∈ part, c ∈ (jsToLower key).data :=
    splitList_chars delim.data _ _ part hpart
  show part.all (fun c => decide (lowerChar c = c)) = true
  rw [List.all_eq_true]
  intro c hc
  have hcl : c ∈ key.data.map lowerChar := hchars c hc
  obtain ⟨c0, _, hc0⟩ := List.mem_map.mp hcl
  subst hc0
  simp [lowerChar_idem]

theorem objLCxB_deepSetObj (path : List String) :
    ∀ (o : Obj) (v : Value), objLCxB o = true →
      (∀ seg ∈ path, isLowerStr seg = true) → valueLCxB v = true →
      objLCxB (deepSetObj o path v) = true := by
  induction path with
  | nil => intro o v ho _ _; simpa [deepSetObj] using ho
  | cons k rest ih =>
    intro o v ho hsegs hv
    have hk : isLowerStr k = true := hsegs k (by simp)
    cases rest with
    | nil =>
      simpa [deepSetObj] using objLCxB_mapSet o k v ho hk hv
    | cons seg rest2 =>
      rw [deepSetObj]
      refine objLCxB_mapSet o k _ ho hk ?_
      have hsub : objLCxB (match mapGet o k with
          | some (.vobj so) => so
          | _ => []) = true := by
        cases hget : mapGet o k with
        | none => exact objLCxB_nil
        | some tv =>
          rcases tv with _ | _ | _ | _ | _ | so
          · exact objLCxB_nil
          · exact objLCxB_nil
          · exact objLCxB_nil
          · exact objLCxB_nil
          · exact objLCxB_nil
          · have := valueLCxB_of_objLCxB_mapGet o k (.vobj so) ho hget
            simpa [valueLCxB] using this
      have := ih _ v hsub (fun s hs => hsegs s (List.mem_cons_of_mem _ hs)) hv
      simpa [valueLCxB] using this

/-- C9, counterexample: case information in values is not discarded —
`set('a', {B: 1})` stores the object value verbatim, leaving an
uppercase key at depth 2 of Overrides, and `mergeConfigMap` lowercases
recursively only outside arrays, so an object inside an array keeps its
uppercase key in the Config-file layer.  Both states are reachable by
the listed public operations. -/
theorem C9_counterexample :
    ReachAny ((Viper.init ".").set "a" (.vobj [("B", .vnum 1)])) ∧
    valueLCdeepB (.vobj ((Viper.init ".").set "a"
      (.vobj [("B", .vnum 1)])).overrides) = false ∧
    ReachAny ((Viper.init ".").mergeConfigMap
      [("a", .varr [.vobj [("B", .vnum 1)]])]) ∧
    valueLCdeepB (.vobj ((Viper.init ".").mergeConfigMap
      [("a", .varr [.vobj [("B", .vnum 1)]])]).config) = false := by
  have ha : isLowerStr "a" = true := rfl
  have hB : isLowerStr "B" = false := rfl
  have hov : ((Viper.init ".").set "a" (.vobj [("B", .vnum 1)])).overrides =
      [("a", Value.vobj [("B", Value.vnum 1)])] := rfl
  refine ⟨ReachAny.set _ _ _ (ReachAny.init "."), ?_,
    ReachAny.mergeConfigMap _ _ (ReachAny.init "."), ?_⟩
  · rw [hov]
    simp [valueLCdeepB, ha, hB]
  · have hconf : ((Viper.init ".").mergeConfigMap
        [("a", .varr [.vobj [("B", .vnum 1)]])]).config =
        [("a", .varr [.vobj [("B", .vnum 1)]])] := by
      show deepMerge [] (lowercaseKeys [("a", .varr [.vobj [("B", .vnum 1)]])]) = _
      have hlc : lowercaseKeys [("a", Value.varr [.vobj [("B", .vnum 1)]])] =
          [("a", Value.varr [.vobj [("B", .vnum 1)]])] := by
        unfold lowercaseKeys
        rw [lowercaseKeysAux, lowercaseKeysAux]
        rfl
      rw [hlc, deepMerge_cons_arr, deepMerge_nil_right]
      rfl
    rw [hconf]
    simp [valueLCdeepB, ha, hB]

/-- C9 (amended): provided every value passed to `set`/`setDefault` has
only lowercase object keys outside arrays, every reachable registry
state has lowercase keys at every object level reached outside arrays
in all three stored trees: key strings are lowercased by `splitKey` at
the point of first use, and map inputs are lowercased recursively by
`lowercaseKeys` — but object values are stored verbatim and arrays are
never descended into, which is what the counterexample exhibits. -/
theorem C9_lowercase_invariant (v : Viper) (h : ReachLC v) :
    objLCxB v.defaults = true ∧ objLCxB v.config = true ∧
      objLCxB v.overrides = true := by
  induction h with
  | init delim => exact ⟨objLCxB_nil, objLCxB_nil, objLCxB_nil⟩
  | set v key value hlc _ ih =>
    exact ⟨ih.1, ih.2.1,
      objLCxB_deepSetObj _ _ _ ih.2.2 (splitKey_all_lower key v.keyDelim) hlc⟩
  | setDefault v key value hlc _ ih =>
    exact ⟨objLCxB_deepSetObj _ _ _ ih.1 (splitKey_all_lower key v.keyDelim) hlc,
      ih.2.1, ih.2.2⟩
  | setDefaults v ds _ ih =>
    exact ⟨objLCxB_deepMerge _ _ ih.1 (objLCxB_lowercaseKeys ds), ih.2.1, ih.2.2⟩
  | mergeConfigMap v cfg _ ih =>
    exact ⟨ih.1, objLCxB_deepMerge _ _ ih.2.1 (objLCxB_lowercaseKeys cfg), ih.2.2⟩
  | readInConfig v findResult parsed schemaOk _ ih =>
    cases findResult with
    | none => exact ih
    | some file =>
      cases parsed with
      | error e => exact ih
      | ok p =>
        cases schemaOk with
        | none => exact ⟨ih.1, objLCxB_lowercaseKeys p, ih.2.2⟩
        | some val =>
          by_cases hval : val (lowercaseKeys p) = true
          · simp only [Viper.readInConfig, hval, if_pos hval]
            exact ⟨ih.1, objLCxB_lowercaseKeys p, ih.2.2⟩
          · simp only [Viper.readInConfig, if_neg hval]
            exact ih
  | mergeInConfig v findResult parsed schemaOk _ ih =>
    cases findResult with
    | none => exact ih
    | some file =>
      cases parsed with
      | error e => exact ih
      | ok p =>
        cases schemaOk with
        | none =>
          exact ⟨ih.1, objLCxB_deepMerge _ _ ih.2.1 (objLCxB_lowercaseKeys p), ih.2.2⟩
        | some val =>
          by_cases hval : val (deepMerge v.config (lowercaseKeys p)) = true
          · simp only [Viper.mergeInConfig, hval, if_pos hval]
            exact ⟨ih.1, objLCxB_deepMerge _ _ ih.2.1 (objLCxB_lowercaseKeys p),
              ih.2.2⟩
          · simp only [Viper.mergeInConfig, if_neg hval]
            exact ih

theorem C9_lowercase_invariant_witness :
    objLCxB ((Viper.init ".").set "A.B" (.vstr "x")).overrides = true :=
  (C9_lowercase_invariant _
    (ReachLC.set (Viper.init ".") "A.B" (.vstr "x") rfl (ReachLC.init "."))).2.2

/-! ## C3: deepMerge sharing lets allSettings corrupt the stored layers -/

/-- C3: replaying `allSettings` over the reference-semantics model on the
state `defaults = {}` (object 2), `config = {a: {b: 1}}` (object 1,
whose nested object `{b: 1}` is object 0), `overrides = {}` (object 3),
with auto-env on and `A_B = "x"` in the environment: `deepMerge` copies
the nested config object into the merged snapshot by reference
(`{ ...target }` and `result[key] = sourceVal` are shallow), and the env
overlay's `deepSet` then writes through that shared reference — so after
the call the stored Config-file layer itself reads `{a: {b: "x"}}`, and
`get('a')` on the corrupted layer returns `{b: "x"}` where it returned
`{b: 1}` before, contradicting both the claimed freshness of `deepMerge`
results and the claimed read-only behaviour of `allSettings`. -/
theorem C3_allSettings_mutates_config :
    readValH [[("b", .hprim (.vnum 1))], [("a", .href 0)], [], []] (.href 1) 5 =
      .vobj [("a", .vobj [("b", .vnum 1)])] ∧
    readValH (allSettingsH [[("b", .hprim (.vnum 1))], [("a", .href 0)], [], []]
        2 1 3 (fun s => if s = "A_B" then some "x" else none) "" [] true "." 10).1
        (.href 1) 5 =
      .vobj [("a", .vobj [("b", .vstr "x")])] ∧
    Viper.get
      { Viper.init "." with
          config := [("a", .vobj [("b", .vnum 1)])], autoEnv := true }
      (fun s => if s = "A_B" then some "x" else none) "a" =
      .ok (some (.vobj [("b", .vnum 1)])) ∧
    Viper.get
      { Viper.init "." with
          config := [("a", .vobj [("b", .vstr "x")])], autoEnv := true }
      (fun s => if s = "A_B" then some "x" else none) "a" =
      .ok (some (.vobj [("b", .vstr "x")])) :=
  ⟨rfl, rfl, rfl, rfl⟩

/-! ## C2 groundwork: transport of the well-formedness predicates -/

theorem mem_of_mapGet {α : Type} (m : List (String × α)) (k : String) (v : α)
    (h : mapGet m k = some v) : (k, v) ∈ m := by
  induction m with
  | nil => simp [mapGet] at h
  | cons kv rest ih =>
    obtain ⟨k1, v1⟩ := kv
    by_cases he : k1 = k
    · subst he
      have : v1 = v := by simpa [mapGet] using h
      subst this
      simp
    · exact List.mem_cons_of_mem _ (ih (by simpa [mapGet, he] using h))

theorem mem_mapSet {α : Type} (m : List (String × α)) (k : String) (v : α)
    (kv : String × α) (h : kv ∈ mapSet m k v) : kv ∈ m ∨ kv = (k, v) := by
  induction m with
  | nil => simpa [mapSet] using h
  | cons kv1 rest ih =>
    obtain ⟨k1, v1⟩ := kv1
    by_cases he : k1 = k
    · subst he
      simp only [mapSet, if_pos rfl] at h
      rcases List.mem_cons.mp h with h1 | h2
      · exact Or.inr (by simpa using h1)
      · exact Or.inl (List.mem_cons_of_mem _ h2)
    · simp only [mapSet, if_neg he] at h
      rcases List.mem_cons.mp h with h1 | h2
      · exact Or.inl (by simp [h1])
      · rcases ih h2 with h3 | h4
        · exact Or.inl (List.mem_cons_of_mem _ h3)
        · exact Or.inr h4

theorem mem_mapDelete {α : Type} (m : List (String × α)) (k : String)
    (kv : String × α) (h : kv ∈ mapDelete m k) : kv ∈ m := by
  induction m with
  | nil => simpa [mapDelete] using h
  | cons kv1 rest ih =>
    obtain ⟨k1, v1⟩ := kv1
    by_cases he : k1 = k
    · simp only [mapDelete, if_pos he] at h
      exact List.mem_cons_of_mem _ (ih h)
    · simp only [mapDelete, if_neg he] at h
      rcases List.mem_cons.mp h with h1 | h2
      · exact by simp [h1]
      · exact List.mem_cons_of_mem _ (ih h2)

theorem nodupKeysB_nil : nodupKeysB [] = true := by rw [nodupKeysB]

theorem noNullB_nil : noNullB [] = true := by rw [noNullB]

theorem goodKeysB_nil : goodKeysB [] = true := by rw [goodKeysB]

theorem nodupKeysB_cons_eq (k : String) (v : Value) (rest : Obj) :
    nodupKeysB ((k, v) :: rest) =
      ((rest.all (fun kv => kv.1 ≠ k)) && valueNodupB v && nodupKeysB rest) := by
  rcases v with _ | b | n | s | xs | fields <;> simp [nodupKeysB, valueNodupB]

theorem noNullB_cons_eq (k : String) (v : Value) (rest : Obj) :
    noNullB ((k, v) :: rest) = (valueNoNullB v && noNullB rest) := by
  rcases v with _ | b | n | s | xs | fields <;> simp [noNullB, valueNoNullB]

theorem goodKeysB_cons_eq (k : String) (v : Value) (rest : Obj) :
    goodKeysB ((k, v) :: rest) =
      (goodStrB k && valueGoodKeysB v && goodKeysB rest) := by
  rcases v with _ | b | n | s | xs | fields <;> simp [goodKeysB, valueGoodKeysB]

theorem nodupKeysB_cons (k : String) (v : Value) (rest : Obj)
    (h : nodupKeysB ((k, v) :: rest) = true) :
    (∀ kv ∈ rest, kv.1 ≠ k) ∧ valueNodupB v = true ∧ nodupKeysB rest = true := by
  rw [nodupKeysB_cons_eq] at h
  simp only [Bool.and_eq_true] at h
  refine ⟨?_, h.1.2, h.2⟩
  intro kv hkv
  have h0 := h.1.1
  rw [List.all_eq_true] at h0
  simpa using h0 kv hkv

theorem nodupKeysB_cons_intro (k : String) (v : Value) (rest : Obj)
    (h1 : ∀ kv ∈ rest, kv.1 ≠ k) (h2 : valueNodupB v = true)
    (h3 : nodupKeysB rest = true) : nodupKeysB ((k, v) :: rest) = true := by
  rw [nodupKeysB_cons_eq]
  simp only [Bool.and_eq_true]
  refine ⟨⟨?_, h2⟩, h3⟩
  rw [List.all_eq_true]
  intro kv hkv
  simpa using h1 kv hkv

theorem noNullB_cons (k : String) (v : Value) (rest : Obj)
    (h : noNullB ((k, v) :: rest) = true) :
    valueNoNullB v = true ∧ noNullB rest = true := by
  rw [noNullB_cons_eq] at h
  simpa only [Bool.and_eq_true] using h

theorem noNullB_cons_intro (k : String) (v : Value) (rest : Obj)
    (h2 : valueNoNullB v = true) (h3 : noNullB rest = true) :
    noNullB ((k, v) :: rest) = true := by
  rw [noNullB_cons_eq]
  simp [h2, h3]

theorem goodKeysB_cons (k : String) (v : Value) (rest : Obj)
    (h : goodKeysB ((k, v) :: rest) = true) :
    goodStrB k = true ∧ valueGoodKeysB v = true ∧ goodKeysB rest = true := by
  rw [goodKeysB_cons_eq] at h
  simp only [Bool.and_eq_true] at h
  exact ⟨h.1.1, h.1.2, h.2⟩

theorem goodKeysB_cons_intro (k : String) (v : Value) (rest : Obj)
    (h1 : goodStrB k = true) (h2 : valueGoodKeysB v = true)
    (h3 : goodKeysB rest = true) : goodKeysB ((k, v) :: rest) = true := by
  rw [goodKeysB_cons_eq]
  simp [h1, h2, h3]

theorem nodupTopB_of_nodupKeysB (o : Obj) (h : nodupKeysB o = true) :
    nodupTopB o = true := by
  induction o with
  | nil => rfl
  | cons kv rest ih =>
    obtain ⟨k, v⟩ := kv
    obtain ⟨h1, _, h3⟩ := nodupKeysB_cons k v rest h
    rw [nodupTopB]
    simp only [Bool.and_eq_true]
    refine ⟨?_, ih h3⟩
    rw [List.all_eq_true]
    intro kv hkv
    simpa using h1 kv hkv

theorem noNullTopB_of_noNullB (o : Obj) (h : noNullB o = true) :
    noNullTopB o = true := by
  induction o with
  | nil => rfl
  | cons kv rest ih =>
    obtain ⟨k, v⟩ := kv
    obtain ⟨h1, h2⟩ := noNullB_cons k v rest h
    have hrest := ih h2
    simp only [noNullTopB, List.all_cons, Bool.and_eq_true] at hrest ⊢
    refine ⟨?_, hrest⟩
    cases v <;> simp_all [valueNoNullB, isNullV]

theorem valueNodupB_of_mapGet (o : Obj) (k : String) (v : Value)
    (ho : nodupKeysB o = true) (h : mapGet o k = some v) :
    valueNodupB v = true := by
  induction o with
  | nil => simp [mapGet] at h
  | cons kv rest ih =>
    obtain ⟨k1, v1⟩ := kv
    obtain ⟨_, h2, h3⟩ := nodupKeysB_cons k1 v1 rest ho
    by_cases he : k1 = k
    · have : v1 = v := by simpa [mapGet, he] using h
      subst this
      exact h2
    · exact ih h3 (by simpa [mapGet, he] using h)

theorem valueNoNullB_of_mapGet (o : Obj) (k : String) (v : Value)
    (ho : noNullB o = true) (h : mapGet o k = some v) :
    valueNoNullB v = true := by
  induction o with
  | nil => simp [mapGet] at h
  | cons kv rest ih =>
    obtain ⟨k1, v1⟩ := kv
    obtain ⟨h2, h3⟩ := noNullB_cons k1 v1 rest ho
    by_cases he : k1 = k
    · have : v1 = v := by simpa [mapGet, he] using h
      subst this
      exact h2
    · exact ih h3 (by simpa [mapGet, he] using h)

theorem valueGoodKeysB_of_mapGet (o : Obj) (k : String) (v : Value)
    (ho : goodKeysB o = true) (h : mapGet o k = some v) :
    valueGoodKeysB v = true := by
  induction o with
  | nil => simp [mapGet] at h
  | cons kv rest ih =>
    obtain ⟨k1, v1⟩ := kv
    obtain ⟨_, h2, h3⟩ := goodKeysB_cons k1 v1 rest ho
    by_cases he : k1 = k
    · have : v1 = v := by simpa [mapGet, he] using h
      subst this
      exact h2
    · exact ih h3 (by simpa [mapGet, he] using h)

theorem nodupKeysB_mapSet (o : Obj) (k : String) (v : Value)
    (ho : nodupKeysB o = true) (hv : valueNodupB v = true) :
    nodupKeysB (mapSet o k v) = true := by
  induction o with
  | nil => exact nodupKeysB_cons_intro k v [] (by simp) hv nodupKeysB_nil
  | cons kv rest ih =>
    obtain ⟨k1, v1⟩ := kv
    obtain ⟨h1, h2, h3⟩ := nodupKeysB_cons k1 v1 rest ho
    by_cases he : k1 = k
    · subst he
      simp only [mapSet, if_pos rfl]
      exact nodupKeysB_cons_intro k1 v rest h1 hv h3
    · simp only [mapSet, if_neg he]
      refine nodupKeysB_cons_intro k1 v1 _ ?_ h2 (ih h3)
      intro kv hkv
      rcases mem_mapSet rest k v kv hkv with hm | hm
      · exact h1 kv hm
      · subst hm
        exact fun hh => he hh.symm

theorem nodupKeysB_mapDelete (o : Obj) (k : String)
    (ho : nodupKeysB o = true) : nodupKeysB (mapDelete o k) = true := by
  induction o with
  | nil => exact nodupKeysB_nil
  | cons kv rest ih =>
    obtain ⟨k1, v1⟩ := kv
    obtain ⟨h1, h2, h3⟩ := nodupKeysB_cons k1 v1 rest ho
    by_cases he : k1 = k
    · simp only [mapDelete, if_pos he]
      exact ih h3
    · simp only [mapDelete, if_neg he]
      refine nodupKeysB_cons_intro k1 v1 _ ?_ h2 (ih h3)
      intro kv hkv
      exact h1 kv (mem_mapDelete rest k kv hkv)

theorem noNullB_mapSet (o : Obj) (k : String) (v : Value)
    (ho : noNullB o = true) (hv : valueNoNullB v = true) :
    noNullB (mapSet o k v) = true := by
  induction o with
  | nil => exact noNullB_cons_intro k v [] hv noNullB_nil
  | cons kv rest ih =>
    obtain ⟨k1, v1⟩ := kv
    obtain ⟨h2, h3⟩ := noNullB_cons k1 v1 rest ho
    by_cases he : k1 = k
    · subst he
      simp only [mapSet, if_pos rfl]
      exact noNullB_cons_intro k1 v rest hv h3
    · simp only [mapSet, if_neg he]
      exact noNullB_cons_intro k1 v1 _ h2 (ih h3)

theorem noNullB_mapDelete (o : Obj) (k : String)
    (ho : noNullB o = true) : noNullB (mapDelete o k) = true := by
  induction o with
  | nil => exact noNullB_nil
  | cons kv rest ih =>
    obtain ⟨k1, v1⟩ := kv
    obtain ⟨h2, h3⟩ := noNullB_cons k1 v1 rest ho
    by_cases he : k1 = k
    · simp only [mapDelete, if_pos he]
      exact ih h3
    · simp only [mapDelete, if_neg he]
      exact noNullB_cons_intro k1 v1 _ h2 (ih h3)

theorem goodKeysB_mapSet (o : Obj) (k : String) (v : Value)
    (ho : goodKeysB o = true) (hk : goodStrB k = true)
    (hv : valueGoodKeysB v = true) : goodKeysB (mapSet o k v) = true := by
  induction o with
  | nil => exact goodKeysB_cons_intro k v [] hk hv goodKeysB_nil
  | cons kv rest ih =>
    obtain ⟨k1, v1⟩ := kv
    obtain ⟨h1, h2, h3⟩ := goodKeysB_cons k1 v1 rest ho
    by_cases he : k1 = k
    · subst he
      simp only [mapSet, if_pos rfl]
      exact goodKeysB_cons_intro k1 v rest h1 hv h3
    · simp only [mapSet, if_neg he]
      exact goodKeysB_cons_intro k1 v1 _ h1 h2 (ih h3)

theorem goodKeysB_mapDelete (o : Obj) (k : String)
    (ho : goodKeysB o = true) : goodKeysB (mapDelete o k) = true := by
  induction o with
  | nil => exact goodKeysB_nil
  | cons kv rest ih =>
    obtain ⟨k1, v1⟩ := kv
    obtain ⟨h1, h2, h3⟩ := goodKeysB_cons k1 v1 rest ho
    by_cases he : k1 = k
    · simp only [mapDelete, if_pos he]
      exact ih h3
    · simp only [mapDelete, if_neg he]
      exact goodKeysB_cons_intro k1 v1 _ h1 h2 (ih h3)

theorem nodupKeysB_deepMerge (t s : Obj) (ht : nodupKeysB t = true)
    (hs : nodupKeysB s = true) : nodupKeysB (deepMerge t s) = true := by
  induction t, s using deepMerge.induct with
  | case1 t => simpa [deepMerge_nil_right] using ht
  | case2 t k rest ih =>
    obtain ⟨_, _, h3⟩ := nodupKeysB_cons _ _ _ hs
    rw [deepMerge_cons_null]
    exact ih (nodupKeysB_mapDelete t k ht) h3
  | case3 t k b rest ih =>
    obtain ⟨_, _, h3⟩ := nodupKeysB_cons _ _ _ hs
    rw [deepMerge_cons_bool]
    exact ih (nodupKeysB_mapSet t k _ ht rfl) h3
  | case4 t k n rest ih =>
    obtain ⟨_, _, h3⟩ := nodupKeysB_cons _ _ _ hs
    rw [deepMerge_cons_num]
    exact ih (nodupKeysB_mapSet t k _ ht rfl) h3
  | case5 t k str rest ih =>
    obtain ⟨_, _, h3⟩ := nodupKeysB_cons _ _ _ hs
    rw [deepMerge_cons_str]
    exact ih (nodupKeysB_mapSet t k _ ht rfl) h3
  | case6 t k xs rest ih =>
    obtain ⟨_, _, h3⟩ := nodupKeysB_cons _ _ _ hs
    rw [deepMerge_cons_arr]
    exact ih (nodupKeysB_mapSet t k _ ht rfl) h3
  | case7 t k sf rest so hget ihinner ih =>
    obtain ⟨_, h2, h3⟩ := nodupKeysB_cons _ _ _ hs
    rw [deepMerge_cons_obj_obj t k sf so rest hget]
    have hso : nodupKeysB so = true := by
      simpa [valueNodupB] using valueNodupB_of_mapGet t k (.vobj so) ht hget
    have hsf : nodupKeysB sf = true := by simpa [valueNodupB] using h2
    have hinner := ihinner hso hsf
    exact ih (nodupKeysB_mapSet t k _ ht (by simpa [valueNodupB] using hinner)) h3
  | case8 t k sf rest hnot ih =>
    obtain ⟨_, h2, h3⟩ := nodupKeysB_cons _ _ _ hs
    have heq : deepMerge t ((k, .vobj sf) :: rest) =
        deepMerge (mapSet t k (.vobj sf)) rest := by
      cases hget : mapGet t k with
      | none => exact deepMerge_cons_obj_none t k sf rest hget
      | some tv =>
        rcases tv with _ | b2 | n2 | str2 | elts2 | tf
        · exact deepMerge_cons_obj_scalar t k sf rest _ hget rfl
        · exact deepMerge_cons_obj_scalar t k sf rest _ hget rfl
        · exact deepMerge_cons_obj_scalar t k sf rest _ hget rfl
        · exact deepMerge_cons_obj_scalar t k sf rest _ hget rfl
        · exact deepMerge_cons_obj_scalar t k sf rest _ hget rfl
        · exact absurd hget (fun hh => hnot tf hh)
    rw [heq]
    exact ih (nodupKeysB_mapSet t k _ ht h2) h3

theorem noNullB_deepMerge (t s : Obj) (ht : noNullB t = true)
    (hs : noNullB s = true) (hnds : nodupKeysB s = true) :
    noNullB (deepMerge t s) = true := by
  induction t, s using deepMerge.induct with
  | case1 t => simpa [deepMerge_nil_right] using ht
  | case2 t k rest ih =>
    obtain ⟨h2, _⟩ := noNullB_cons _ _ _ hs
    simp [valueNoNullB] at h2
  | case3 t k b rest ih =>
    obtain ⟨_, h3⟩ := noNullB_cons _ _ _ hs
    obtain ⟨_, _, hnd3⟩ := nodupKeysB_cons _ _ _ hnds
    rw [deepMerge_cons_bool]
    exact ih (noNullB_mapSet t k _ ht rfl) h3 hnd3
  | case4 t k n rest ih =>
    obtain ⟨_, h3⟩ := noNullB_cons _ _ _ hs
    obtain ⟨_, _, hnd3⟩ := nodupKeysB_cons _ _ _ hnds
    rw [deepMerge_cons_num]
    exact ih (noNullB_mapSet t k _ ht rfl) h3 hnd3
  | case5 t k str rest ih =>
    obtain ⟨_, h3⟩ := noNullB_cons _ _ _ hs
    obtain ⟨_, _, hnd3⟩ := nodupKeysB_cons _ _ _ hnds
    rw [deepMerge_cons_str]
    exact ih (noNullB_mapSet t k _ ht rfl) h3 hnd3
  | case6 t k xs rest ih =>
    obtain ⟨_, h3⟩ := noNullB_cons _ _ _ hs
    obtain ⟨_, _, hnd3⟩ := nodupKeysB_cons _ _ _ hnds
    rw [deepMerge_cons_arr]
    exact ih (noNullB_mapSet t k _ ht rfl) h3 hnd3
  | case7 t k sf rest so hget ihinner ih =>
    obtain ⟨h2, h3⟩ := noNullB_cons _ _ _ hs
    obtain ⟨_, hnd2, hnd3⟩ := nodupKeysB_cons _ _ _ hnds
    rw [deepMerge_cons_obj_obj t k sf so rest hget]
    have hso : noNullB so = true := by
      simpa [valueNoNullB] using valueNoNullB_of_mapGet t k (.vobj so) ht hget
    have hinner := ihinner hso (by simpa [valueNoNullB] using h2)
      (by simpa [valueNodupB] using hnd2)
    exact ih (noNullB_mapSet t k _ ht (by simpa [valueNoNullB] using hinner)) h3 hnd3
  | case8 t k sf rest hnot ih =>
    obtain ⟨h2, h3⟩ := noNullB_cons _ _ _ hs
    obtain ⟨_, _, hnd3⟩ := nodupKeysB_cons _ _ _ hnds
    have heq : deepMerge t ((k, .vobj sf) :: rest) =
        deepMerge (mapSet t k (.vobj sf)) rest := by
      cases hget : mapGet t k with
      | none => exact deepMerge_cons_obj_none t k sf rest hget
      | some tv =>
        rcases tv with _ | b2 | n2 | str2 | elts2 | tf
        · exact deepMerge_cons_obj_scalar t k sf rest _ hget rfl
        · exact deepMerge_cons_obj_scalar t k sf rest _ hget rfl
        · exact deepMerge_cons_obj_scalar t k sf rest _ hget rfl
        · exact deepMerge_cons_obj_scalar t k sf rest _ hget rfl
        · exact deepMerge_cons_obj_scalar t k sf rest _ hget rfl
        · exact absurd hget (fun hh => hnot tf hh)
    rw [heq]
    exact ih (noNullB_mapSet t k _ ht h2) h3 hnd3

theorem goodKeysB_deepMerge (t s : Obj) (ht : goodKeysB t = true)
    (hs : goodKeysB s = true) : goodKeysB (deepMerge t s) = true := by
  induction t, s using deepMerge.induct with
  | case1 t => simpa [deepMerge_nil_right] using ht
  | case2 t k rest ih =>
    obtain ⟨_, _, h3⟩ := goodKeysB_cons _ _ _ hs
    rw [deepMerge_cons_null]
    exact ih (goodKeysB_mapDelete t k ht) h3
  | case3 t k b rest ih =>
    obtain ⟨h1, _, h3⟩ := goodKeysB_cons _ _ _ hs
    rw [deepMerge_cons_bool]
    exact ih (goodKeysB_mapSet t k _ ht h1 rfl) h3
  | case4 t k n rest ih =>
    obtain ⟨h1, _, h3⟩ := goodKeysB_cons _ _ _ hs
    rw [deepMerge_cons_num]
    exact ih (goodKeysB_mapSet t k _ ht h1 rfl) h3
  | case5 t k str rest ih =>
    obtain ⟨h1, _, h3⟩ := goodKeysB_cons _ _ _ hs
    rw [deepMerge_cons_str]
    exact ih (goodKeysB_mapSet t k _ ht h1 rfl) h3
  | case6 t k xs rest ih =>
    obtain ⟨h1, _, h3⟩ := goodKeysB_cons _ _ _ hs
    rw [deepMerge_cons_arr]
    exact ih (goodKeysB_mapSet t k _ ht h1 rfl) h3
  | case7 t k sf rest so hget ihinner ih =>
    obtain ⟨h1, h2, h3⟩ := goodKeysB_cons _ _ _ hs
    rw [deepMerge_cons_obj_obj t k sf so rest hget]
    have hso : goodKeysB so = true := by
      simpa [valueGoodKeysB] using valueGoodKeysB_of_mapGet t k (.vobj so) ht hget
    have hinner := ihinner hso (by simpa [valueGoodKeysB] using h2)
    exact ih (goodKeysB_mapSet t k _ ht h1
      (by simpa [valueGoodKeysB] using hinner)) h3
  | case8 t k sf rest hnot ih =>
    obtain ⟨h1, h2, h3⟩ := goodKeysB_cons _ _ _ hs
    have heq : deepMerge t ((k, .vobj sf) :: rest) =
        deepMerge (mapSet t k (.vobj sf)) rest := by
      cases hget : mapGet t k with
      | none => exact deepMerge_cons_obj_none t k sf rest hget
      | some tv =>
        rcases tv with _ | b2 | n2 | str2 | elts2 | tf
        · exact deepMerge_cons_obj_scalar t k sf rest _ hget rfl
        · exact deepMerge_cons_obj_scalar t k sf rest _ hget rfl
        · exact deepMerge_cons_obj_scalar t k sf rest _ hget rfl
        · exact deepMerge_cons_obj_scalar t k sf rest _ hget rfl
        · exact deepMerge_cons_obj_scalar t k sf rest _ hget rfl
        · exact absurd hget (fun hh => hnot tf hh)
    rw [heq]
    exact ih (goodKeysB_mapSet t k _ ht h1 h2) h3

/-! ## C2 groundwork: structural compatibility of layers -/

theorem shapeCB_nil (s : Obj) : shapeCB [] s = true := by rw [shapeCB]

theorem sizeOf_of_mapGet_vobj (t : Obj) (k : String) (a : Obj)
    (h : mapGet t k = some (.vobj a)) : sizeOf a < sizeOf t := by
  have h1 := List.sizeOf_lt_of_mem (mem_of_mapGet t k (.vobj a) h)
  simp at h1
  omega

/-- Eliminating `shapeCB`: a key present in both trees carries either two
recursively compatible plain objects or two scalars. -/
theorem shapeCB_spec (t s : Obj) (k : String) (tv sv : Value)
    (h : shapeCB t s = true) (ht : mapGet t k = some tv)
    (hs : mapGet s k = some sv) :
    (∃ a b, tv = .vobj a ∧ sv = .vobj b ∧ shapeCB a b = true) ∨
      (atomicB tv = true ∧ atomicB sv = true) := by
  induction t with
  | nil => simp [mapGet] at ht
  | cons kv rest ih =>
    obtain ⟨k1, tv1⟩ := kv
    rw [shapeCB] at h
    simp only [Bool.and_eq_true] at h
    by_cases he : k1 = k
    · subst he
      have htv : tv1 = tv := by simpa [mapGet] using ht
      subst htv
      have h1 := h.1
      rw [hs] at h1
      rcases tv1 with _ | b1 | n1 | s1 | xs1 | a <;>
        rcases sv with _ | b2 | n2 | s2 | xs2 | b <;>
        simp [atomicB] at h1 ⊢
      exact h1
    · exact ih h.2 (by simpa [mapGet, he] using ht)

/-- Introducing `shapeCB` from the per-key condition (top-level unique
keys align entries with lookups). -/
theorem shapeCB_intro (t s : Obj) (hnd : nodupTopB t = true)
    (hc : ∀ k tv sv, mapGet t k = some tv → mapGet s k = some sv →
      (∃ a b, tv = .vobj a ∧ sv = .vobj b ∧ shapeCB a b = true) ∨
        (atomicB tv = true ∧ atomicB sv = true)) :
    shapeCB t s = true := by
  induction t with
  | nil => exact shapeCB_nil s
  | cons kv rest ih =>
    obtain ⟨k1, tv1⟩ := kv
    have hnd1 : ∀ kv ∈ rest, kv.1 ≠ k1 := by
      have := hnd
      rw [nodupTopB] at this
      simp only [Bool.and_eq_true] at this
      intro kv hkv
      have h0 := this.1
      rw [List.all_eq_true] at h0
      simpa using h0 kv hkv
    have hndrest : nodupTopB rest = true := by
      have := hnd
      rw [nodupTopB] at this
      simp only [Bool.and_eq_true] at this
      exact this.2
    rw [shapeCB]
    simp only [Bool.and_eq_true]
    constructor
    · cases hget : mapGet s k1 with
      | none => simp
      | some sv =>
        have hck := hc k1 tv1 sv (by simp [mapGet]) hget
        rcases hck with ⟨a, b, ha, hb, hab⟩ | ⟨h1, h2⟩
        · subst ha
          subst hb
          simpa using hab
        · rcases tv1 with _ | b1 | n1 | s1 | xs1 | a <;>
            rcases sv with _ | b2 | n2 | s2 | xs2 | b <;>
            simp [atomicB] at h1 h2 ⊢
    · refine ih hndrest (fun k tv sv hgt hgs => ?_)
      by_cases he : k = k1
      · subst he
        have : mapGet rest k = none :=
          mapGet_eq_none_of_forall_ne rest k hnd1
        simp [this] at hgt
      · have hne : k1 ≠ k := fun hh => he hh.symm
        refine hc k tv sv ?_ hgs
        simpa [mapGet, hne] using hgt

theorem shapeCB_symm_aux :
    ∀ (n : Nat) (t s : Obj), sizeOf t ≤ n → nodupKeysB s = true →
      shapeCB t s = true → shapeCB s t = true := by
  intro n
  induction n with
  | zero =>
    intro t s hsz _ _
    have : 0 < sizeOf t := by cases t <;> simp
    omega
  | succ n ih =>
    intro t s hsz hnds hsh
    refine shapeCB_intro s t (nodupTopB_of_nodupKeysB s hnds) ?_
    intro k sv tv hgs hgt
    rcases shapeCB_spec t s k tv sv hsh hgt hgs with ⟨a, b, ha, hb, hab⟩ | ⟨h1, h2⟩
    · subst ha
      subst hb
      refine Or.inl ⟨b, a, rfl, rfl, ?_⟩
      have hsza : sizeOf a < sizeOf t := sizeOf_of_mapGet_vobj t k a hgt
      have hndb : nodupKeysB b = true := by
        simpa [valueNodupB] using valueNodupB_of_mapGet s k (.vobj b) hnds hgs
      exact ih a b (by omega) hndb hab
    · exact Or.inr ⟨h2, h1⟩

theorem shapeCB_symm (t s : Obj) (hnds : nodupKeysB s = true)
    (h : shapeCB t s = true) : shapeCB s t = true :=
  shapeCB_symm_aux (sizeOf t) t s (Nat.le_refl _) hnds h

theorem shapeCB_deepMerge_aux :
    ∀ (n : Nat) (t s o : Obj), sizeOf s ≤ n → nodupKeysB t = true →
      nodupKeysB s = true → noNullB s = true →
      shapeCB t o = true → shapeCB s o = true →
      shapeCB (deepMerge t s) o = true := by
  intro n
  induction n with
  | zero =>
    intro t s o hsz _ _ _ _ _
    have : 0 < sizeOf s := by cases s <;> simp
    omega
  | succ n ih =>
    intro t s o hsz hndt hnds hnn hto hso
    refine shapeCB_intro (deepMerge t s) o
      (nodupTopB_of_nodupKeysB _ (nodupKeysB_deepMerge t s hndt hnds)) ?_
    intro k mv ov hgm hgo
    have hndtops : nodupTopB s = true := nodupTopB_of_nodupKeysB s hnds
    cases hgs : mapGet s k with
    | none =>
      rw [mapGet_deepMerge_not_mem_src t s k hgs] at hgm
      exact shapeCB_spec t o k mv ov hto hgm hgo
    | some sv =>
      rcases sv with _ | b1 | n1 | s1 | xs1 | sf
      · have := valueNoNullB_of_mapGet s k _ hnn hgs
        simp [valueNoNullB] at this
      · rw [mapGet_deepMerge_scalar t s k _ hndtops hgs rfl rfl] at hgm
        obtain rfl : Value.vbool b1 = mv := by simpa using hgm
        exact shapeCB_spec s o k _ ov hso hgs hgo
      · rw [mapGet_deepMerge_scalar t s k _ hndtops hgs rfl rfl] at hgm
        obtain rfl : Value.vnum n1 = mv := by simpa using hgm
        exact shapeCB_spec s o k _ ov hso hgs hgo
      · rw [mapGet_deepMerge_scalar t s k _ hndtops hgs rfl rfl] at hgm
        obtain rfl : Value.vstr s1 = mv := by simpa using hgm
        exact shapeCB_spec s o k _ ov hso hgs hgo
      · rw [mapGet_deepMerge_scalar t s k _ hndtops hgs rfl rfl] at hgm
        obtain rfl : Value.varr xs1 = mv := by simpa using hgm
        exact shapeCB_spec s o k _ ov hso hgs hgo
      · cases hgt : mapGet t k with
        | none =>
          have hno : ∀ tf, mapGet t k ≠ some (.vobj tf) := by
            intro tf2 hh
            rw [hgt] at hh
            exact Option.noConfusion hh
          rw [mapGet_deepMerge_obj_not t s k sf hndtops hgs hno] at hgm
          obtain rfl : Value.vobj sf = mv := Option.some.inj hgm
          exact shapeCB_spec s o k _ ov hso hgs hgo
        | some tv =>
          rcases tv with _ | b2 | n2 | s2 | xs2 | tf
          · have hno : ∀ tf, mapGet t k ≠ some (.vobj tf) := by
              intro tf2 hh
              rw [hgt] at hh
              exact Value.noConfusion (Option.some.inj hh)
            rw [mapGet_deepMerge_obj_not t s k sf hndtops hgs hno] at hgm
            obtain rfl : Value.vobj sf = mv := Option.some.inj hgm
            exact shapeCB_spec s o k _ ov hso hgs hgo
          · have hno : ∀ tf, mapGet t k ≠ some (.vobj tf) := by
              intro tf2 hh
              rw [hgt] at hh
              exact Value.noConfusion (Option.some.inj hh)
            rw [mapGet_deepMerge_obj_not t s k sf hndtops hgs hno] at hgm
            obtain rfl : Value.vobj sf = mv := Option.some.inj hgm
            exact shapeCB_spec s o k _ ov hso hgs hgo
          · have hno : ∀ tf, mapGet t k ≠ some (.vobj tf) := by
              intro tf2 hh
              rw [hgt] at hh
              exact Value.noConfusion (Option.some.inj hh)
            rw [mapGet_deepMerge_obj_not t s k sf hndtops hgs hno] at hgm
            obtain rfl : Value.vobj sf = mv := Option.some.inj hgm
            exact shapeCB_spec s o k _ ov hso hgs hgo
          · have hno : ∀ tf, mapGet t k ≠ some (.vobj tf) := by
              intro tf2 hh
              rw [hgt] at hh
              exact Value.noConfusion (Option.some.inj hh)
            rw [mapGet_deepMerge_obj_not t s k sf hndtops hgs hno] at hgm
            obtain rfl : Value.vobj sf = mv := Option.some.inj hgm
            exact shapeCB_spec s o k _ ov hso hgs hgo
          · have hno : ∀ tf, mapGet t k ≠ some (.vobj tf) := by
              intro tf2 hh
              rw [hgt] at hh
              exact Value.noConfusion (Option.some.inj hh)
            rw [mapGet_deepMerge_obj_not t s k sf hndtops hgs hno] at hgm
            obtain rfl : Value.vobj sf = mv := Option.some.inj hgm
            exact shapeCB_spec s o k _ ov hso hgs hgo
          · rw [mapGet_deepMerge_obj_obj t s k tf sf hndtops hgs hgt] at hgm
            obtain rfl : Value.vobj (deepMerge tf sf) = mv := Option.some.inj hgm
            rcases shapeCB_spec t o k _ ov hto hgt hgo with
              ⟨a, b, ha, hb, hab⟩ | ⟨h1, _⟩
            · obtain rfl : tf = a := Value.vobj.inj ha
              subst hb
              rcases shapeCB_spec s o k _ _ hso hgs hgo with
                ⟨a2, b2, ha2, hb2, hab2⟩ | ⟨h1s, _⟩
              · obtain rfl : sf = a2 := Value.vobj.inj ha2
                obtain rfl : b = b2 := Value.vobj.inj hb2
                refine Or.inl ⟨deepMerge tf sf, b, rfl, rfl, ?_⟩
                have hsz2 : sizeOf sf < sizeOf s := sizeOf_of_mapGet_vobj s k sf hgs
                have hndtf : nodupKeysB tf = true := by
                  simpa [valueNodupB] using
                    valueNodupB_of_mapGet t k (.vobj tf) hndt hgt
                have hndsf : nodupKeysB sf = true := by
                  simpa [valueNodupB] using
                    valueNodupB_of_mapGet s k (.vobj sf) hnds hgs
                have hnnsf : noNullB sf = true := by
                  simpa [valueNoNullB] using
                    valueNoNullB_of_mapGet s k (.vobj sf) hnn hgs
                exact ih tf sf b (by omega) hndtf hndsf hnnsf hab hab2
              · simp [atomicB] at h1s
            · simp [atomicB] at h1

theorem shapeCB_deepMerge (t s o : Obj) (hndt : nodupKeysB t = true)
    (hnds : nodupKeysB s = true) (hnn : noNullB s = true)
    (hto : shapeCB t o = true) (hso : shapeCB s o = true) :
    shapeCB (deepMerge t s) o = true :=
  shapeCB_deepMerge_aux (sizeOf s) t s o (Nat.le_refl _) hndt hnds hnn hto hso

/-! ## C2 groundwork: dotted keys and the split/join roundtrip -/

theorem data_ne_nil_of_ne_empty (s : String) (h : s ≠ "") : s.data ≠ [] := by
  intro hd
  exact h (by cases s; simp_all)

theorem goodStr_spec (k : String) (h : goodStrB k = true) :
    k.data ≠ [] ∧ (∀ c ∈ k.data, c ≠ '.') ∧ (∀ c ∈ k.data, lowerChar c = c) := by
  rw [goodStrB] at h
  simp only [Bool.and_eq_true] at h
  refine ⟨data_ne_nil_of_ne_empty k (by simpa using h.1.1), ?_, ?_⟩
  · intro c hc
    have := h.1.2
    rw [List.all_eq_true] at this
    simpa using this c hc
  · intro c hc
    have := h.2
    rw [isLowerStr, List.all_eq_true] at this
    simpa using this c hc

theorem splitList_dotfree :
    ∀ (fuel : Nat) (l : List Char), l.length < fuel → (∀ c ∈ l, c ≠ '.') →
      splitList ['.'] fuel l = [l] := by
  intro fuel
  induction fuel with
  | zero => intro l h; omega
  | succ f ih =>
    intro l hlen hdf
    cases l with
    | nil => rw [splitList]
    | cons c rest =>
      rw [splitList]
      have hc : c ≠ '.' := hdf c (by simp)
      have hpre : (['.'].isPrefixOf (c :: rest) && !(List.isEmpty ['.'])) = false := by
        simp [List.isPrefixOf]
        intro hh
        exact absurd hh.symm hc
      rw [hpre]
      simp only [Bool.false_eq_true, if_false]
      rw [ih rest (by simp at hlen ⊢; omega) (fun x hx => hdf x (by simp [hx]))]

theorem splitList_glue :
    ∀ (l1 : List Char), (∀ c ∈ l1, c ≠ '.') →
      ∀ (fuel : Nat) (rest : List Char), (l1 ++ '.' :: rest).length < fuel →
        splitList ['.'] fuel (l1 ++ '.' :: rest) =
          l1 :: splitList ['.'] (fuel - (l1.length + 1)) rest := by
  intro l1
  induction l1 with
  | nil =>
    intro _ fuel rest hlen
    cases fuel with
    | zero => simp at hlen
    | succ f =>
      rw [List.nil_append, splitList]
      have hpre : (['.'].isPrefixOf ('.' :: rest) && !(List.isEmpty ['.'])) = true := by
        simp [List.isPrefixOf]
      rw [hpre]
      simp
  | cons c l1' ih =>
    intro hdf fuel rest hlen
    cases fuel with
    | zero => simp at hlen
    | succ f =>
      rw [List.cons_append, splitList]
      have hc : c ≠ '.' := hdf c (by simp)
      have hpre :
          (['.'].isPrefixOf (c :: (l1' ++ '.' :: rest)) && !(List.isEmpty ['.'])) =
            false := by
        simp [List.isPrefixOf]
        intro hh
        exact absurd hh.symm hc
      rw [hpre]
      simp only [Bool.false_eq_true, if_false]
      rw [ih (fun x hx => hdf x (by simp [hx])) f rest (by simp at hlen ⊢; omega)]
      have harith : f - (l1'.length + 1) = (f + 1) - ((c :: l1').length + 1) := by
        simp only [List.length_cons]
        omega
      rw [harith]

theorem joinChar_cons_cons (a b : List Char) (l : List (List Char)) :
    joinChar '.' (a :: b :: l) = a ++ '.' :: joinChar '.' (b :: l) := by
  rw [joinChar]

theorem joinChar_glue (a b : List Char) (l : List (List Char)) :
    joinChar '.' ((a ++ '.' :: b) :: l) = a ++ '.' :: joinChar '.' (b :: l) := by
  cases l with
  | nil => rw [joinChar, joinChar]
  | cons y more =>
    rw [joinChar_cons_cons, joinChar_cons_cons]
    simp

theorem joinChar_chars (c : Char) :
    ∀ (segs : List (List Char)), c ∈ joinChar '.' segs →
      c = '.' ∨ ∃ x ∈ segs, c ∈ x := by
  intro segs
  induction segs with
  | nil =>
    intro h
    rw [joinChar] at h
    simp at h
  | cons x rest ih =>
    intro h
    cases rest with
    | nil =>
      rw [joinChar] at h
      exact Or.inr ⟨x, by simp, h⟩
    | cons y more =>
      rw [joinChar_cons_cons] at h
      rcases List.mem_append.mp h with hx | htail
      · exact Or.inr ⟨x, by simp, hx⟩
      · rcases List.mem_cons.mp htail with rfl | hrest
        · exact Or.inl rfl
        · rcases ih hrest with hdot | ⟨z, hz, hcz⟩
          · exact Or.inl hdot
          · exact Or.inr ⟨z, by simp [hz], hcz⟩

theorem joinPre_data :
    ∀ (p : List String) (pre : String), pre.data ≠ [] →
      (joinPre pre p).data = joinChar '.' (pre.data :: p.map String.data) := by
  intro p
  induction p with
  | nil =>
    intro pre _
    rw [joinPre, List.foldl_nil, List.map_nil, joinChar]
  | cons k rest ih =>
    intro pre hpre
    have hne : pre ≠ "" := by
      intro hh
      subst hh
      simp at hpre
    have hjk : joinKey pre k = pre ++ "." ++ k := by rw [joinKey, if_neg hne]
    have hstep : joinPre pre (k :: rest) = joinPre (joinKey pre k) rest := by
      rw [joinPre, joinPre, List.foldl_cons]
    rw [hstep, ih (joinKey pre k) (by rw [hjk]; simp [String.data_append])]
    rw [hjk]
    have hdata : (pre ++ "." ++ k).data = pre.data ++ '.' :: k.data := by
      simp [String.data_append]
    rw [hdata, List.map_cons, joinChar_glue, joinChar_cons_cons]

theorem joinPre_empty_cons (k : String) (p : List String) :
    joinPre "" (k :: p) = joinPre k p := by
  rw [joinPre, joinPre, List.foldl_cons, joinKey, if_pos rfl]

theorem joinPre_empty_data (p : List String) (hne : p ≠ []) (hgood : ∀ s ∈ p, goodStrB s = true) :
    (joinPre "" p).data = joinChar '.' (p.map String.data) := by
  cases p with
  | nil => exact absurd rfl hne
  | cons k rest =>
    rw [joinPre_empty_cons, List.map_cons]
    exact joinPre_data rest k (goodStr_spec k (hgood k (by simp))).1

theorem splitList_joinChar :
    ∀ (segs : List (List Char)), segs ≠ [] →
      (∀ x ∈ segs, x ≠ [] ∧ ∀ c ∈ x, c ≠ '.') →
      ∀ (fuel : Nat), (joinChar '.' segs).length < fuel →
        splitList ['.'] fuel (joinChar '.' segs) = segs := by
  intro segs
  induction segs with
  | nil => intro h; exact absurd rfl h
  | cons x rest ih =>
    intro _ hgood fuel hlen
    cases rest with
    | nil =>
      rw [joinChar] at hlen ⊢
      exact splitList_dotfree fuel x hlen (hgood x (by simp)).2
    | cons y more =>
      rw [joinChar_cons_cons] at hlen ⊢
      rw [splitList_glue x (hgood x (by simp)).2 fuel _ hlen]
      rw [ih (by simp) (fun z hz => hgood z (by simp [hz]))
        (fuel - (x.length + 1)) (by simp at hlen ⊢; omega)]

theorem joinPre_chars_fixed (p : List String) (hne : p ≠ [])
    (hgood : ∀ s ∈ p, goodStrB s = true) :
    ∀ c ∈ (joinPre "" p).data, lowerChar c = c := by
  intro c hc
  rw [joinPre_empty_data p hne hgood] at hc
  rcases joinChar_chars c _ hc with rfl | ⟨x, hx, hcx⟩
  · decide
  · obtain ⟨s, hs, rfl⟩ := List.mem_map.mp hx
    exact (goodStr_spec s (hgood s hs)).2.2 c hcx

/-- Joining a non-empty list of well-behaved segments with dots yields a
string the lowercasing pass leaves unchanged. -/
theorem jsToLower_joinPre (p : List String) (hne : p ≠ [])
    (hgood : ∀ s ∈ p, goodStrB s = true) :
    jsToLower (joinPre "" p) = joinPre "" p := by
  rw [jsToLower]
  have hmap : (joinPre "" p).data.map lowerChar = (joinPre "" p).data := by
    rw [List.map_congr_left (fun a ha => joinPre_chars_fixed p hne hgood a ha)]
    exact List.map_id _
  rw [hmap]

/-- `splitKey` inverts the dotted join of well-behaved segments: the key
built by `flattenKeys` resolves back to exactly its path. -/
theorem splitKey_joinPre (p : List String) (hne : p ≠ [])
    (hgood : ∀ s ∈ p, goodStrB s = true) :
    splitKey (joinPre "" p) "." = p := by
  rw [splitKey, jsToLower_joinPre p hne hgood, jsSplit]
  have hdot : ("." : String).data = ['.'] := rfl
  rw [hdot, joinPre_empty_data p hne hgood]
  rw [splitList_joinChar (p.map String.data) (by simpa using hne) ?hg _ (by omega)]
  case hg =>
    intro x hx
    obtain ⟨s, hs, rfl⟩ := List.mem_map.mp hx
    exact ⟨(goodStr_spec s (hgood s hs)).1, (goodStr_spec s (hgood s hs)).2.1⟩
  rw [List.map_map]
  have hcomp : p.map ((fun l => (⟨l⟩ : String)) ∘ String.data) = p := by
    have : ((fun l => (⟨l⟩ : String)) ∘ String.data) = id := by
      funext s
      rfl
    rw [this, List.map_id]
  rw [hcomp]
  apply List.filter_eq_self.mpr
  intro s hs
  have hd := (goodStr_spec s (hgood s hs)).1
  simp only [ne_eq, decide_eq_true_eq]
  intro hh
  subst hh
  exact hd rfl

/-! ## C2 groundwork: leaf enumeration -/

theorem flattenPaths_nil : flattenPaths [] = [] := by rw [flattenPaths]

theorem flattenPaths_cons_obj (k : String) (sub rest : Obj) :
    flattenPaths ((k, .vobj sub) :: rest) =
      (flattenPaths sub).map (fun p => k :: p) ++ flattenPaths rest := by
  rw [flattenPaths]

theorem flattenPaths_cons_scalar (k : String) (v : Value) (rest : Obj)
    (hv : isObjV v = false) :
    flattenPaths ((k, v) :: rest) = [[k]] ++ flattenPaths rest := by
  rcases v with _ | b | n | s | xs | o <;> rw [flattenPaths] <;> simp_all [isObjV]

theorem flattenKeys_nil (pre : String) : flattenKeys [] pre = [] := by
  rw [flattenKeys]

theorem flattenKeys_cons_obj (k : String) (sub rest : Obj) (pre : String) :
    flattenKeys ((k, .vobj sub) :: rest) pre =
      flattenKeys sub (joinKey pre k) ++ flattenKeys rest pre := by
  rw [flattenKeys]

theorem flattenKeys_cons_scalar (k : String) (v : Value) (rest : Obj) (pre : String)
    (hv : isObjV v = false) :
    flattenKeys ((k, v) :: rest) pre = [joinKey pre k] ++ flattenKeys rest pre := by
  rcases v with _ | b | n | s | xs | o <;> rw [flattenKeys] <;> simp_all [isObjV]

theorem joinPre_cons (pre k : String) (p : List String) :
    joinPre pre (k :: p) = joinPre (joinKey pre k) p := by
  rw [joinPre, joinPre, List.foldl_cons]

theorem joinPre_single (pre k : String) : joinPre pre [k] = joinKey pre k := by
  rw [joinPre, List.foldl_cons, List.foldl_nil]

/-- `flattenKeys` is the dotted join of the leaf paths. -/
theorem flattenKeys_eq_map_aux :
    ∀ (n : Nat) (o : Obj), sizeOf o ≤ n → ∀ (pre : String),
      flattenKeys o pre = (flattenPaths o).map (joinPre pre) := by
  intro n
  induction n with
  | zero =>
    intro o hsz
    have : 0 < sizeOf o := by cases o <;> simp
    omega
  | succ n ih =>
    intro o hsz pre
    cases o with
    | nil => rw [flattenKeys_nil, flattenPaths_nil, List.map_nil]
    | cons kv rest =>
      obtain ⟨k, v⟩ := kv
      cases hov : isObjV v with
      | true =>
        obtain ⟨sub, rfl⟩ : ∃ sub, v = .vobj sub := by
          rcases v with _ | b | nn | s | xs | ob <;> simp [isObjV] at hov
          exact ⟨ob, rfl⟩
        rw [flattenKeys_cons_obj, flattenPaths_cons_obj, List.map_append,
          List.map_map]
        have hlt1 : sizeOf sub < sizeOf ((k, Value.vobj sub) :: rest) := by
          simp <;> omega
        have hlt2 : sizeOf rest < sizeOf ((k, Value.vobj sub) :: rest) := by
          simp <;> omega
        have h1 : sizeOf sub ≤ n := by omega
        have h2 : sizeOf rest ≤ n := by omega
        rw [ih sub h1 (joinKey pre k), ih rest h2 pre]
        have : (joinPre pre ∘ fun p => k :: p) = joinPre (joinKey pre k) := by
          funext p
          exact joinPre_cons pre k p
        rw [this]
      | false =>
        rw [flattenKeys_cons_scalar k v rest pre hov,
          flattenPaths_cons_scalar k v rest hov, List.map_append]
        have hlt2 : sizeOf rest < sizeOf ((k, v) :: rest) := by
          simp <;> omega
        have h2 : sizeOf rest ≤ n := by omega
        rw [ih rest h2 pre]
        simp [joinPre_single]

theorem flattenKeys_eq_map (o : Obj) (pre : String) :
    flattenKeys o pre = (flattenPaths o).map (joinPre pre) :=
  flattenKeys_eq_map_aux (sizeOf o) o (Nat.le_refl _) pre

/-- Leaf paths are non-empty. -/
theorem flattenPaths_ne_nil (o : Obj) : ∀ p ∈ flattenPaths o, p ≠ [] := by
  induction o with
  | nil =>
    rw [flattenPaths_nil]
    intro p hp
    simp at hp
  | cons kv rest ih =>
    obtain ⟨k, v⟩ := kv
    intro p hp
    cases hov : isObjV v with
    | true =>
      obtain ⟨sub, rfl⟩ : ∃ sub, v = .vobj sub := by
        rcases v with _ | b | nn | s | xs | ob <;> simp [isObjV] at hov
        exact ⟨ob, rfl⟩
      rw [flattenPaths_cons_obj] at hp
      rcases List.mem_append.mp hp with hp1 | hp2
      · obtain ⟨q, _, rfl⟩ := List.mem_map.mp hp1
        simp
      · exact ih p hp2
    | false =>
      rw [flattenPaths_cons_scalar k v rest hov] at hp
      rcases List.mem_append.mp hp with hp1 | hp2
      · simp at hp1
        simp [hp1]
      · exact ih p hp2

/-- The head of a leaf path is a top-level key. -/
theorem flattenPaths_head (o : Obj) :
    ∀ p ∈ flattenPaths o, ∃ hd tl, p = hd :: tl ∧ hd ∈ o.map Prod.fst := by
  induction o with
  | nil =>
    rw [flattenPaths_nil]
    intro p hp
    simp at hp
  | cons kv rest ih =>
    obtain ⟨k, v⟩ := kv
    intro p hp
    cases hov : isObjV v with
    | true =>
      obtain ⟨sub, rfl⟩ : ∃ sub, v = .vobj sub := by
        rcases v with _ | b | nn | s | xs | ob <;> simp [isObjV] at hov
        exact ⟨ob, rfl⟩
      rw [flattenPaths_cons_obj] at hp
      rcases List.mem_append.mp hp with hp1 | hp2
      · obtain ⟨q, _, rfl⟩ := List.mem_map.mp hp1
        exact ⟨k, q, rfl, by simp⟩
      · obtain ⟨hd, tl, rfl, hmem⟩ := ih p hp2
        exact ⟨hd, tl, rfl, by simp [hmem]⟩
    | false =>
      rw [flattenPaths_cons_scalar k v rest hov] at hp
      rcases List.mem_append.mp hp with hp1 | hp2
      · simp at hp1
        exact ⟨k, [], by simp [hp1], by simp⟩
      · obtain ⟨hd, tl, rfl, hmem⟩ := ih p hp2
        exact ⟨hd, tl, rfl, by simp [hmem]⟩

theorem flattenPaths_good_aux :
    ∀ (n : Nat) (o : Obj), sizeOf o ≤ n → goodKeysB o = true →
      ∀ p ∈ flattenPaths o, ∀ s ∈ p, goodStrB s = true := by
  intro n
  induction n with
  | zero =>
    intro o hsz
    have : 0 < sizeOf o := by cases o <;> simp
    omega
  | succ n ih =>
    intro o hsz hgood p hp s hs
    cases o with
    | nil =>
      rw [flattenPaths_nil] at hp
      simp at hp
    | cons kv rest =>
      obtain ⟨k, v⟩ := kv
      obtain ⟨hgk, hgv, hgr⟩ := goodKeysB_cons k v rest hgood
      have hlt2 : sizeOf rest < sizeOf ((k, v) :: rest) := by
        simp <;> omega
      cases hov : isObjV v with
      | true =>
        obtain ⟨sub, rfl⟩ : ∃ sub, v = .vobj sub := by
          rcases v with _ | b | nn | str | xs | ob <;> simp [isObjV] at hov
          exact ⟨ob, rfl⟩
        have hlt1 : sizeOf sub < sizeOf ((k, Value.vobj sub) :: rest) := by
          simp <;> omega
        rw [flattenPaths_cons_obj] at hp
        rcases List.mem_append.mp hp with hp1 | hp2
        · obtain ⟨q, hq, rfl⟩ := List.mem_map.mp hp1
          rcases List.mem_cons.mp hs with rfl | hs'
          · exact hgk
          · exact ih sub (by omega) (by simpa [valueGoodKeysB] using hgv) q hq s hs'
        · exact ih rest (by omega) hgr p hp2 s hs
      | false =>
        rw [flattenPaths_cons_scalar k v rest hov] at hp
        rcases List.mem_append.mp hp with hp1 | hp2
        · simp at hp1
          subst hp1
          rcases List.mem_cons.mp hs with rfl | hs'
          · exact hgk
          · simp at hs'
        · exact ih rest (by omega) hgr p hp2 s hs

theorem flattenPaths_good (o : Obj) (hgood : goodKeysB o = true) :
    ∀ p ∈ flattenPaths o, ∀ s ∈ p, goodStrB s = true :=
  flattenPaths_good_aux (sizeOf o) o (Nat.le_refl _) hgood

theorem flattenPaths_nodup_aux :
    ∀ (n : Nat) (o : Obj), sizeOf o ≤ n → nodupKeysB o = true →
      (flattenPaths o).Nodup := by
  intro n
  induction n with
  | zero =>
    intro o hsz
    have : 0 < sizeOf o := by cases o <;> simp
    omega
  | succ n ih =>
    intro o hsz hnd
    cases o with
    | nil =>
      rw [flattenPaths_nil]
      exact List.nodup_nil
    | cons kv rest =>
      obtain ⟨k, v⟩ := kv
      obtain ⟨hne, hv, hr⟩ := nodupKeysB_cons k v rest hnd
      have hlt2 : sizeOf rest < sizeOf ((k, v) :: rest) := by
        simp <;> omega
      have hdisj : ∀ q ∈ flattenPaths rest, ∀ tl, q ≠ k :: tl := by
        intro q hq tl hqe
        obtain ⟨hd, tl2, rfl, hmem⟩ := flattenPaths_head rest q hq
        obtain ⟨rfl, _⟩ : hd = k ∧ tl2 = tl := by simpa using hqe
        obtain ⟨kv2, hkv2, hfst⟩ := List.mem_map.mp hmem
        exact absurd hfst (hne kv2 hkv2)
      cases hov : isObjV v with
      | true =>
        obtain ⟨sub, rfl⟩ : ∃ sub, v = .vobj sub := by
          rcases v with _ | b | nn | str | xs | ob <;> simp [isObjV] at hov
          exact ⟨ob, rfl⟩
        have hlt1 : sizeOf sub < sizeOf ((k, Value.vobj sub) :: rest) := by
          simp <;> omega
        rw [flattenPaths_cons_obj]
        refine List.Nodup.append ?_ (ih rest (by omega) hr) ?_
        · refine List.Nodup.map ?_ (ih sub (by omega) (by simpa [valueNodupB] using hv))
          intro a b hab
          simpa using hab
        · intro x hx1 hx2
          obtain ⟨q, _, rfl⟩ := List.mem_map.mp hx1
          exact hdisj _ hx2 q rfl
      | false =>
        rw [flattenPaths_cons_scalar k v rest hov]
        have : ([[k]] ++ flattenPaths rest) = [k] :: flattenPaths rest := by simp
        rw [this]
        refine List.nodup_cons.mpr ⟨?_, ih rest (by omega) hr⟩
        intro hmem
        exact hdisj _ hmem [] rfl

theorem flattenPaths_nodup (o : Obj) (hnd : nodupKeysB o = true) :
    (flattenPaths o).Nodup :=
  flattenPaths_nodup_aux (sizeOf o) o (Nat.le_refl _) hnd

/-! ## C2 groundwork: path lookups -/

theorem deepGetO_nil (o : Obj) : deepGetO o [] = some (.vobj o) := by
  rw [deepGetO, deepGetV]

theorem deepGetO_cons (o : Obj) (k : String) (p : List String) :
    deepGetO o (k :: p) =
      match mapGet o k with
      | some v => deepGetV v p
      | none => none := by
  rw [deepGetO, deepGetV]

theorem deepGetV_nil (v : Value) : deepGetV v [] = some v := by
  rcases v with _ | b | n | s | xs | o <;> rw [deepGetV]

theorem deepGetO_single (o : Obj) (k : String) : deepGetO o [k] = mapGet o k := by
  rw [deepGetO_cons]
  cases mapGet o k with
  | none => rfl
  | some v => exact deepGetV_nil v

theorem deepGetV_null_cons (k : String) (p : List String) :
    deepGetV .vnull (k :: p) = none := by
  rw [deepGetV] <;> simp

theorem deepGetV_bool_cons (b : Bool) (k : String) (p : List String) :
    deepGetV (.vbool b) (k :: p) = none := by
  rw [deepGetV] <;> simp

theorem deepGetV_num_cons (n : Int) (k : String) (p : List String) :
    deepGetV (.vnum n) (k :: p) = none := by
  rw [deepGetV] <;> simp

theorem deepGetV_str_cons (s : String) (k : String) (p : List String) :
    deepGetV (.vstr s) (k :: p) = none := by
  rw [deepGetV] <;> simp

theorem deepGetV_obj (o : Obj) (p : List String) :
    deepGetV (.vobj o) p = deepGetO o p := rfl

theorem deepGetV_arr_cons (xs : List Value) (k : String) (p : List String) :
    deepGetV (.varr xs) (k :: p) =
      match jsIndex xs k with
      | some v => deepGetV v p
      | none => none := by
  rw [deepGetV]

/-- Every intermediate value on a successful path walk is a plain object
or an array (never a scalar). -/
theorem deepGetV_prefix (p : List String) :
    ∀ (val w : Value), deepGetV val p = some w →
      ∀ r, r <+: p → r ≠ p → ∃ u, deepGetV val r = some u ∧ atomicB u = false := by
  induction p with
  | nil =>
    intro val w _ r hr hne
    exact absurd (List.prefix_nil.mp hr) hne
  | cons k p' ih =>
    intro val w hw r hr hne
    rcases val with _ | b | n | s | xs | o
    · rw [deepGetV_null_cons] at hw
      exact Option.noConfusion hw
    · rw [deepGetV_bool_cons] at hw
      exact Option.noConfusion hw
    · rw [deepGetV_num_cons] at hw
      exact Option.noConfusion hw
    · rw [deepGetV_str_cons] at hw
      exact Option.noConfusion hw
    · rw [deepGetV_arr_cons] at hw
      cases hj : jsIndex xs k with
      | none =>
        rw [hj] at hw
        exact Option.noConfusion hw
      | some v =>
        rw [hj] at hw
        rcases r with _ | ⟨k2, r'⟩
        · exact ⟨.varr xs, by rw [deepGetV], by rw [atomicB]⟩
        · obtain ⟨rfl, hr'⟩ : k2 = k ∧ r' <+: p' := by
            obtain ⟨t2, ht2⟩ := hr
            simp at ht2
            exact ⟨ht2.1, ⟨t2, ht2.2⟩⟩
          obtain ⟨u, hu, hat⟩ := ih v w hw r' hr' (fun hh => hne (by rw [hh]))
          refine ⟨u, ?_, hat⟩
          rw [deepGetV_arr_cons, hj]
          exact hu
    · rw [deepGetV_obj, deepGetO_cons] at hw
      cases hg : mapGet o k with
      | none =>
        rw [hg] at hw
        exact Option.noConfusion hw
      | some v =>
        rw [hg] at hw
        rcases r with _ | ⟨k2, r'⟩
        · exact ⟨.vobj o, by rw [deepGetV], by rw [atomicB]⟩
        · obtain ⟨rfl, hr'⟩ : k2 = k ∧ r' <+: p' := by
            obtain ⟨t2, ht2⟩ := hr
            simp at ht2
            exact ⟨ht2.1, ⟨t2, ht2.2⟩⟩
          obtain ⟨u, hu, hat⟩ := ih v w hw r' hr' (fun hh => hne (by rw [hh]))
          refine ⟨u, ?_, hat⟩
          rw [deepGetV_obj, deepGetO_cons, hg]
          exact hu

/-- Path-level structural compatibility: two trees that are `shapeCB`
compatible carry, at every common path, either two compatible plain
objects or two scalars. -/
theorem shapeCB_deepGetO (p : List String) :
    ∀ (t s : Obj) (tv sv : Value), p ≠ [] → shapeCB t s = true →
      deepGetO t p = some tv → deepGetO s p = some sv →
      (∃ a b, tv = .vobj a ∧ sv = .vobj b ∧ shapeCB a b = true) ∨
        (atomicB tv = true ∧ atomicB sv = true) := by
  induction p with
  | nil =>
    intro t s tv sv hne
    exact absurd rfl hne
  | cons k p' ih =>
    intro t s tv sv _ hsh hgt hgs
    rcases p' with _ | ⟨seg, p''⟩
    · rw [deepGetO_single] at hgt hgs
      exact shapeCB_spec t s k tv sv hsh hgt hgs
    · rw [deepGetO_cons] at hgt hgs
      cases hmt : mapGet t k with
      | none =>
        rw [hmt] at hgt
        exact Option.noConfusion hgt
      | some tv1 =>
        cases hms : mapGet s k with
        | none =>
          rw [hms] at hgs
          exact Option.noConfusion hgs
        | some sv1 =>
          simp only [hmt] at hgt
          simp only [hms] at hgs
          rcases shapeCB_spec t s k tv1 sv1 hsh hmt hms with
            ⟨a, b, ha, hb, hab⟩ | ⟨h1, h2⟩
          · subst ha
            subst hb
            exact ih a b tv sv (by simp) hab hgt hgs
          · rcases tv1 with _ | b1 | n1 | s1 | xs1 | o1
            · rw [deepGetV_null_cons] at hgt
              exact Option.noConfusion hgt
            · rw [deepGetV_bool_cons] at hgt
              exact Option.noConfusion hgt
            · rw [deepGetV_num_cons] at hgt
              exact Option.noConfusion hgt
            · rw [deepGetV_str_cons] at hgt
              exact Option.noConfusion hgt
            · rw [atomicB] at h1
              exact Bool.noConfusion h1
            · rw [atomicB] at h1
              exact Bool.noConfusion h1

/-! ## C2 groundwork: leaf paths vs path lookups -/

theorem deepGetO_cons_self (k : String) (v : Value) (rest : Obj) (p : List String) :
    deepGetO ((k, v) :: rest) (k :: p) = deepGetV v p := by
  rw [deepGetO_cons]
  simp [mapGet]

theorem deepGetO_cons_ne (k1 : String) (v : Value) (rest : Obj) (hd : String)
    (tl : List String) (hkne : k1 ≠ hd) :
    deepGetO ((k1, v) :: rest) (hd :: tl) = deepGetO rest (hd :: tl) := by
  rw [deepGetO_cons, deepGetO_cons]
  simp [mapGet, hkne]

theorem flattenPaths_mem_single (o : Obj) (k : String) (w : Value)
    (hget : mapGet o k = some w) (hw : isObjV w = false) :
    [k] ∈ flattenPaths o := by
  induction o with
  | nil => simp [mapGet] at hget
  | cons kv rest ih =>
    obtain ⟨k1, v1⟩ := kv
    by_cases he : k1 = k
    · subst he
      obtain rfl : v1 = w := by simpa [mapGet] using hget
      rw [flattenPaths_cons_scalar _ _ _ hw]
      simp
    · have hget2 : mapGet rest k = some w := by simpa [mapGet, he] using hget
      cases hov : isObjV v1 with
      | true =>
        obtain ⟨sub, rfl⟩ : ∃ sub, v1 = .vobj sub := by
          rcases v1 with _ | b | nn | str | xs | ob <;> simp [isObjV] at hov
          exact ⟨ob, rfl⟩
        rw [flattenPaths_cons_obj]
        exact List.mem_append_right _ (ih hget2)
      | false =>
        rw [flattenPaths_cons_scalar _ _ _ hov]
        exact List.mem_append_right _ (ih hget2)

theorem flattenPaths_mem_obj (o : Obj) (k : String) (sub : Obj) (p2 : List String)
    (hget : mapGet o k = some (.vobj sub)) (hp2 : p2 ∈ flattenPaths sub) :
    (k :: p2) ∈ flattenPaths o := by
  induction o with
  | nil => simp [mapGet] at hget
  | cons kv rest ih =>
    obtain ⟨k1, v1⟩ := kv
    by_cases he : k1 = k
    · subst he
      obtain rfl : v1 = .vobj sub := by simpa [mapGet] using hget
      rw [flattenPaths_cons_obj]
      exact List.mem_append_left _ (List.mem_map.mpr ⟨p2, hp2, rfl⟩)
    · have hget2 : mapGet rest k = some (.vobj sub) := by
        simpa [mapGet, he] using hget
      cases hov : isObjV v1 with
      | true =>
        obtain ⟨sub1, rfl⟩ : ∃ sub1, v1 = .vobj sub1 := by
          rcases v1 with _ | b | nn | str | xs | ob <;> simp [isObjV] at hov
          exact ⟨ob, rfl⟩
        rw [flattenPaths_cons_obj]
        exact List.mem_append_right _ (ih hget2)
      | false =>
        rw [flattenPaths_cons_scalar _ _ _ hov]
        exact List.mem_append_right _ (ih hget2)

/-- A path whose lookup is a present non-object value and whose strict
prefixes all look up to plain objects is a leaf path. -/
theorem flattenPaths_intro :
    ∀ (p : List String) (o : Obj) (w : Value), deepGetO o p = some w →
      isObjV w = false →
      (∀ r, r <+: p → r ≠ p → ∃ ob, deepGetO o r = some (.vobj ob)) →
      p ∈ flattenPaths o := by
  intro p
  induction p with
  | nil =>
    intro o w hw hwo _
    rw [deepGetO_nil] at hw
    obtain rfl : Value.vobj o = w := Option.some.inj hw
    simp [isObjV] at hwo
  | cons k p' ih =>
    intro o w hw hwo hpref
    cases p' with
    | nil =>
      rw [deepGetO_single] at hw
      exact flattenPaths_mem_single o k w hw hwo
    | cons seg p2 =>
      obtain ⟨ob, hob⟩ := hpref [k] ⟨seg :: p2, rfl⟩ (by simp)
      rw [deepGetO_single] at hob
      have hwalk : deepGetO o (k :: seg :: p2) = deepGetO ob (seg :: p2) := by
        rw [deepGetO_cons, hob]
        rfl
      rw [hwalk] at hw
      refine flattenPaths_mem_obj o k ob (seg :: p2) hob (ih ob w hw hwo ?_)
      intro r hr hrne
      have hkr : (k :: r) <+: (k :: seg :: p2) := by
        obtain ⟨t2, ht2⟩ := hr
        exact ⟨t2, by simp [ht2]⟩
      obtain ⟨ob2, hob2⟩ := hpref (k :: r) hkr (by simpa using hrne)
      refine ⟨ob2, ?_⟩
      have hwalk2 : deepGetO o (k :: r) = deepGetO ob r := by
        rw [deepGetO_cons, hob]
        rfl
      rw [hwalk2] at hob2
      exact hob2

/-- Conversely (for trees with unique keys), every leaf path looks up to
a present non-object value, through plain objects at every strict
prefix. -/
theorem flattenPaths_lookup_aux :
    ∀ (n : Nat) (o : Obj), sizeOf o ≤ n → nodupKeysB o = true →
      ∀ p ∈ flattenPaths o,
        (∃ w, deepGetO o p = some w ∧ isObjV w = false) ∧
        (∀ r, r <+: p → r ≠ p → ∃ ob, deepGetO o r = some (.vobj ob)) := by
  intro n
  induction n with
  | zero =>
    intro o hsz
    have : 0 < sizeOf o := by cases o <;> simp
    omega
  | succ n ih =>
    intro o hsz hnd p hp
    cases o with
    | nil =>
      rw [flattenPaths_nil] at hp
      simp at hp
    | cons kv rest =>
      obtain ⟨k, v⟩ := kv
      obtain ⟨hne, hv, hr⟩ := nodupKeysB_cons k v rest hnd
      have hlt2 : sizeOf rest < sizeOf ((k, v) :: rest) := by
        simp <;> omega
      have hrestcase : ∀ hp2 : p ∈ flattenPaths rest,
          (∃ w, deepGetO ((k, v) :: rest) p = some w ∧ isObjV w = false) ∧
          (∀ r, r <+: p → r ≠ p →
            ∃ ob, deepGetO ((k, v) :: rest) r = some (.vobj ob)) := by
        intro hp2
        obtain ⟨hd, tl, rfl, hmem⟩ := flattenPaths_head rest _ hp2
        have hdk : k ≠ hd := by
          obtain ⟨kv2, hkv2, hfst⟩ := List.mem_map.mp hmem
          intro hh
          exact hne kv2 hkv2 (by rw [hfst, hh])
        have hrest := ih rest (by omega) hr _ hp2
        constructor
        · obtain ⟨w, hw, hwo⟩ := hrest.1
          exact ⟨w, by rw [deepGetO_cons_ne _ _ _ _ _ hdk]; exact hw, hwo⟩
        · intro r hr1 hr2
          cases r with
          | nil => exact ⟨(k, v) :: rest, deepGetO_nil _⟩
          | cons k2 r' =>
            obtain ⟨hk2, hr'⟩ : k2 = hd ∧ r' <+: tl := by
              obtain ⟨t2, ht2⟩ := hr1
              simp at ht2
              exact ⟨ht2.1, ⟨t2, ht2.2⟩⟩
            subst hk2
            obtain ⟨ob, hob⟩ := hrest.2 (k2 :: r') (by
              obtain ⟨t3, ht3⟩ := hr'
              exact ⟨t3, by simp [ht3]⟩) hr2
            exact ⟨ob, by rw [deepGetO_cons_ne _ _ _ _ _ hdk]; exact hob⟩
      cases hov : isObjV v with
      | true =>
        obtain ⟨sub, rfl⟩ : ∃ sub, v = .vobj sub := by
          rcases v with _ | b | nn | str | xs | ob <;> simp [isObjV] at hov
          exact ⟨ob, rfl⟩
        have hlt1 : sizeOf sub < sizeOf ((k, Value.vobj sub) :: rest) := by
          simp <;> omega
        rw [flattenPaths_cons_obj] at hp
        rcases List.mem_append.mp hp with hp1 | hp2
        · obtain ⟨q, hq, rfl⟩ := List.mem_map.mp hp1
          have hsub := ih sub (by omega) (by simpa [valueNodupB] using hv) q hq
          constructor
          · obtain ⟨w, hw, hwo⟩ := hsub.1
            exact ⟨w, by rw [deepGetO_cons_self, deepGetV_obj]; exact hw, hwo⟩
          · intro r hr1 hr2
            cases r with
            | nil => exact ⟨(k, Value.vobj sub) :: rest, deepGetO_nil _⟩
            | cons k2 r' =>
              obtain ⟨rfl, hr'⟩ : k2 = k ∧ r' <+: q := by
                obtain ⟨t2, ht2⟩ := hr1
                simp at ht2
                exact ⟨ht2.1, ⟨t2, ht2.2⟩⟩
              obtain ⟨ob, hob⟩ := hsub.2 r' hr' (by
                intro hh
                exact hr2 (by rw [hh]))
              exact ⟨ob, by rw [deepGetO_cons_self, deepGetV_obj]; exact hob⟩
        · exact hrestcase hp2
      | false =>
        rw [flattenPaths_cons_scalar k v rest hov] at hp
        rcases List.mem_append.mp hp with hp1 | hp2
        · simp at hp1
          subst hp1
          constructor
          · exact ⟨v, by rw [deepGetO_single]; simp [mapGet], hov⟩
          · intro r hr1 hr2
            cases r with
            | nil => exact ⟨(k, v) :: rest, deepGetO_nil _⟩
            | cons k2 r' =>
              obtain ⟨rfl, hr'⟩ : k2 = k ∧ r' <+: [] := by
                obtain ⟨t2, ht2⟩ := hr1
                simp at ht2
                exact ⟨ht2.1, by simp [ht2.2]⟩
              rw [List.prefix_nil] at hr'
              subst hr'
              exact absurd rfl hr2
        · exact hrestcase hp2

theorem flattenPaths_lookup (o : Obj) (hnd : nodupKeysB o = true) :
    ∀ p ∈ flattenPaths o,
      (∃ w, deepGetO o p = some w ∧ isObjV w = false) ∧
      (∀ r, r <+: p → r ≠ p → ∃ ob, deepGetO o r = some (.vobj ob)) :=
  flattenPaths_lookup_aux (sizeOf o) o (Nat.le_refl _) hnd

/-- Two leaf paths of the same tree are never strict prefixes of one
another. -/
theorem flattenPaths_prefix_free (o : Obj) (hnd : nodupKeysB o = true)
    (p q : List String) (hp : p ∈ flattenPaths o) (hq : q ∈ flattenPaths o)
    (hpq : p <+: q) : p = q := by
  by_contra hne
  obtain ⟨w, hw, hwo⟩ := (flattenPaths_lookup o hnd p hp).1
  obtain ⟨ob, hob⟩ := (flattenPaths_lookup o hnd q hq).2 p hpq hne
  rw [hw] at hob
  obtain rfl : w = Value.vobj ob := Option.some.inj hob
  simp [isObjV] at hwo

/-! ## C2 groundwork: the merge or-law for path lookups -/

theorem deepGetV_atomic_cons (v : Value) (hat : atomicB v = true) (k : String)
    (p : List String) : deepGetV v (k :: p) = none := by
  rcases v with _ | b | nn | str | xs | ob
  · exact deepGetV_null_cons k p
  · exact deepGetV_bool_cons b k p
  · exact deepGetV_num_cons nn k p
  · exact deepGetV_str_cons str k p
  · rw [atomicB] at hat
    exact Bool.noConfusion hat
  · rw [atomicB] at hat
    exact Bool.noConfusion hat

/-- Looking up any non-empty path in `deepMerge t s` yields either the
source-then-target first-present choice, or — exactly when both sides
hold plain objects at that path — the merge of the two subtrees. -/
theorem deepGetO_deepMerge_or :
    ∀ (p : List String), p ≠ [] → ∀ (t s : Obj), nodupKeysB s = true →
      noNullB s = true → shapeCB t s = true →
      deepGetO (deepMerge t s) p = (deepGetO s p).or (deepGetO t p) ∨
      ∃ a b, deepGetO t p = some (.vobj a) ∧ deepGetO s p = some (.vobj b) ∧
        deepGetO (deepMerge t s) p = some (.vobj (deepMerge a b)) := by
  intro p
  induction p with
  | nil => intro h; exact absurd rfl h
  | cons k p' ih =>
    intro _ t s hnds hnns hsh
    have hndtop : nodupTopB s = true := nodupTopB_of_nodupKeysB s hnds
    cases p' with
    | nil =>
      rw [deepGetO_single, deepGetO_single, deepGetO_single]
      cases hms : mapGet s k with
      | none =>
        left
        rw [mapGet_deepMerge_not_mem_src t s k hms]
        simp
      | some sv =>
        rcases sv with _ | b | nn | str | xs | sf
        · have := valueNoNullB_of_mapGet s k _ hnns hms
          rw [valueNoNullB] at this
          exact Bool.noConfusion this
        · left
          rw [mapGet_deepMerge_scalar t s k _ hndtop hms rfl rfl]
          simp [Option.or]
        · left
          rw [mapGet_deepMerge_scalar t s k _ hndtop hms rfl rfl]
          simp [Option.or]
        · left
          rw [mapGet_deepMerge_scalar t s k _ hndtop hms rfl rfl]
          simp [Option.or]
        · left
          rw [mapGet_deepMerge_scalar t s k _ hndtop hms rfl rfl]
          simp [Option.or]
        · cases hmt : mapGet t k with
          | none =>
            left
            rw [mapGet_deepMerge_obj_not t s k sf hndtop hms
              (fun tf hh => by rw [hmt] at hh; exact Option.noConfusion hh)]
            simp [Option.or]
          | some tv =>
            rcases tv with _ | b2 | n2 | s2 | xs2 | tf
            · rcases shapeCB_spec t s k _ _ hsh hmt hms with
                ⟨a, b, ha, _, _⟩ | ⟨_, h2⟩
              · exact Value.noConfusion ha
              · rw [atomicB] at h2
                exact Bool.noConfusion h2
            · rcases shapeCB_spec t s k _ _ hsh hmt hms with
                ⟨a, b, ha, _, _⟩ | ⟨_, h2⟩
              · exact Value.noConfusion ha
              · rw [atomicB] at h2
                exact Bool.noConfusion h2
            · rcases shapeCB_spec t s k _ _ hsh hmt hms with
                ⟨a, b, ha, _, _⟩ | ⟨_, h2⟩
              · exact Value.noConfusion ha
              · rw [atomicB] at h2
                exact Bool.noConfusion h2
            · rcases shapeCB_spec t s k _ _ hsh hmt hms with
                ⟨a, b, ha, _, _⟩ | ⟨_, h2⟩
              · exact Value.noConfusion ha
              · rw [atomicB] at h2
                exact Bool.noConfusion h2
            · rcases shapeCB_spec t s k _ _ hsh hmt hms with
                ⟨a, b, ha, _, _⟩ | ⟨_, h2⟩
              · exact Value.noConfusion ha
              · rw [atomicB] at h2
                exact Bool.noConfusion h2
            · right
              exact ⟨tf, sf, rfl, rfl,
                mapGet_deepMerge_obj_obj t s k tf sf hndtop hms hmt⟩
    | cons seg p2 =>
      have hwalkM : ∀ (o : Obj) (u : Value), mapGet o k = some u →
          deepGetO o (k :: seg :: p2) = deepGetV u (seg :: p2) := by
        intro o u hu
        rw [deepGetO_cons, hu]
      have hwalkN : ∀ (o : Obj), mapGet o k = none →
          deepGetO o (k :: seg :: p2) = none := by
        intro o hu
        rw [deepGetO_cons, hu]
      cases hms : mapGet s k with
      | none =>
        left
        have hm : mapGet (deepMerge t s) k = mapGet t k :=
          mapGet_deepMerge_not_mem_src t s k hms
        rw [hwalkN s hms, Option.none_or]
        cases hmt : mapGet t k with
        | none =>
          rw [hwalkN _ (by rw [hm, hmt]), hwalkN t hmt]
        | some tv =>
          rw [hwalkM _ tv (by rw [hm, hmt]), hwalkM t tv hmt]
      | some sv =>
        rcases sv with _ | b | nn | str | xs | sf
        · have := valueNoNullB_of_mapGet s k _ hnns hms
          rw [valueNoNullB] at this
          exact Bool.noConfusion this
        · left
          have hmm := mapGet_deepMerge_scalar t s k _ hndtop hms rfl rfl
          rw [hwalkM _ _ hmm, hwalkM s _ hms, deepGetV_bool_cons, Option.none_or]
          cases hmt : mapGet t k with
          | none => rw [hwalkN t hmt]
          | some tv =>
            rcases shapeCB_spec t s k _ _ hsh hmt hms with
              ⟨a, b, _, hb, _⟩ | ⟨h1, _⟩
            · exact Value.noConfusion hb
            · rw [hwalkM t tv hmt, deepGetV_atomic_cons tv h1]
        · left
          have hmm := mapGet_deepMerge_scalar t s k _ hndtop hms rfl rfl
          rw [hwalkM _ _ hmm, hwalkM s _ hms, deepGetV_num_cons, Option.none_or]
          cases hmt : mapGet t k with
          | none => rw [hwalkN t hmt]
          | some tv =>
            rcases shapeCB_spec t s k _ _ hsh hmt hms with
              ⟨a, b, _, hb, _⟩ | ⟨h1, _⟩
            · exact Value.noConfusion hb
            · rw [hwalkM t tv hmt, deepGetV_atomic_cons tv h1]
        · left
          have hmm := mapGet_deepMerge_scalar t s k _ hndtop hms rfl rfl
          rw [hwalkM _ _ hmm, hwalkM s _ hms, deepGetV_str_cons, Option.none_or]
          cases hmt : mapGet t k with
          | none => rw [hwalkN t hmt]
          | some tv =>
            rcases shapeCB_spec t s k _ _ hsh hmt hms with
              ⟨a, b, _, hb, _⟩ | ⟨h1, _⟩
            · exact Value.noConfusion hb
            · rw [hwalkM t tv hmt, deepGetV_atomic_cons tv h1]
        · left
          have hmm := mapGet_deepMerge_scalar t s k _ hndtop hms rfl rfl
          rw [hwalkM _ _ hmm, hwalkM s _ hms]
          have htnone : deepGetO t (k :: seg :: p2) = none := by
            cases hmt : mapGet t k with
            | none => exact hwalkN t hmt
            | some tv =>
              rcases shapeCB_spec t s k _ _ hsh hmt hms with
                ⟨a, b, _, hb, _⟩ | ⟨_, h2⟩
              · exact Value.noConfusion hb
              · rw [atomicB] at h2
                exact Bool.noConfusion h2
          rw [htnone]
          cases deepGetV (Value.varr xs) (seg :: p2) <;> simp
        · cases hmt : mapGet t k with
          | none =>
            left
            have hmm := mapGet_deepMerge_obj_not t s k sf hndtop hms
              (fun tf hh => by rw [hmt] at hh; exact Option.noConfusion hh)
            rw [hwalkM _ _ hmm, hwalkM s _ hms, hwalkN t hmt]
            cases deepGetV (Value.vobj sf) (seg :: p2) <;> simp
          | some tv =>
            rcases tv with _ | b2 | n2 | s2 | xs2 | tf
            · rcases shapeCB_spec t s k _ _ hsh hmt hms with
                ⟨a, b, ha, _, _⟩ | ⟨_, h2⟩
              · exact Value.noConfusion ha
              · rw [atomicB] at h2
                exact Bool.noConfusion h2
            · rcases shapeCB_spec t s k _ _ hsh hmt hms with
                ⟨a, b, ha, _, _⟩ | ⟨_, h2⟩
              · exact Value.noConfusion ha
              · rw [atomicB] at h2
                exact Bool.noConfusion h2
            · rcases shapeCB_spec t s k _ _ hsh hmt hms with
                ⟨a, b, ha, _, _⟩ | ⟨_, h2⟩
              · exact Value.noConfusion ha
              · rw [atomicB] at h2
                exact Bool.noConfusion h2
            · rcases shapeCB_spec t s k _ _ hsh hmt hms with
                ⟨a, b, ha, _, _⟩ | ⟨_, h2⟩
              · exact Value.noConfusion ha
              · rw [atomicB] at h2
                exact Bool.noConfusion h2
            · rcases shapeCB_spec t s k _ _ hsh hmt hms with
                ⟨a, b, ha, _, _⟩ | ⟨_, h2⟩
              · exact Value.noConfusion ha
              · rw [atomicB] at h2
                exact Bool.noConfusion h2
            · have hshsub : shapeCB tf sf = true := by
                rcases shapeCB_spec t s k _ _ hsh hmt hms with
                  ⟨a, b, ha, hb, hab⟩ | ⟨h1, _⟩
                · obtain rfl : tf = a := Value.vobj.inj ha
                  obtain rfl : sf = b := Value.vobj.inj hb
                  exact hab
                · rw [atomicB] at h1
                  exact Bool.noConfusion h1
              have hndsf : nodupKeysB sf = true := by
                simpa [valueNodupB] using
                  valueNodupB_of_mapGet s k (.vobj sf) hnds hms
              have hnnsf : noNullB sf = true := by
                simpa [valueNoNullB] using
                  valueNoNullB_of_mapGet s k (.vobj sf) hnns hms
              have hmm := mapGet_deepMerge_obj_obj t s k tf sf hndtop hms hmt
              rw [hwalkM _ _ hmm, hwalkM s _ hms, hwalkM t _ hmt,
                deepGetV_obj, deepGetV_obj, deepGetV_obj]
              exact ih (by simp) tf sf hndsf hnnsf hshsub

theorem atomicB_false_cases (u : Value) (h : atomicB u = false) :
    (∃ o, u = .vobj o) ∨ (∃ xs, u = .varr xs) := by
  rcases u with _ | b | nn | str | xs | ob
  · simp [atomicB] at h
  · simp [atomicB] at h
  · simp [atomicB] at h
  · simp [atomicB] at h
  · exact Or.inr ⟨xs, rfl⟩
  · exact Or.inl ⟨ob, rfl⟩

/-- Every leaf path of a merge of compatible trees is a leaf path of one
of the two sides. -/
theorem flattenPaths_deepMerge_subset (t s : Obj) (hndt : nodupKeysB t = true)
    (hnds : nodupKeysB s = true) (hnns : noNullB s = true)
    (hsh : shapeCB t s = true) :
    ∀ p ∈ flattenPaths (deepMerge t s), p ∈ flattenPaths t ∨ p ∈ flattenPaths s := by
  intro p hp
  have hndm : nodupKeysB (deepMerge t s) = true := nodupKeysB_deepMerge t s hndt hnds
  obtain ⟨⟨w, hw, hwo⟩, hpref⟩ := flattenPaths_lookup _ hndm p hp
  have hpne : p ≠ [] := flattenPaths_ne_nil _ p hp
  have hprefobj : ∀ r, r <+: p → r ≠ p → r ≠ [] →
      ∀ u, deepGetO t r = some u ∨ deepGetO s r = some u → atomicB u = false →
        ∃ ou, u = .vobj ou := by
    intro r hr hrne hrnil u hu hat
    rcases atomicB_false_cases u hat with hobj | ⟨xs, rfl⟩
    · exact hobj
    · obtain ⟨ob, hob⟩ := hpref r hr hrne
      exfalso
      rcases deepGetO_deepMerge_or r hrnil t s hnds hnns hsh with hor | ⟨a2, b2, ht2, hs2, _⟩
      · rw [hob] at hor
        rcases hu with hu | hu
        · cases hs3 : deepGetO s r with
          | none =>
            rw [hs3, Option.none_or, hu] at hor
            exact Value.noConfusion (Option.some.inj hor)
          | some z =>
            rcases shapeCB_deepGetO r t s _ z hrnil hsh hu hs3 with
              ⟨a3, b3, ha3, _, _⟩ | ⟨h1, _⟩
            · exact Value.noConfusion ha3
            · rw [atomicB] at h1
              exact Bool.noConfusion h1
        · rw [hu] at hor
          simp [Option.or] at hor
      · rcases hu with hu | hu
        · rw [ht2] at hu
          exact Value.noConfusion (Option.some.inj hu)
        · rw [hs2] at hu
          exact Value.noConfusion (Option.some.inj hu)
  rcases deepGetO_deepMerge_or p hpne t s hnds hnns hsh with hor | ⟨a, b, _, _, hm⟩
  · rw [hw] at hor
    cases hs : deepGetO s p with
    | some sv =>
      rw [hs] at hor
      simp [Option.or] at hor
      subst hor
      right
      refine flattenPaths_intro p s w hs hwo ?_
      intro r hr hrne
      cases r with
      | nil => exact ⟨s, deepGetO_nil s⟩
      | cons rk rtl =>
        obtain ⟨u, hu, hat⟩ := deepGetV_prefix p (.vobj s) w hs (rk :: rtl) hr hrne
        obtain ⟨ou, rfl⟩ := hprefobj (rk :: rtl) hr hrne (by simp) u
          (Or.inr hu) hat
        exact ⟨ou, hu⟩
    | none =>
      rw [hs, Option.none_or] at hor
      left
      refine flattenPaths_intro p t w hor.symm hwo ?_
      intro r hr hrne
      cases r with
      | nil => exact ⟨t, deepGetO_nil t⟩
      | cons rk rtl =>
        obtain ⟨u, hu, hat⟩ := deepGetV_prefix p (.vobj t) w hor.symm (rk :: rtl) hr hrne
        obtain ⟨ou, rfl⟩ := hprefobj (rk :: rtl) hr hrne (by simp) u
          (Or.inl hu) hat
        exact ⟨ou, hu⟩
  · rw [hw] at hm
    obtain rfl : w = Value.vobj (deepMerge a b) := Option.some.inj hm
    simp [isObjV] at hwo

/-! ## C2 groundwork: the env-overlay write -/

theorem deepGetO_walk (o : Obj) (k : String) (p : List String) (u : Value)
    (hu : mapGet o k = some u) : deepGetO o (k :: p) = deepGetV u p := by
  rw [deepGetO_cons, hu]

theorem deepGetO_walk_none (o : Obj) (k : String) (p : List String)
    (hu : mapGet o k = none) : deepGetO o (k :: p) = none := by
  rw [deepGetO_cons, hu]

theorem deepSetObj_nil (o : Obj) (v : Value) : deepSetObj o [] v = o := rfl

theorem deepSetObj_single (o : Obj) (k : String) (v : Value) :
    deepSetObj o [k] v = mapSet o k v := rfl

theorem deepSetObj_cons2 (o : Obj) (k seg : String) (rest : List String) (v : Value) :
    deepSetObj o (k :: seg :: rest) v =
      mapSet o k (.vobj (deepSetObj
        (match mapGet o k with
         | some (.vobj so) => so
         | _ => []) (seg :: rest) v)) := rfl

theorem deepSetObj_cons2_obj (o : Obj) (k seg : String) (rest : List String)
    (v : Value) (so : Obj) (hget : mapGet o k = some (.vobj so)) :
    deepSetObj o (k :: seg :: rest) v =
      mapSet o k (.vobj (deepSetObj so (seg :: rest) v)) := by
  rw [deepSetObj_cons2, hget]

/-- After a deep write at `p`, every strict prefix of `p` reads back a
plain object (the write materialises its whole spine). -/
theorem deepGetO_deepSetObj_prefix :
    ∀ (p : List String) (o : Obj) (v : Value) (r : List String),
      r <+: p → r ≠ p →
      ∃ ob, deepGetO (deepSetObj o p v) r = some (.vobj ob) := by
  intro p
  induction p with
  | nil =>
    intro o v r hr hrne
    exact absurd (List.prefix_nil.mp hr) hrne
  | cons k p' ih =>
    intro o v r hr hrne
    cases r with
    | nil => exact ⟨deepSetObj o (k :: p') v, deepGetO_nil _⟩
    | cons k2 r' =>
      obtain ⟨hk2, hr'⟩ : k2 = k ∧ r' <+: p' := by
        obtain ⟨t2, ht2⟩ := hr
        simp at ht2
        exact ⟨ht2.1, ⟨t2, ht2.2⟩⟩
      subst hk2
      cases p' with
      | nil =>
        rw [List.prefix_nil] at hr'
        subst hr'
        exact absurd rfl hrne
      | cons seg rest =>
        rw [deepSetObj_cons2]
        obtain ⟨ob, hob⟩ :=
          ih (match mapGet o k2 with
              | some (.vobj so) => so
              | _ => []) v r' hr' (by
            intro hh
            exact hrne (by rw [hh]))
        refine ⟨ob, ?_⟩
        rw [deepGetO_walk _ k2 _ _ (mapGet_mapSet_self o k2 _), deepGetV_obj]
        exact hob

/-- A deep write at `p` leaves the lookup of any path that is
prefix-incomparable with `p` unchanged, provided the strict prefixes of
`p` were already plain objects. -/
theorem deepGetO_deepSetObj_ne :
    ∀ (p : List String) (o : Obj) (v : Value) (q : List String),
      (∀ r, r <+: p → r ≠ p → ∃ ob, deepGetO o r = some (.vobj ob)) →
      ¬ p <+: q → ¬ q <+: p →
      deepGetO (deepSetObj o p v) q = deepGetO o q := by
  intro p
  induction p with
  | nil =>
    intro o v q _ hpq _
    exact absurd (List.nil_prefix) hpq
  | cons k p' ih =>
    intro o v q hp hpq hqp
    cases q with
    | nil => exact absurd (List.nil_prefix) hqp
    | cons b q' =>
      by_cases hbk : k = b
      · subst hbk
        cases p' with
        | nil =>
          cases q' with
          | nil => exact absurd (List.prefix_refl _) hpq
          | cons c q2 => exact absurd ⟨c :: q2, rfl⟩ hpq
        | cons seg rest =>
          cases q' with
          | nil => exact absurd ⟨seg :: rest, rfl⟩ hqp
          | cons c q2 =>
            obtain ⟨sub, hsub⟩ : ∃ sub, mapGet o k = some (.vobj sub) := by
              obtain ⟨ob, hob⟩ := hp [k] ⟨seg :: rest, rfl⟩ (by simp)
              rw [deepGetO_single] at hob
              exact ⟨ob, hob⟩
            rw [deepSetObj_cons2_obj o k seg rest v sub hsub,
              deepGetO_walk _ k _ _ (mapGet_mapSet_self o k _), deepGetV_obj,
              deepGetO_walk o k _ _ hsub, deepGetV_obj]
            refine ih sub v (c :: q2) ?_ ?_ ?_
            · intro r hr hrne
              obtain ⟨ob2, hob2⟩ := hp (k :: r) (by
                obtain ⟨t2, ht2⟩ := hr
                exact ⟨t2, by simp [ht2]⟩) (by simpa using hrne)
              rw [deepGetO_walk o k _ _ hsub, deepGetV_obj] at hob2
              exact ⟨ob2, hob2⟩
            · intro hh
              obtain ⟨t2, ht2⟩ := hh
              exact hpq ⟨t2, by simp [ht2]⟩
            · intro hh
              obtain ⟨t2, ht2⟩ := hh
              exact hqp ⟨t2, by simp [ht2]⟩
      · have hne : b ≠ k := fun hh => hbk hh.symm
        cases p' with
        | nil =>
          rw [deepSetObj_single, deepGetO_cons, deepGetO_cons,
            mapGet_mapSet_ne o k b v hne]
        | cons seg rest =>
          rw [deepSetObj_cons2, deepGetO_cons, deepGetO_cons,
            mapGet_mapSet_ne o k b _ hne]

theorem deepSetObj_cons_ne (k1 : String) (v1 : Value) (rest : Obj) (hd : String)
    (tl : List String) (v : Value) (hdk : hd ≠ k1) :
    deepSetObj ((k1, v1) :: rest) (hd :: tl) v =
      (k1, v1) :: deepSetObj rest (hd :: tl) v := by
  have hk1hd : ¬ (k1 = hd) := fun hh => hdk hh.symm
  cases tl with
  | nil =>
    rw [deepSetObj_single, deepSetObj_single]
    simp [mapSet, hk1hd]
  | cons seg rest3 =>
    rw [deepSetObj_cons2, deepSetObj_cons2]
    have hmg : mapGet ((k1, v1) :: rest) hd = mapGet rest hd := by
      simp [mapGet, hk1hd]
    rw [hmg]
    simp [mapSet, hk1hd]

theorem nodupKeysB_deepSetObj :
    ∀ (p : List String) (o : Obj) (v : Value), nodupKeysB o = true →
      valueNodupB v = true → nodupKeysB (deepSetObj o p v) = true := by
  intro p
  induction p with
  | nil =>
    intro o v ho _
    rw [deepSetObj_nil]
    exact ho
  | cons k p' ih =>
    intro o v ho hv
    cases p' with
    | nil =>
      rw [deepSetObj_single]
      exact nodupKeysB_mapSet o k v ho hv
    | cons seg rest =>
      have hmatch : nodupKeysB (match mapGet o k with
          | some (.vobj so) => so
          | _ => []) = true := by
        cases hg : mapGet o k with
        | none => exact nodupKeysB_nil
        | some u =>
          rcases u with _ | b | nn | str | xs | so
          · exact nodupKeysB_nil
          · exact nodupKeysB_nil
          · exact nodupKeysB_nil
          · exact nodupKeysB_nil
          · exact nodupKeysB_nil
          · have hx := valueNodupB_of_mapGet o k (.vobj so) ho hg
            rw [valueNodupB] at hx
            exact hx
      rw [deepSetObj_cons2]
      refine nodupKeysB_mapSet o k _ ho ?_
      have hrec := ih _ v hmatch hv
      rw [valueNodupB]
      exact hrec

/-- Writing a non-object value at an existing leaf path changes only
that leaf's value: the set of leaf paths is unchanged. -/
theorem flattenPaths_deepSetObj_aux :
    ∀ (n : Nat) (o : Obj), sizeOf o ≤ n → nodupKeysB o = true →
      ∀ (p : List String) (v : Value), p ∈ flattenPaths o → isObjV v = false →
        flattenPaths (deepSetObj o p v) = flattenPaths o := by
  intro n
  induction n with
  | zero =>
    intro o hsz
    have : 0 < sizeOf o := by cases o <;> simp
    omega
  | succ n ih =>
    intro o hsz hnd p v hp hv
    cases o with
    | nil =>
      rw [flattenPaths_nil] at hp
      simp at hp
    | cons kv rest =>
      obtain ⟨k1, v1⟩ := kv
      obtain ⟨hne, hvnd, hr⟩ := nodupKeysB_cons k1 v1 rest hnd
      have hlt2 : sizeOf rest < sizeOf ((k1, v1) :: rest) := by
        simp <;> omega
      have hrestcase : ∀ (hp2 : p ∈ flattenPaths rest),
          deepSetObj ((k1, v1) :: rest) p v =
            (k1, v1) :: deepSetObj rest p v := by
        intro hp2
        obtain ⟨hd, tl, rfl, hmem⟩ := flattenPaths_head rest p hp2
        have hdk : hd ≠ k1 := by
          obtain ⟨kv2, hkv2, hfst⟩ := List.mem_map.mp hmem
          intro hh
          exact hne kv2 hkv2 (by rw [hfst, hh])
        exact deepSetObj_cons_ne k1 v1 rest hd tl v hdk
      cases hov : isObjV v1 with
      | true =>
        obtain ⟨sub, rfl⟩ : ∃ sub, v1 = .vobj sub := by
          rcases v1 with _ | b | nn | str | xs | ob <;> simp [isObjV] at hov
          exact ⟨ob, rfl⟩
        have hlt1 : sizeOf sub < sizeOf ((k1, Value.vobj sub) :: rest) := by
          simp <;> omega
        rw [flattenPaths_cons_obj] at hp
        rcases List.mem_append.mp hp with hp1 | hp2
        · obtain ⟨q, hq, rfl⟩ := List.mem_map.mp hp1
          obtain ⟨seg, rest2, rfl⟩ : ∃ seg rest2, q = seg :: rest2 := by
            cases q with
            | nil => exact absurd rfl (flattenPaths_ne_nil sub [] hq)
            | cons a b => exact ⟨a, b, rfl⟩
          have hget : mapGet ((k1, Value.vobj sub) :: rest) k1 =
              some (.vobj sub) := by
            simp [mapGet]
          rw [deepSetObj_cons2_obj _ k1 seg rest2 v sub hget]
          have hms : mapSet ((k1, Value.vobj sub) :: rest) k1
              (.vobj (deepSetObj sub (seg :: rest2) v)) =
              (k1, .vobj (deepSetObj sub (seg :: rest2) v)) :: rest := by
            simp [mapSet]
          rw [hms, flattenPaths_cons_obj, flattenPaths_cons_obj,
            ih sub (by omega) (by
              have hx := hvnd
              rw [valueNodupB] at hx
              exact hx) (seg :: rest2) v hq hv]
        · rw [hrestcase hp2, flattenPaths_cons_obj, flattenPaths_cons_obj,
            ih rest (by omega) hr p v hp2 hv]
      | false =>
        rw [flattenPaths_cons_scalar k1 v1 rest hov] at hp
        rcases List.mem_append.mp hp with hp1 | hp2
        · simp at hp1
          subst hp1
          rw [deepSetObj_single]
          have hms : mapSet ((k1, v1) :: rest) k1 v = (k1, v) :: rest := by
            simp [mapSet]
          rw [hms, flattenPaths_cons_scalar k1 v rest hv,
            flattenPaths_cons_scalar k1 v1 rest hov]
        · rw [hrestcase hp2,
            flattenPaths_cons_scalar k1 v1 (deepSetObj rest p v) hov,
            flattenPaths_cons_scalar k1 v1 rest hov,
            ih rest (by omega) hr p v hp2 hv]

theorem flattenPaths_deepSetObj (o : Obj) (hnd : nodupKeysB o = true)
    (p : List String) (v : Value) (hp : p ∈ flattenPaths o)
    (hv : isObjV v = false) :
    flattenPaths (deepSetObj o p v) = flattenPaths o :=
  flattenPaths_deepSetObj_aux (sizeOf o) o (Nat.le_refl _) hnd p v hp hv

/-- The env-overlay fold of `allSettings`: distinct keys whose paths are
leaf paths of the accumulator rewrite exactly their own leaves (to the
resolver's value) and leave every other lookup, the key structure, and
the leaf-path set unchanged. -/
theorem envOverlay_foldl (env : EnvP) (pfx : String)
    (bindings : List (String × List String)) (auto : Bool) :
    ∀ (L : List String) (acc : Obj), nodupKeysB acc = true → L.Nodup →
      (∀ key ∈ L, splitKey key "." ∈ flattenPaths acc) →
      (∀ key1 ∈ L, ∀ key2 ∈ L, key1 ≠ key2 →
        splitKey key1 "." ≠ splitKey key2 ".") →
      (nodupKeysB (L.foldl (envOverlayStep env pfx bindings auto ".") acc) = true ∧
       flattenPaths (L.foldl (envOverlayStep env pfx bindings auto ".") acc) =
         flattenPaths acc) ∧
      (∀ key0 ∈ L,
        deepGetO (L.foldl (envOverlayStep env pfx bindings auto ".") acc)
            (splitKey key0 ".") =
          match resolveEnvKey env key0 pfx bindings auto with
          | some s => some (.vstr s)
          | none => deepGetO acc (splitKey key0 ".")) ∧
      (∀ q ∈ flattenPaths acc, (∀ key ∈ L, splitKey key "." ≠ q) →
        deepGetO (L.foldl (envOverlayStep env pfx bindings auto ".") acc) q =
          deepGetO acc q) := by
  intro L
  induction L with
  | nil =>
    intro acc hnd _ _ _
    rw [List.foldl_nil]
    refine ⟨⟨hnd, rfl⟩, ?_, fun q _ _ => rfl⟩
    intro key0 hk0
    simp at hk0
  | cons key1 Ltl ih =>
    intro acc hnd hLnd hLpaths hLdist
    obtain ⟨hk1notin, hLtlnd⟩ := List.nodup_cons.mp hLnd
    have hp1 : splitKey key1 "." ∈ flattenPaths acc := hLpaths key1 (by simp)
    have hp1ne : splitKey key1 "." ≠ [] := flattenPaths_ne_nil acc _ hp1
    have hpf : ∀ pa pb, pa ∈ flattenPaths acc → pb ∈ flattenPaths acc →
        pa ≠ pb → ¬ pa <+: pb ∧ ¬ pb <+: pa := by
      intro pa pb ha hb hne
      constructor
      · intro hh
        exact hne (flattenPaths_prefix_free acc hnd pa pb ha hb hh)
      · intro hh
        exact hne ((flattenPaths_prefix_free acc hnd pb pa hb ha hh).symm)
    have htaildist : ∀ key ∈ Ltl, splitKey key "." ≠ splitKey key1 "." := by
      intro key hk
      refine hLdist key (by simp [hk]) key1 (by simp) ?_
      intro hh
      subst hh
      exact hk1notin hk
    rw [List.foldl_cons]
    cases hres : resolveEnvKey env key1 pfx bindings auto with
    | none =>
      have hstep : envOverlayStep env pfx bindings auto "." acc key1 = acc := by
        rw [envOverlayStep, hres]
      rw [hstep]
      have hrec := ih acc hnd hLtlnd
        (fun key hk => hLpaths key (List.mem_cons_of_mem _ hk))
        (fun ka hka kb hkb hne => hLdist ka (List.mem_cons_of_mem _ hka)
          kb (List.mem_cons_of_mem _ hkb) hne)
      refine ⟨hrec.1, ?_, ?_⟩
      · intro key0 hk0
        rcases List.mem_cons.mp hk0 with rfl | hk0tl
        · rw [hres]
          exact hrec.2.2 (splitKey key0 ".") hp1 (fun key hk => htaildist key hk)
        · exact hrec.2.1 key0 hk0tl
      · intro q hq hqne
        exact hrec.2.2 q hq (fun key hk => hqne key (List.mem_cons_of_mem _ hk))
    | some s =>
      have hvnd : valueNodupB (.vstr s) = true := rfl
      have hvobj : isObjV (.vstr s) = false := rfl
      have hnd2 : nodupKeysB (deepSetObj acc (splitKey key1 ".") (.vstr s)) = true :=
        nodupKeysB_deepSetObj _ acc _ hnd hvnd
      have hFP2 : flattenPaths (deepSetObj acc (splitKey key1 ".") (.vstr s)) =
          flattenPaths acc :=
        flattenPaths_deepSetObj acc hnd _ _ hp1 hvobj
      have hstep : envOverlayStep env pfx bindings auto "." acc key1 =
          deepSetObj acc (splitKey key1 ".") (.vstr s) := by
        rw [envOverlayStep, hres]
      rw [hstep]
      have hprefacc : ∀ r, r <+: splitKey key1 "." → r ≠ splitKey key1 "." →
          ∃ ob, deepGetO acc r = some (.vobj ob) :=
        (flattenPaths_lookup acc hnd _ hp1).2
      have hrec := ih (deepSetObj acc (splitKey key1 ".") (.vstr s)) hnd2 hLtlnd
        (fun key hk => by
          rw [hFP2]
          exact hLpaths key (List.mem_cons_of_mem _ hk))
        (fun ka hka kb hkb hne => hLdist ka (List.mem_cons_of_mem _ hka)
          kb (List.mem_cons_of_mem _ hkb) hne)
      refine ⟨⟨hrec.1.1, by rw [hrec.1.2, hFP2]⟩, ?_, ?_⟩
      · intro key0 hk0
        rcases List.mem_cons.mp hk0 with rfl | hk0tl
        · rw [hres]
          have hc := hrec.2.2 (splitKey key0 ".") (by rw [hFP2]; exact hp1)
            (fun key hk => htaildist key hk)
          rw [hc]
          exact deepGetO_deepSetObj_self _ acc _ hp1ne
        · have hb := hrec.2.1 key0 hk0tl
          have hk0ne : key0 ≠ key1 := by
            intro hh
            subst hh
            exact hk1notin hk0tl
          have hpne : splitKey key0 "." ≠ splitKey key1 "." := by
            refine hLdist key0 (by simp [hk0tl]) key1 (by simp) hk0ne
          have hp0 : splitKey key0 "." ∈ flattenPaths acc :=
            hLpaths key0 (by simp [hk0tl])
          have hacc2 : deepGetO (deepSetObj acc (splitKey key1 ".") (.vstr s))
              (splitKey key0 ".") = deepGetO acc (splitKey key0 ".") := by
            obtain ⟨hnp1, hnp2⟩ := hpf _ _ hp1 hp0 (fun hh => hpne hh.symm)
            exact deepGetO_deepSetObj_ne _ acc _ _ hprefacc hnp1 hnp2
          cases hres0 : resolveEnvKey env key0 pfx bindings auto with
          | some s0 =>
            rw [hres0] at hb
            exact hb
          | none =>
            rw [hres0] at hb
            rw [hb]
            exact hacc2
      · intro q hq hqne
        have hc := hrec.2.2 q (by rw [hFP2]; exact hq)
          (fun key hk => hqne key (List.mem_cons_of_mem _ hk))
        rw [hc]
        obtain ⟨hnp1, hnp2⟩ := hpf _ _ hp1 hq (fun hh => hqne key1 (by simp) hh)
        exact deepGetO_deepSetObj_ne _ acc _ _ hprefacc hnp1 hnp2

/-! ## C2 groundwork: assembling the three layers -/

theorem isObjV_of_atomicB (w : Value) (h : atomicB w = true) : isObjV w = false := by
  rcases w with _ | b | nn | str | xs | ob <;> simp [isObjV]
  rw [atomicB] at h
  exact Bool.noConfusion h

theorem cross_notobj (X Y : Obj) (hsh : shapeCB X Y = true) (p0 : List String)
    (hne : p0 ≠ []) (wx : Value) (hwx : deepGetO X p0 = some wx)
    (hwxo : isObjV wx = false) :
    ∀ wy, deepGetO Y p0 = some wy → isObjV wy = false := by
  intro wy hwy
  rcases shapeCB_deepGetO p0 X Y wx wy hne hsh hwx hwy with ⟨a, b, ha, _, _⟩ | ⟨_, h2⟩
  · rw [ha] at hwxo
    simp [isObjV] at hwxo
  · exact isObjV_of_atomicB wy h2

theorem cross_objpref (X Y : Obj) (hsh : shapeCB X Y = true) (r : List String)
    (hne : r ≠ []) (a : Obj) (hxa : deepGetO X r = some (.vobj a)) :
    deepGetO Y r = none ∨ ∃ ob, deepGetO Y r = some (.vobj ob) := by
  cases hy : deepGetO Y r with
  | none => exact Or.inl rfl
  | some wy =>
    rcases shapeCB_deepGetO r X Y _ wy hne hsh hxa hy with ⟨a2, b2, _, hb2, _⟩ | ⟨h1, _⟩
    · exact Or.inr ⟨b2, by rw [hb2]⟩
    · rw [atomicB] at h1
      exact Bool.noConfusion h1

/-- At a path where no layer holds a plain object, the three-layer merge
looks up to exactly the first present value in Overrides, Config,
Defaults order. -/
theorem merged_or_of_leaf (D C O : Obj)
    (hndC : nodupKeysB C = true) (hnnC : noNullB C = true)
    (hndO : nodupKeysB O = true) (hnnO : noNullB O = true)
    (hshDC : shapeCB D C = true) (hshM2O : shapeCB (deepMerge D C) O = true)
    (p0 : List String) (hne : p0 ≠ [])
    (hDno : ∀ w, deepGetO D p0 = some w → isObjV w = false)
    (hOno : ∀ w, deepGetO O p0 = some w → isObjV w = false) :
    deepGetO (deepMerge (deepMerge D C) O) p0 =
      (deepGetO O p0).or ((deepGetO C p0).or (deepGetO D p0)) := by
  have hM2 : deepGetO (deepMerge D C) p0 = (deepGetO C p0).or (deepGetO D p0) := by
    rcases deepGetO_deepMerge_or p0 hne D C hndC hnnC hshDC with h | ⟨a, b, hta, _, _⟩
    · exact h
    · have := hDno _ hta
      simp [isObjV] at this
  rcases deepGetO_deepMerge_or p0 hne (deepMerge D C) O hndO hnnO hshM2O with
    h | ⟨a, b, _, hsb, _⟩
  · rw [h, hM2]
  · have := hOno _ hsb
    simp [isObjV] at this

/-- At a path where each layer is absent or a plain object — at least
one of them a plain object — the three-layer merge holds a plain
object. -/
theorem merged_pref_obj (D C O : Obj)
    (hndC : nodupKeysB C = true) (hnnC : noNullB C = true)
    (hndO : nodupKeysB O = true) (hnnO : noNullB O = true)
    (hshDC : shapeCB D C = true) (hshM2O : shapeCB (deepMerge D C) O = true)
    (r : List String) (hne : r ≠ [])
    (hDr : deepGetO D r = none ∨ ∃ ob, deepGetO D r = some (.vobj ob))
    (hCr : deepGetO C r = none ∨ ∃ ob, deepGetO C r = some (.vobj ob))
    (hOr : deepGetO O r = none ∨ ∃ ob, deepGetO O r = some (.vobj ob))
    (hXr : ∃ ob, deepGetO D r = some (.vobj ob) ∨ deepGetO C r = some (.vobj ob) ∨
      deepGetO O r = some (.vobj ob)) :
    ∃ ob, deepGetO (deepMerge (deepMerge D C) O) r = some (.vobj ob) := by
  have hM2r : (deepGetO (deepMerge D C) r = none ∧ deepGetO D r = none ∧
      deepGetO C r = none) ∨
      ∃ ob, deepGetO (deepMerge D C) r = some (.vobj ob) := by
    rcases deepGetO_deepMerge_or r hne D C hndC hnnC hshDC with h | ⟨a, b, _, _, hm⟩
    · rcases hCr with hCnone | ⟨ob, hob⟩
      · rcases hDr with hDnone | ⟨ob, hob⟩
        · exact Or.inl ⟨by rw [h, hCnone, hDnone]; rfl, hDnone, hCnone⟩
        · exact Or.inr ⟨ob, by rw [h, hCnone, hob]; rfl⟩
      · exact Or.inr ⟨ob, by rw [h, hob]; rfl⟩
    · exact Or.inr ⟨deepMerge a b, hm⟩
  rcases deepGetO_deepMerge_or r hne (deepMerge D C) O hndO hnnO hshM2O with
    h | ⟨a, b, _, _, hm⟩
  · rcases hOr with hOnone | ⟨ob, hob⟩
    · rcases hM2r with ⟨hM2none, hDnone, hCnone⟩ | ⟨ob, hob⟩
      · exfalso
        obtain ⟨ob, hx⟩ := hXr
        rcases hx with hx | hx | hx
        · rw [hDnone] at hx
          exact Option.noConfusion hx
        · rw [hCnone] at hx
          exact Option.noConfusion hx
        · rw [hOnone] at hx
          exact Option.noConfusion hx
      · exact ⟨ob, by rw [h, hOnone, hob]; rfl⟩
    · exact ⟨ob, by rw [h, hob]; rfl⟩
  · exact ⟨deepMerge a b, hm⟩

theorem flattenKeys_nodup (o : Obj) (hnd : nodupKeysB o = true)
    (hgood : goodKeysB o = true) : (flattenKeys o "").Nodup := by
  rw [flattenKeys_eq_map]
  refine List.Nodup.map_on ?_ (flattenPaths_nodup o hnd)
  intro p1 h1 p2 h2 heq
  have e1 : splitKey (joinPre "" p1) "." = p1 :=
    splitKey_joinPre p1 (flattenPaths_ne_nil o p1 h1) (flattenPaths_good o hgood p1 h1)
  have e2 : splitKey (joinPre "" p2) "." = p2 :=
    splitKey_joinPre p2 (flattenPaths_ne_nil o p2 h2) (flattenPaths_good o hgood p2 h2)
  rw [← e1, ← e2, heq]

theorem flattenKeys_split (o : Obj) (hgood : goodKeysB o = true) :
    ∀ key ∈ flattenKeys o "", splitKey key "." ∈ flattenPaths o ∧
      joinPre "" (splitKey key ".") = key := by
  intro key hk
  rw [flattenKeys_eq_map] at hk
  obtain ⟨p, hp, rfl⟩ := List.mem_map.mp hk
  rw [splitKey_joinPre p (flattenPaths_ne_nil o p hp) (flattenPaths_good o hgood p hp)]
  exact ⟨hp, rfl⟩

theorem mem_allKeys (v : Viper) (key : String) :
    key ∈ v.allKeys ↔ key ∈ flattenKeys v.defaults "" ∨
      key ∈ flattenKeys v.config "" ∨ key ∈ flattenKeys v.overrides "" := by
  rw [Viper.allKeys, List.mem_mergeSort, List.mem_dedup]
  simp [or_assoc]

/-- What a leaf path of one layer implies about any (same or
shape-compatible) layer: no plain object at the path itself; absent or a
plain object at every strict prefix. -/
theorem layer_package_one (X Y : Obj) (hsame : X = Y ∨ shapeCB X Y = true)
    (hndX : nodupKeysB X = true) (p0 : List String)
    (hp0 : p0 ∈ flattenPaths X) :
    (∀ w, deepGetO Y p0 = some w → isObjV w = false) ∧
    (∀ r, r <+: p0 → r ≠ p0 → r ≠ [] →
      (deepGetO Y r = none ∨ ∃ ob, deepGetO Y r = some (.vobj ob))) := by
  obtain ⟨⟨wX, hwX, hwXo⟩, hXpref⟩ := flattenPaths_lookup X hndX p0 hp0
  have hne : p0 ≠ [] := flattenPaths_ne_nil X p0 hp0
  rcases hsame with rfl | hsh
  · refine ⟨?_, ?_⟩
    · intro w hw
      rw [hwX] at hw
      obtain rfl : wX = w := Option.some.inj hw
      exact hwXo
    · intro r hr hrne _
      exact Or.inr (hXpref r hr hrne)
  · refine ⟨cross_notobj X Y hsh p0 hne wX hwX hwXo, ?_⟩
    intro r hr hrne hrn
    obtain ⟨xa, hxa⟩ := hXpref r hr hrne
    exact cross_objpref X Y hsh r hrn xa hxa

/-- C2 (amended): with the dot delimiter, no aliases, well-formed layers
(unique keys, no nulls, well-behaved lowercase keys), pairwise
structurally compatible layers, and an environment resolver silent on
every flattened key of the Overrides layer, `allSettings()` is consistent
with `get`: every key of `allKeys()` looks up in the snapshot to exactly
the value `get` returns, and the snapshot surfaces no key outside
`allKeys()`.  (The counterexample shows the unconditional claim false:
the env overlay runs after the merge, so a live env value overwrites an
Overrides leaf in the snapshot while `get` still prefers Overrides.) -/
theorem C2_allSettings_consistency (v : Viper) (env : EnvP)
    (hdelim : v.keyDelim = ".") (halias : v.aliases = [])
    (hwfD : wfLayerB v.defaults = true) (hwfC : wfLayerB v.config = true)
    (hwfO : wfLayerB v.overrides = true)
    (hshDC : shapeCB v.defaults v.config = true)
    (hshDO : shapeCB v.defaults v.overrides = true)
    (hshCO : shapeCB v.config v.overrides = true)
    (henv : ∀ key ∈ flattenKeys v.overrides "",
      resolveEnvKey env key v.envPrefix v.envBindings v.autoEnv = none) :
    (∀ key ∈ v.allKeys, ∃ w, v.get env key = .ok (some w) ∧
      deepGetO (v.allSettings env) (splitKey key v.keyDelim) = some w) ∧
    (∀ key ∈ flattenKeys (v.allSettings env) "", key ∈ v.allKeys) := by
  have hwf : ∀ o : Obj, wfLayerB o = true →
      nodupKeysB o = true ∧ noNullB o = true ∧ goodKeysB o = true := by
    intro o h
    rw [wfLayerB] at h
    simp only [Bool.and_eq_true] at h
    exact ⟨h.1.1, h.1.2, h.2⟩
  obtain ⟨hndD, hnnD, hgD⟩ := hwf _ hwfD
  obtain ⟨hndC, hnnC, hgC⟩ := hwf _ hwfC
  obtain ⟨hndO, hnnO, hgO⟩ := hwf _ hwfO
  have hshCD : shapeCB v.config v.defaults = true :=
    shapeCB_symm v.defaults v.config hndC hshDC
  have hshOD : shapeCB v.overrides v.defaults = true :=
    shapeCB_symm v.defaults v.overrides hndO hshDO
  have hshOC : shapeCB v.overrides v.config = true :=
    shapeCB_symm v.config v.overrides hndO hshCO
  have hM0 : deepMerge [] v.defaults = v.defaults :=
    deepMerge_nil_left _ (nodupTopB_of_nodupKeysB _ hndD)
      (noNullTopB_of_noNullB _ hnnD)
  have hndM2 : nodupKeysB (deepMerge v.defaults v.config) = true :=
    nodupKeysB_deepMerge _ _ hndD hndC
  have hgM2 : goodKeysB (deepMerge v.defaults v.config) = true :=
    goodKeysB_deepMerge _ _ hgD hgC
  have hshM2O : shapeCB (deepMerge v.defaults v.config) v.overrides = true :=
    shapeCB_deepMerge _ _ _ hndD hndC hnnC hshDO hshCO
  have hndM : nodupKeysB (deepMerge (deepMerge v.defaults v.config) v.overrides) =
      true := nodupKeysB_deepMerge _ _ hndM2 hndO
  have hgM : goodKeysB (deepMerge (deepMerge v.defaults v.config) v.overrides) =
      true := goodKeysB_deepMerge _ _ hgM2 hgO
  have hAS : v.allSettings env =
      (flattenKeys (deepMerge (deepMerge v.defaults v.config) v.overrides)
        "").foldl
        (envOverlayStep env v.envPrefix v.envBindings v.autoEnv ".")
        (deepMerge (deepMerge v.defaults v.config) v.overrides) := by
    have hstep : v.allSettings env =
        (flattenKeys (deepMerge (deepMerge (deepMerge [] v.defaults) v.config)
            v.overrides) "").foldl
          (envOverlayStep env v.envPrefix v.envBindings v.autoEnv v.keyDelim)
          (deepMerge (deepMerge (deepMerge [] v.defaults) v.config)
            v.overrides) := rfl
    rw [hstep, hM0, hdelim]
  have hLpaths : ∀ key ∈ flattenKeys
      (deepMerge (deepMerge v.defaults v.config) v.overrides) "",
      splitKey key "." ∈ flattenPaths
        (deepMerge (deepMerge v.defaults v.config) v.overrides) :=
    fun key hk => (flattenKeys_split _ hgM key hk).1
  have hLjoin : ∀ key ∈ flattenKeys
      (deepMerge (deepMerge v.defaults v.config) v.overrides) "",
      joinPre "" (splitKey key ".") = key :=
    fun key hk => (flattenKeys_split _ hgM key hk).2
  have hLdist : ∀ key1 ∈ flattenKeys
      (deepMerge (deepMerge v.defaults v.config) v.overrides) "",
      ∀ key2 ∈ flattenKeys
        (deepMerge (deepMerge v.defaults v.config) v.overrides) "",
      key1 ≠ key2 → splitKey key1 "." ≠ splitKey key2 "." := by
    intro k1 h1 k2 h2 hne heq
    apply hne
    rw [← hLjoin k1 h1, ← hLjoin k2 h2, heq]
  have hfold := envOverlay_foldl env v.envPrefix v.envBindings v.autoEnv
    (flattenKeys (deepMerge (deepMerge v.defaults v.config) v.overrides) "")
    (deepMerge (deepMerge v.defaults v.config) v.overrides)
    hndM (flattenKeys_nodup _ hndM hgM) hLpaths hLdist
  constructor
  · -- consistency for every known key
    intro key hkey
    -- the providing layer
    have hlayer : ∃ X, (X = v.defaults ∨ X = v.config ∨ X = v.overrides) ∧
        nodupKeysB X = true ∧ goodKeysB X = true ∧
        splitKey key "." ∈ flattenPaths X ∧
        joinPre "" (splitKey key ".") = key := by
      rcases (mem_allKeys v key).mp hkey with hk | hk | hk
      · exact ⟨v.defaults, Or.inl rfl, hndD, hgD,
          (flattenKeys_split _ hgD key hk).1, (flattenKeys_split _ hgD key hk).2⟩
      · exact ⟨v.config, Or.inr (Or.inl rfl), hndC, hgC,
          (flattenKeys_split _ hgC key hk).1, (flattenKeys_split _ hgC key hk).2⟩
      · exact ⟨v.overrides, Or.inr (Or.inr rfl), hndO, hgO,
          (flattenKeys_split _ hgO key hk).1, (flattenKeys_split _ hgO key hk).2⟩
    obtain ⟨X, hXmem, hndX, hgX, hpX, hjoin⟩ := hlayer
    have hp0ne : splitKey key "." ≠ [] := flattenPaths_ne_nil X _ hpX
    have hp0good : ∀ s ∈ splitKey key ".", goodStrB s = true :=
      flattenPaths_good X hgX _ hpX
    -- jsToLower leaves the key unchanged, no alias entry
    have hlow : jsToLower key = key := by
      rw [← hjoin]
      exact jsToLower_joinPre _ hp0ne hp0good
    have halias2 : v.resolveAlias (jsToLower key) = .ok key := by
      rw [hlow]
      exact resolveAlias_no_entry v key (by rw [halias]; rfl)
    -- the layer packages
    have hsameD : X = v.defaults ∨ shapeCB X v.defaults = true := by
      rcases hXmem with rfl | rfl | rfl
      · exact Or.inl rfl
      · exact Or.inr hshCD
      · exact Or.inr hshOD
    have hsameC : X = v.config ∨ shapeCB X v.config = true := by
      rcases hXmem with rfl | rfl | rfl
      · exact Or.inr hshDC
      · exact Or.inl rfl
      · exact Or.inr hshOC
    have hsameO : X = v.overrides ∨ shapeCB X v.overrides = true := by
      rcases hXmem with rfl | rfl | rfl
      · exact Or.inr hshDO
      · exact Or.inr hshCO
      · exact Or.inl rfl
    obtain ⟨hDno, hDpre⟩ := layer_package_one X v.defaults hsameD hndX _ hpX
    obtain ⟨hCno, hCpre⟩ := layer_package_one X v.config hsameC hndX _ hpX
    obtain ⟨hOno, hOpre⟩ := layer_package_one X v.overrides hsameO hndX _ hpX
    obtain ⟨⟨wX, hwX, hwXo⟩, hXpref⟩ := flattenPaths_lookup X hndX _ hpX
    have hXsome : ¬ (deepGetO v.overrides (splitKey key ".") = none ∧
        deepGetO v.config (splitKey key ".") = none ∧
        deepGetO v.defaults (splitKey key ".") = none) := by
      intro ⟨hO1, hC1, hD1⟩
      rcases hXmem with rfl | rfl | rfl
      · rw [hD1] at hwX
        exact Option.noConfusion hwX
      · rw [hC1] at hwX
        exact Option.noConfusion hwX
      · rw [hO1] at hwX
        exact Option.noConfusion hwX
    -- the merged tree at the path and at its strict prefixes
    have hMor := merged_or_of_leaf v.defaults v.config v.overrides hndC hnnC
      hndO hnnO hshDC hshM2O _ hp0ne hDno hOno
    have hMpref : ∀ r, r <+: splitKey key "." → r ≠ splitKey key "." →
        ∃ ob, deepGetO (deepMerge (deepMerge v.defaults v.config) v.overrides) r =
          some (.vobj ob) := by
      intro r hr hrne
      cases r with
      | nil => exact ⟨_, deepGetO_nil _⟩
      | cons rk rtl =>
        have hrn : (rk :: rtl) ≠ ([] : List String) := by simp
        have hXr : ∃ ob, deepGetO v.defaults (rk :: rtl) = some (.vobj ob) ∨
            deepGetO v.config (rk :: rtl) = some (.vobj ob) ∨
            deepGetO v.overrides (rk :: rtl) = some (.vobj ob) := by
          obtain ⟨xa, hxa⟩ := hXpref (rk :: rtl) hr hrne
          rcases hXmem with rfl | rfl | rfl
          · exact ⟨xa, Or.inl hxa⟩
          · exact ⟨xa, Or.inr (Or.inl hxa)⟩
          · exact ⟨xa, Or.inr (Or.inr hxa)⟩
        exact merged_pref_obj v.defaults v.config v.overrides hndC hnnC hndO hnnO
          hshDC hshM2O (rk :: rtl) hrn (hDpre _ hr hrne hrn) (hCpre _ hr hrne hrn)
          (hOpre _ hr hrne hrn) hXr
    have hMval : ∃ wM, deepGetO
        (deepMerge (deepMerge v.defaults v.config) v.overrides)
        (splitKey key ".") = some wM ∧ isObjV wM = false := by
      rw [hMor]
      cases hO1 : deepGetO v.overrides (splitKey key ".") with
      | some x => exact ⟨x, rfl, hOno x hO1⟩
      | none =>
        cases hC1 : deepGetO v.config (splitKey key ".") with
        | some x => exact ⟨x, rfl, hCno x hC1⟩
        | none =>
          cases hD1 : deepGetO v.defaults (splitKey key ".") with
          | some x => exact ⟨x, rfl, hDno x hD1⟩
          | none => exact absurd ⟨hO1, hC1, hD1⟩ hXsome
    obtain ⟨wM, hwM, hwMo⟩ := hMval
    have hpM : splitKey key "." ∈ flattenPaths
        (deepMerge (deepMerge v.defaults v.config) v.overrides) :=
      flattenPaths_intro _ _ wM hwM hwMo hMpref
    have hkeyL : key ∈ flattenKeys
        (deepMerge (deepMerge v.defaults v.config) v.overrides) "" := by
      rw [flattenKeys_eq_map]
      exact List.mem_map.mpr ⟨_, hpM, hjoin⟩
    have hb := hfold.2.1 key hkeyL
    cases hres : resolveEnvKey env key v.envPrefix v.envBindings v.autoEnv with
    | some s =>
      -- the overrides layer must miss this key, or the resolver would be
      -- silenced by the hypothesis
      have hOmiss : deepGetO v.overrides (splitKey key ".") = none := by
        cases ho : deepGetO v.overrides (splitKey key ".") with
        | none => rfl
        | some wo =>
          exfalso
          have hwoo : isObjV wo = false := hOno wo ho
          have hpO : splitKey key "." ∈ flattenPaths v.overrides := by
            refine flattenPaths_intro _ _ wo ho hwoo ?_
            intro r hr hrne
            cases r with
            | nil => exact ⟨_, deepGetO_nil _⟩
            | cons rk rtl =>
              obtain ⟨u, hu, hat⟩ := deepGetV_prefix _ (.vobj v.overrides) wo ho
                (rk :: rtl) hr hrne
              rw [deepGetV_obj] at hu
              rcases atomicB_false_cases u hat with ⟨ou, rfl⟩ | ⟨xs, rfl⟩
              · exact ⟨ou, hu⟩
              · rcases hOpre (rk :: rtl) hr hrne (by simp) with hnone | ⟨ob, hob⟩
                · rw [hnone] at hu
                  exact Option.noConfusion hu
                · rw [hob] at hu
                  exact Value.noConfusion (Option.some.inj hu)
          have hkO : key ∈ flattenKeys v.overrides "" := by
            rw [flattenKeys_eq_map]
            exact List.mem_map.mpr ⟨_, hpO, hjoin⟩
          rw [henv key hkO] at hres
          exact Option.noConfusion hres
      refine ⟨.vstr s, ?_, ?_⟩
      · simp only [Viper.get, halias2, hdelim, hOmiss, hres]
      · rw [hAS, hdelim]
        rw [hres] at hb
        exact hb
    | none =>
      rw [hres] at hb
      have hfinal : deepGetO (v.allSettings env) (splitKey key v.keyDelim) =
          deepGetO (deepMerge (deepMerge v.defaults v.config) v.overrides)
            (splitKey key ".") := by
        rw [hAS, hdelim]
        exact hb
      rw [hfinal, hMor]
      cases hO1 : deepGetO v.overrides (splitKey key ".") with
      | some x =>
        refine ⟨x, ?_, rfl⟩
        simp only [Viper.get, halias2, hdelim, hO1]
      | none =>
        cases hC1 : deepGetO v.config (splitKey key ".") with
        | some x =>
          refine ⟨x, ?_, rfl⟩
          simp only [Viper.get, halias2, hdelim, hO1, hres, hC1]
        | none =>
          cases hD1 : deepGetO v.defaults (splitKey key ".") with
          | some x =>
            refine ⟨x, ?_, rfl⟩
            simp only [Viper.get, halias2, hdelim, hO1, hres, hC1, hD1]
          | none => exact absurd ⟨hO1, hC1, hD1⟩ hXsome
  · -- no key outside allKeys surfaces in the snapshot
    intro key hk
    rw [hAS, flattenKeys_eq_map] at hk
    obtain ⟨p, hp, rfl⟩ := List.mem_map.mp hk
    rw [hfold.1.2] at hp
    rcases flattenPaths_deepMerge_subset _ v.overrides hndM2 hndO hnnO hshM2O
      p hp with hpM2 | hpO
    · rcases flattenPaths_deepMerge_subset v.defaults v.config hndD hndC hnnC
        hshDC p hpM2 with hpD | hpC
      · exact (mem_allKeys v _).mpr (Or.inl (by
          rw [flattenKeys_eq_map]
          exact List.mem_map.mpr ⟨p, hpD, rfl⟩))
      · exact (mem_allKeys v _).mpr (Or.inr (Or.inl (by
          rw [flattenKeys_eq_map]
          exact List.mem_map.mpr ⟨p, hpC, rfl⟩)))
    · exact (mem_allKeys v _).mpr (Or.inr (Or.inr (by
        rw [flattenKeys_eq_map]
        exact List.mem_map.mpr ⟨p, hpO, rfl⟩)))

/-- C2, counterexample to the unconditional claim: with an override at
`port` and a live auto-env variable `PORT`, `get("port")` returns the
override (Overrides beat Env in `get`), but `allSettings()` applies the
env overlay after the merge, so the snapshot holds the env string at
`port` — the two disagree on a key of `allKeys()`. -/
theorem C2_counterexample :
    ("port" ∈ ({ Viper.init "." with overrides := [("port", Value.vnum 4000)], autoEnv := true : Viper }).allKeys) ∧
    (({ Viper.init "." with overrides := [("port", Value.vnum 4000)], autoEnv := true : Viper }).get
        (fun s => if s = "PORT" then some "4040" else none) "port" =
      .ok (some (Value.vnum 4000))) ∧
    (deepGetO (({ Viper.init "." with overrides := [("port", Value.vnum 4000)], autoEnv := true : Viper }).allSettings
        (fun s => if s = "PORT" then some "4040" else none))
      (splitKey "port" ".") = some (Value.vstr "4040")) ∧
    some (Value.vstr "4040") ≠ some (Value.vnum 4000) := by
  refine ⟨?_, rfl, ?_, by simp⟩
  · refine (mem_allKeys _ _).mpr (Or.inr (Or.inr ?_))
    show "port" ∈ flattenKeys [("port", Value.vnum 4000)] ""
    rw [flattenKeys_cons_scalar "port" (Value.vnum 4000) [] "" rfl, flattenKeys_nil]
    simp [joinKey]
  · have h1 : ({ Viper.init "." with overrides := [("port", Value.vnum 4000)], autoEnv := true : Viper }).allSettings
        (fun s => if s = "PORT" then some "4040" else none) =
        (flattenKeys (deepMerge (deepMerge (deepMerge [] [])
            []) [("port", Value.vnum 4000)]) "").foldl
          (envOverlayStep (fun s => if s = "PORT" then some "4040" else none)
            "" [] true ".")
          (deepMerge (deepMerge (deepMerge [] []) [])
            [("port", Value.vnum 4000)]) := rfl
    have h2 : deepMerge (deepMerge (deepMerge ([] : Obj) []) [])
        [("port", Value.vnum 4000)] = [("port", Value.vnum 4000)] := by
      rw [deepMerge_nil_right, deepMerge_nil_right, deepMerge_cons_num,
        deepMerge_nil_right]
      rfl
    rw [h1, h2, flattenKeys_cons_scalar "port" (Value.vnum 4000) [] "" rfl, flattenKeys_nil]
    rfl

theorem C2_allSettings_consistency_witness :
    (wfLayerB [("db", Value.vobj [("host", Value.vstr "localhost")]),
      ("port", Value.vnum 3000)] = true) ∧
    (wfLayerB [("db", Value.vobj [("host", Value.vstr "prod")])] = true) ∧
    (wfLayerB [("port", Value.vnum 8080)] = true) ∧
    (shapeCB [("db", Value.vobj [("host", Value.vstr "localhost")]),
      ("port", Value.vnum 3000)] [("db", Value.vobj [("host", Value.vstr "prod")])] = true) ∧
    (shapeCB [("db", Value.vobj [("host", Value.vstr "localhost")]),
      ("port", Value.vnum 3000)] [("port", Value.vnum 8080)] = true) ∧
    (shapeCB [("db", Value.vobj [("host", Value.vstr "prod")])]
      [("port", Value.vnum 8080)] = true) ∧
    (∀ key ∈ flattenKeys [("port", Value.vnum 8080)] "",
      resolveEnvKey (fun s => if s = "DB_HOST" then some "envhost" else none)
        key "" [] true = none) ∧
    ((∀ key ∈ ({ Viper.init "." with defaults := [("db", Value.vobj [("host", Value.vstr "localhost")]), ("port", Value.vnum 3000)], config := [("db", Value.vobj [("host", Value.vstr "prod")])], overrides := [("port", Value.vnum 8080)], autoEnv := true : Viper }).allKeys,
      ∃ w, ({ Viper.init "." with defaults := [("db", Value.vobj [("host", Value.vstr "localhost")]), ("port", Value.vnum 3000)], config := [("db", Value.vobj [("host", Value.vstr "prod")])], overrides := [("port", Value.vnum 8080)], autoEnv := true : Viper }).get
          (fun s => if s = "DB_HOST" then some "envhost" else none) key = .ok (some w) ∧
        deepGetO (({ Viper.init "." with defaults := [("db", Value.vobj [("host", Value.vstr "localhost")]), ("port", Value.vnum 3000)], config := [("db", Value.vobj [("host", Value.vstr "prod")])], overrides := [("port", Value.vnum 8080)], autoEnv := true : Viper }).allSettings
          (fun s => if s = "DB_HOST" then some "envhost" else none))
          (splitKey key ".") = some w) ∧
    (∀ key ∈ flattenKeys (({ Viper.init "." with defaults := [("db", Value.vobj [("host", Value.vstr "localhost")]), ("port", Value.vnum 3000)], config := [("db", Value.vobj [("host", Value.vstr "prod")])], overrides := [("port", Value.vnum 8080)], autoEnv := true : Viper }).allSettings
        (fun s => if s = "DB_HOST" then some "envhost" else none)) "",
      key ∈ ({ Viper.init "." with defaults := [("db", Value.vobj [("host", Value.vstr "localhost")]), ("port", Value.vnum 3000)], config := [("db", Value.vobj [("host", Value.vstr "prod")])], overrides := [("port", Value.vnum 8080)], autoEnv := true : Viper }).allKeys)) := by
  have h3 : wfLayerB [("db", Value.vobj [("host", Value.vstr "localhost")]),
      ("port", Value.vnum 3000)] = true := by
    simp [wfLayerB, nodupKeysB_cons_eq, nodupKeysB_nil, noNullB_cons_eq,
      noNullB_nil, goodKeysB_cons_eq, goodKeysB_nil, valueNodupB, valueNoNullB,
      valueGoodKeysB]
    decide
  have h4 : wfLayerB [("db", Value.vobj [("host", Value.vstr "prod")])] = true := by
    simp [wfLayerB, nodupKeysB_cons_eq, nodupKeysB_nil, noNullB_cons_eq,
      noNullB_nil, goodKeysB_cons_eq, goodKeysB_nil, valueNodupB, valueNoNullB,
      valueGoodKeysB]
    decide
  have h5 : wfLayerB [("port", Value.vnum 8080)] = true := by
    simp [wfLayerB, nodupKeysB_cons_eq, nodupKeysB_nil, noNullB_cons_eq,
      noNullB_nil, goodKeysB_cons_eq, goodKeysB_nil, valueNodupB, valueNoNullB,
      valueGoodKeysB]
    decide
  have h6 : shapeCB [("db", Value.vobj [("host", Value.vstr "localhost")]),
      ("port", Value.vnum 3000)] [("db", Value.vobj [("host", Value.vstr "prod")])] =
      true := by
    simp [shapeCB, mapGet, atomicB]
  have h7 : shapeCB [("db", Value.vobj [("host", Value.vstr "localhost")]),
      ("port", Value.vnum 3000)] [("port", Value.vnum 8080)] = true := by
    simp [shapeCB, mapGet, atomicB]
  have h8 : shapeCB [("db", Value.vobj [("host", Value.vstr "prod")])]
      [("port", Value.vnum 8080)] = true := by
    simp [shapeCB, mapGet, atomicB]
  have h9 : ∀ key ∈ flattenKeys [("port", Value.vnum 8080)] "",
      resolveEnvKey (fun s => if s = "DB_HOST" then some "envhost" else none)
        key "" [] true = none := by
    intro key hk
    rw [flattenKeys_cons_scalar "port" (Value.vnum 8080) [] "" rfl,
      flattenKeys_nil] at hk
    simp [joinKey] at hk
    subst hk
    rfl
  exact ⟨h3, h4, h5, h6, h7, h8, h9,
    C2_allSettings_consistency
      { Viper.init "." with defaults := [("db", Value.vobj [("host", Value.vstr "localhost")]), ("port", Value.vnum 3000)], config := [("db", Value.vobj [("host", Value.vstr "prod")])], overrides := [("port", Value.vnum 8080)], autoEnv := true }
      (fun s => if s = "DB_HOST" then some "envhost" else none)
      rfl rfl h3 h4 h5 h6 h7 h8 h9⟩

end VSpec
